import Mathlib

/-!
# Periodic fee allowances (x/fee_grant/internal/types/periodic_fee.go)

A shallow embedding of `PeriodicFeeAllowance.Accept` and
`PeriodicFeeAllowance.TryResetPeriod`.  The Go receiver is a pointer that the
methods mutate in place; here every method takes the allowance and returns the
allowance it leaves behind.  A Go panic is the result `none`.

Amounts (`sdk.Int`), heights (`int64`) and durations (`int64`) are unbounded integers:
arithmetic overflow is not modelled.  An instant
(`time.Time`) is an integer count of nanoseconds from Go's zero instant, so that
`Time.IsZero` is "equals 0" and `Time.Before` is `<`.  Denominations are any
linearly ordered type `D`; Go's strings under `strings.Compare` are one.

`sdk.Coins` (types/coin.go) and `ExpiresAt`, `Duration`, `BasicFeeAllowance` (the other files
of x/fee_grant/internal/types) are not under src/; their definitions below say so.
-/

namespace FeeGrant

variable {D : Type} [LinearOrder D]

/-! ## Coins -/

/-- Modelled from the spec: `sdk.Coin` (types/coin.go) is not under src/. An amount of one
denomination. -/
structure Coin (D : Type) where
  Denom : D
  Amount : Int
deriving DecidableEq

/-- Modelled from the spec: `sdk.Coins` (types/coin.go) is not under src/. A set of amounts, kept
as a list of coins in ascending order of denomination. -/
abbrev Coins (D : Type) := List (Coin D)

/-- Modelled from the spec: `Coins.AmountOf` is not under src/. The amount held in denomination
`d`: the sum of the coins of that denomination (at most one in a sorted coin set). -/
def AmountOf : Coins D → D → Int
  | [], _ => 0
  | c :: cs, d => (if c.Denom = d then c.Amount else 0) + AmountOf cs d

/-- Modelled from the spec: `Coins.IsZero` is not under src/. True when no coin has a non-zero
amount; the empty set is zero. -/
def IsZero (cs : Coins D) : Bool := cs.all (fun c => decide (c.Amount = 0))

/-- Modelled from the spec: `Coins.IsAnyNegative` is not under src/. True when some coin has a
negative amount ("would go negative"). -/
def IsAnyNegative (cs : Coins D) : Bool := cs.any (fun c => decide (c.Amount < 0))

/-- Modelled from the spec: `Coins.negative` is not under src/. Every amount negated. -/
def negative (cs : Coins D) : Coins D := cs.map (fun c => { c with Amount := -c.Amount })

/-- Modelled from the spec: `removeZeroCoins` is not under src/. The coins with a non-zero
amount. -/
def removeZeroCoins (cs : Coins D) : Coins D := cs.filter (fun c => decide (c.Amount ≠ 0))

/-- Appends a coin to a partial sum unless its amount is zero. -/
def consNonZero (c : Coin D) (cs : Coins D) : Coins D :=
  if c.Amount = 0 then cs else c :: cs

/-- Inner loop of `safeAdd`: the head `a` of the first list is fixed, `restA` is its tail and
`recA` adds that tail to what is left of the second list. -/
def safeAddAux (a : Coin D) (restA : Coins D) (recA : Coins D → Coins D) : Coins D → Coins D
  | [] => removeZeroCoins (a :: restA)
  | b :: bs =>
    if a.Denom < b.Denom then consNonZero a (recA (b :: bs))
    else if a.Denom = b.Denom then
      consNonZero { Denom := a.Denom, Amount := a.Amount + b.Amount } (recA bs)
    else consNonZero b (safeAddAux a restA recA bs)

/-- Modelled from the spec: `Coins.safeAdd` is not under src/. The denomination-wise sum of two
coin sets, by a merge of the two denom-sorted lists; zero amounts are left out of the sum. -/
def safeAdd : Coins D → Coins D → Coins D
  | [] => fun bs => removeZeroCoins bs
  | a :: as => safeAddAux a as (safeAdd as)

/-- Modelled from the spec: `Coins.SafeSub` is not under src/. The denomination-wise difference
`coins - coinsB` together with the flag "some amount of the difference is negative". -/
def SafeSub (coins coinsB : Coins D) : Coins D × Bool :=
  let diff := safeAdd coins (negative coinsB)
  (diff, IsAnyNegative diff)

/-- A coin set in the form `sdk.Coins` keeps: strictly ascending denominations. -/
def DenomSorted (cs : Coins D) : Prop := cs.Pairwise (fun x y => x.Denom < y.Denom)

/-! ## Expiration points and durations -/

/-- Modelled from the spec: `ExpiresAt` (expiration.go) is not under src/. An absolute point,
"height or time, or never": a time when `Time` is not the zero instant, else a height when
`Height` is not 0, else unset. -/
structure ExpiresAt where
  Time : Int
  Height : Int
deriving DecidableEq

/-- Modelled from the spec: `Duration` (expiration.go) is not under src/. A period length, in
clock time or in blocks. -/
structure Duration where
  Clock : Int
  Block : Int
deriving DecidableEq

/-- Modelled from the spec: `ExpiresAtTime` is not under src/. -/
def ExpiresAtTime (t : Int) : ExpiresAt := { Time := t, Height := 0 }

/-- Modelled from the spec: `ExpiresAtHeight` is not under src/. -/
def ExpiresAtHeight (h : Int) : ExpiresAt := { Time := 0, Height := h }

namespace ExpiresAt

/-- Modelled from the spec: `ExpiresAt.IsZero` is not under src/. The unset point ("never"). -/
def IsZero (e : ExpiresAt) : Bool := decide (e.Time = 0) && decide (e.Height = 0)

/-- Modelled from the spec: `ExpiresAt.IsExpired` is not under src/. "`now` has reached or
passed" the point: inclusive, in the unit the point uses; an unset point never expires. -/
def IsExpired (e : ExpiresAt) (t : Int) (h : Int) : Bool :=
  if e.Time ≠ 0 ∧ ¬ t < e.Time then true
  else decide (e.Height ≠ 0) && decide (e.Height ≤ h)

/-- Modelled from the spec: `ExpiresAt.IsCompatible` is not under src/. The duration is positive
in the unit the point uses. -/
def IsCompatible (e : ExpiresAt) (p : Duration) : Bool :=
  if e.Time ≠ 0 then decide (0 < p.Clock) else decide (0 < p.Block)

/-- Modelled from the spec: `ExpiresAt.MustStep` is not under src/. "Advance the reset point by
one period"; `none` is the panic on a duration of the other unit. -/
def MustStep (e : ExpiresAt) (p : Duration) : Option ExpiresAt :=
  if e.IsCompatible p then
    if e.Time ≠ 0 then some { e with Time := e.Time + p.Clock }
    else some { e with Height := e.Height + p.Block }
  else none

/-- Modelled from the spec: `ExpiresAt.FastForward` is not under src/. "Fast-forward the reset
point ... at or after `now`": the call in `TryResetPeriod` passes the block time and height and
no period, and its comment reads "reset is one period from this time", so the point moves to
`now` itself, in the unit the receiver uses. -/
def FastForward (e : ExpiresAt) (t : Int) (h : Int) : ExpiresAt :=
  if e.Time ≠ 0 then ExpiresAtTime t else ExpiresAtHeight h

end ExpiresAt

/-! ## Allowances -/

/-- Modelled from the spec: `BasicFeeAllowance` (basic_fee.go) is not under src/. "{total spend
limit, expiration}". -/
structure BasicFeeAllowance (D : Type) where
  SpendLimit : Coins D
  Expiration : ExpiresAt
deriving DecidableEq

/-- The struct `PeriodicFeeAllowance`. -/
structure PeriodicFeeAllowance (D : Type) where
  Basic : BasicFeeAllowance D
  Period : Duration
  PeriodSpendLimit : Coins D
  PeriodCanSpend : Coins D
  PeriodReset : ExpiresAt
deriving DecidableEq

/-- The errors `Accept` returns (`ErrFeeLimitExpired()`, `ErrFeeLimitExceeded()`). -/
inductive FeeError where
  | ErrFeeLimitExpired
  | ErrFeeLimitExceeded
deriving DecidableEq

/-- What a call of `Accept` leaves: the allowance after the call and the two results. -/
structure AcceptResult (D : Type) where
  allowance : PeriodicFeeAllowance D
  remove : Bool
  err : Option FeeError
deriving DecidableEq

namespace PeriodicFeeAllowance

/-- The method `TryResetPeriod`: resets the period if the conditions are hit. `none` is a panic
of `MustStep`. -/
def TryResetPeriod (a : PeriodicFeeAllowance D) (blockTime : Int) (blockHeight : Int) :
    Option (PeriodicFeeAllowance D) :=
  if !a.PeriodReset.IsZero && !a.PeriodReset.IsExpired blockTime blockHeight then
    some a
  else
    let a1 : PeriodicFeeAllowance D :=
      if (SafeSub a.Basic.SpendLimit a.PeriodSpendLimit).2 then
        { a with PeriodCanSpend := a.Basic.SpendLimit }
      else
        { a with PeriodCanSpend := a.PeriodSpendLimit }
    match a1.PeriodReset.MustStep a1.Period with
    | none => none
    | some r1 =>
      let a2 : PeriodicFeeAllowance D := { a1 with PeriodReset := r1 }
      if a2.PeriodReset.IsExpired blockTime blockHeight then
        match (a2.PeriodReset.FastForward blockTime blockHeight).MustStep a2.Period with
        | none => none
        | some r2 => some { a2 with PeriodReset := r2 }
      else
        some a2

/-- The method `Accept`: deducts the fee from the period and from the total limit if possible.
`none` is a panic of `TryResetPeriod`. -/
def Accept (a : PeriodicFeeAllowance D) (fee : Coins D) (blockTime : Int) (blockHeight : Int) :
    Option (AcceptResult D) :=
  if a.Basic.Expiration.IsExpired blockTime blockHeight then
    some { allowance := a, remove := true, err := some FeeError.ErrFeeLimitExpired }
  else
    match a.TryResetPeriod blockTime blockHeight with
    | none => none
    | some a1 =>
      let r1 := SafeSub a1.PeriodCanSpend fee
      let a2 : PeriodicFeeAllowance D := { a1 with PeriodCanSpend := r1.1 }
      if r1.2 then
        some { allowance := a2, remove := false, err := some FeeError.ErrFeeLimitExceeded }
      else
        let r2 := SafeSub a2.Basic.SpendLimit fee
        let a3 : PeriodicFeeAllowance D := { a2 with Basic := { a2.Basic with SpendLimit := r2.1 } }
        if r2.2 then
          some { allowance := a3, remove := false, err := some FeeError.ErrFeeLimitExceeded }
        else
          some { allowance := a3, remove := IsZero a3.Basic.SpendLimit, err := none }

end PeriodicFeeAllowance

/-! ## Derived definitions -/

open PeriodicFeeAllowance

/-- The period allowance a reset installs: the total limit when subtracting the period limit from
it reports a negative amount, else the period limit. -/
def resetCanSpend (a : PeriodicFeeAllowance D) : Coins D :=
  if (SafeSub a.Basic.SpendLimit a.PeriodSpendLimit).2 then a.Basic.SpendLimit
  else a.PeriodSpendLimit

/-- The reset point a reset installs: one period after the old one, or, when that is reached
too, one period after the fast-forwarded point. -/
def nextReset (r : ExpiresAt) (p : Duration) (t h : Int) : Option ExpiresAt :=
  match r.MustStep p with
  | none => none
  | some r1 => if r1.IsExpired t h then (r1.FastForward t h).MustStep p else some r1

/-- An allowance that `TryResetPeriod` steps without a panic: its period is positive in the
unit of its reset point, and a reset point that is a time lies after the zero instant and has no
height set. -/
def Steppable (a : PeriodicFeeAllowance D) : Prop :=
  a.PeriodReset.IsCompatible a.Period = true ∧
    (a.PeriodReset.Time = 0 ∨ (0 < a.PeriodReset.Time ∧ a.PeriodReset.Height = 0))

/-- A sample allowance over one denomination, counted in blocks: total limit, period limit,
period allowance, period length and reset height; it expires at height 100. -/
def blockAllowance (limit periodLimit canSpend period reset : Int) : PeriodicFeeAllowance Nat :=
  { Basic := { SpendLimit := [⟨0, limit⟩], Expiration := ExpiresAtHeight 100 },
    Period := ⟨0, period⟩, PeriodSpendLimit := [⟨0, periodLimit⟩],
    PeriodCanSpend := [⟨0, canSpend⟩], PeriodReset := ExpiresAtHeight reset }

/-- A sample allowance over one denomination, counted in clock time: total limit, period limit,
period allowance, period length and reset time; it expires at time 1000. -/
def clockAllowance (limit periodLimit canSpend period reset : Int) : PeriodicFeeAllowance Nat :=
  { Basic := { SpendLimit := [⟨0, limit⟩], Expiration := ExpiresAtTime 1000 },
    Period := ⟨period, 0⟩, PeriodSpendLimit := [⟨0, periodLimit⟩],
    PeriodCanSpend := [⟨0, canSpend⟩], PeriodReset := ExpiresAtTime reset }

/-! ## Histories of `Accept` calls -/

/-- One call of `Accept` in a history. `keep` says how the history goes on after a call that
returned an error: with the allowance as the call left it (the receiver is changed in place),
or with the allowance as it was before the call (a caller that drops the changed copy). -/
structure AcceptCall (D : Type) where
  fee : Coins D
  blockTime : Int
  blockHeight : Int
  keep : Bool

/-- The amount of denomination `d` in the fees of the calls of a history that returned a nil
error. A panic ends the history. -/
def acceptedAmount (d : D) : PeriodicFeeAllowance D → List (AcceptCall D) → Int
  | _, [] => 0
  | a, c :: cs =>
    match a.Accept c.fee c.blockTime c.blockHeight with
    | none => 0
    | some res =>
      match res.err with
      | none => AmountOf c.fee d + acceptedAmount d res.allowance cs
      | some _ => acceptedAmount d (if c.keep then res.allowance else a) cs

/-! ## `ValidateBasic` and `PrepareForExport` -/

/-- The checks `PeriodicFeeAllowance.ValidateBasic` calls whose code is not under src/
(`BasicFeeAllowance.ValidateBasic`, `Coins.IsValid`, `Coins.IsAllPositive`, `Coins.String`,
`sdk.ErrInvalidCoins`, `Duration.ValidateBasic`, `ExpiresAt.ValidateBasic`), taken as
parameters; `E` is the type of errors and `none` is the nil error. -/
structure BasicChecks (D : Type) (E : Type) where
  basicValidateBasic : BasicFeeAllowance D → Option E
  IsValid : Coins D → Bool
  IsAllPositive : Coins D → Bool
  coinsString : Coins D → String
  ErrInvalidCoins : String → E
  durationValidateBasic : Duration → Option E
  expiresAtValidateBasic : ExpiresAt → Option E

namespace PeriodicFeeAllowance

/-- The method `ValidateBasic`: basic sanity checks, in the order of the source; `none` is the
nil error. -/
def ValidateBasic {E : Type} (c : BasicChecks D E) (a : PeriodicFeeAllowance D) : Option E :=
  match c.basicValidateBasic a.Basic with
  | some err => some err
  | none =>
    if !c.IsValid a.PeriodSpendLimit then
      some (c.ErrInvalidCoins ("spend amount is invalid: " ++ c.coinsString a.PeriodSpendLimit))
    else if !c.IsAllPositive a.PeriodSpendLimit then
      some (c.ErrInvalidCoins ("spend limit must be positive"))
    else if !c.IsValid a.PeriodCanSpend then
      some (c.ErrInvalidCoins ("can spend amount is invalid: " ++ c.coinsString a.PeriodCanSpend))
    else if IsAnyNegative a.PeriodCanSpend then
      some (c.ErrInvalidCoins ("can spend must not be negative"))
    else
      match c.durationValidateBasic a.Period with
      | some err => some err
      | none => c.expiresAtValidateBasic a.PeriodReset

/-- The method `PrepareForExport`. `prepare` is `ExpiresAt.PrepareForExport`, whose code is not
under src/ and is taken as a parameter. The result is the pair of the receiver after the call
and the allowance returned. -/
def PrepareForExport (prepare : ExpiresAt → Int → Int → ExpiresAt) (a : PeriodicFeeAllowance D)
    (dumpTime : Int) (dumpHeight : Int) : PeriodicFeeAllowance D × PeriodicFeeAllowance D :=
  (a,
   { Basic :=
       { SpendLimit := a.Basic.SpendLimit,
         Expiration := prepare a.Basic.Expiration dumpTime dumpHeight },
     PeriodSpendLimit := a.PeriodSpendLimit,
     PeriodCanSpend := a.PeriodCanSpend,
     Period := a.Period,
     PeriodReset := prepare a.PeriodReset dumpTime dumpHeight })

end PeriodicFeeAllowance

/-- A sample set of checks over one-number error codes, for evaluating `ValidateBasic`: a coin
set is valid when every amount is positive, all positive when it is also not empty; a duration
is valid when exactly one of its units is positive; a point is valid when it is not both a time
and a height and its height is not negative. -/
def sampleChecks : BasicChecks Nat Nat where
  basicValidateBasic b :=
    if b.SpendLimit.all (fun c => decide (0 < c.Amount)) && !b.SpendLimit.isEmpty then none
    else some 1
  IsValid cs := cs.all (fun c => decide (0 < c.Amount))
  IsAllPositive cs := cs.all (fun c => decide (0 < c.Amount)) && !cs.isEmpty
  coinsString _ := ""
  ErrInvalidCoins msg := 100 + msg.length
  durationValidateBasic p :=
    if (0 < p.Clock ∧ p.Block = 0) ∨ (p.Clock = 0 ∧ 0 < p.Block) then none else some 2
  expiresAtValidateBasic e :=
    if e.Time ≠ 0 ∧ e.Height ≠ 0 then some 3 else if e.Height < 0 then some 4 else none

end FeeGrant

/-!
# Evidence messages (x/evidence/types/types.pb.go)

A shallow embedding of the generated marshalling code of `MsgSubmitEvidenceBase` and
`Equivocation`.  A byte is a natural number (below 256 wherever the code produces one).  A
byte slice that may be nil is an `Option (List Byte)`, `none` being nil.  `int64` and `int`
values are integers, `uint64` values natural numbers; the conversions between them are
explicit.  A buffer is a list of bytes with an index into it; a Go panic (index or slice out
of range) is the result `none`.  The decoding loops read from the bytes left, `dAtA[iNdEx:]`,
so that `iNdEx` is the length of `dAtA` minus the number of bytes left.

`StdTimeMarshalTo`, `SizeOfStdTime`, `StdTimeUnmarshal` (github.com/gogo/protobuf/types) and
`time.Time.Equal` belong to other repositories and are parameters of the model.
-/

namespace Evidence

/-! ## Machine integers -/

/-- A byte. -/
abbrev Byte := Nat

/-- Go's conversion `uint64(x)` of an `int64` or `int` value: the two's complement pattern. -/
def uint64 (x : Int) : Nat := (x % 2 ^ 64).toNat

/-- Go's conversion `int64(n)` (and `int(n)`) of a 64-bit pattern. -/
def int64 (n : Nat) : Int :=
  if n % 2 ^ 64 < 2 ^ 63 then ((n % 2 ^ 64 : Nat) : Int) else ((n % 2 ^ 64 : Nat) : Int) - 2 ^ 64

/-- Go's conversion `int32(n)` of an unsigned value: the low 32 bits, read as signed. -/
def int32 (n : Nat) : Int :=
  if n % 2 ^ 32 < 2 ^ 31 then ((n % 2 ^ 32 : Nat) : Int) else ((n % 2 ^ 32 : Nat) : Int) - 2 ^ 32

/-- The result of an `int` addition, which wraps around at 64 bits. -/
def wrapInt64 (x : Int) : Int := int64 (uint64 x)

/-- The loop behind `math/bits.Len64` (Go standard library): the number of bits of `x`. -/
def lenLoop : Nat → Nat → Nat
  | 0, _ => 0
  | fuel + 1, x => if x = 0 then 0 else 1 + lenLoop fuel (x / 2)

/-- `math/bits.Len64`: the minimum number of bits that represent `x`, 0 for `x = 0`. -/
def Len64 (x : Nat) : Nat := lenLoop 64 x

/-- The function `sovTypes`: the size of a varint. -/
def sovTypes (x : Nat) : Nat := (Len64 (x ||| 1) + 6) / 7

/-! ## Writing into a buffer -/

/-- The assignment `dAtA[i] = b`. -/
def setByte (dAtA : List Byte) (i : Nat) (b : Byte) : Option (List Byte) :=
  if i < dAtA.length then some (dAtA.set i b) else none

/-- The call `copy(dAtA[i:], src)`. -/
def copyAt (dAtA : List Byte) (i : Nat) (src : List Byte) : Option (List Byte) :=
  if i ≤ dAtA.length then
    some (dAtA.take i ++ src.take (dAtA.length - i) ++ dAtA.drop (i + src.length))
  else none

/-- The subtraction `i -= k` on an index; a negative index panics at the access that follows
it. -/
def subIndex (i k : Nat) : Option Nat := if k ≤ i then some (i - k) else none

/-- The loop of `encodeVarintTypes`. A `uint64` is below 128 after nine shifts by 7, so the
loop body runs at most nine times. -/
def encodeVarintLoop : Nat → List Byte → Nat → Nat → Option (List Byte)
  | 0, dAtA, offset, v => setByte dAtA offset (v % 256)
  | fuel + 1, dAtA, offset, v =>
    if 128 ≤ v then
      match setByte dAtA offset ((v &&& 0x7f ||| 0x80) % 256) with
      | none => none
      | some d => encodeVarintLoop fuel d (offset + 1) (v >>> 7)
    else setByte dAtA offset (v % 256)

/-- The function `encodeVarintTypes`: writes the varint of `v` so that it ends before `offset`
and returns the buffer and the index of its first byte. -/
def encodeVarintTypes (dAtA : List Byte) (offset : Nat) (v : Nat) : Option (List Byte × Nat) := do
  let base ← subIndex offset (sovTypes v)
  let d ← encodeVarintLoop 9 dAtA base v
  pure (d, base)

/-- The statements `i--; dAtA[i] = tag`. -/
def putTag (dAtA : List Byte) (i : Nat) (tag : Byte) : Option (List Byte × Nat) := do
  let i ← subIndex i 1
  let d ← setByte dAtA i tag
  pure (d, i)

/-- The statements that write a field of wire type 0 before index `i`:
`i = encodeVarintTypes(dAtA, i, v); i--; dAtA[i] = tag`. -/
def putVarint (dAtA : List Byte) (i : Nat) (v : Nat) (tag : Byte) : Option (List Byte × Nat) := do
  let (d, i) ← encodeVarintTypes dAtA i v
  putTag d i tag

/-- The statements that write a field of wire type 2 before index `i`:
`i -= len(bs); copy(dAtA[i:], bs); i = encodeVarintTypes(dAtA, i, uint64(len(bs))); i--;
dAtA[i] = tag`. -/
def putBytes (dAtA : List Byte) (i : Nat) (bs : List Byte) (tag : Byte) :
    Option (List Byte × Nat) := do
  let i ← subIndex i bs.length
  let d ← copyAt dAtA i bs
  let (d, i) ← encodeVarintTypes d i (uint64 bs.length)
  putTag d i tag

/-! ## Messages -/

/-- The length `len(b)` of a byte slice. -/
def len (b : Option (List Byte)) : Nat := (b.getD []).length

/-- The function `bytes.Equal` (Go standard library): a nil slice equals an empty one. -/
def bytesEqual (a b : Option (List Byte)) : Bool := decide (a.getD [] = b.getD [])

/-- The struct `MsgSubmitEvidenceBase`. -/
structure MsgSubmitEvidenceBase where
  Submitter : Option (List Byte)
deriving DecidableEq

/-- The struct `Equivocation`, over a type `T` of times. -/
structure Equivocation (T : Type) where
  Height : Int
  Time : T
  Power : Int
  ConsensusAddress : Option (List Byte)
deriving DecidableEq

/-- The functions of other repositories that the code calls on a time. `StdTimeMarshal t` is
what `StdTimeMarshalTo(t, data)` writes at the start of `data`, or its error. -/
structure StdTime (T : Type) (E : Type) where
  StdTimeMarshal : T → Except E (List Byte)
  SizeOfStdTime : T → Nat
  StdTimeUnmarshal : List Byte → Except E T
  Equal : T → T → Bool

/-- The errors of `Unmarshal` and `skipTypes`; `stdTime` carries an error of
`StdTimeUnmarshal`. -/
inductive UnmarshalError (E : Type) where
  | ErrIntOverflowTypes
  | ErrUnexpectedEOF
  | ErrInvalidLengthTypes
  | ErrUnexpectedEndOfGroupTypes
  | wiretypeEndGroup (message : String)
  | illegalTag (message : String) (fieldNum : Int) (wire : Nat)
  | wrongWireType (wireType : Nat) (field : String)
  | illegalWireType (wireType : Nat)
  | stdTime (e : E)
deriving DecidableEq

/-- The method `MsgSubmitEvidenceBase.Equal`, for two messages that are not nil. -/
def MsgSubmitEvidenceBase.Equal (this that1 : MsgSubmitEvidenceBase) : Bool :=
  if !bytesEqual this.Submitter that1.Submitter then false else true

/-- The method `Equivocation.Equal`, for two messages that are not nil. -/
def Equivocation.Equal {T E : Type} (c : StdTime T E) (this that1 : Equivocation T) : Bool :=
  if this.Height ≠ that1.Height then false
  else if !c.Equal this.Time that1.Time then false
  else if this.Power ≠ that1.Power then false
  else if !bytesEqual this.ConsensusAddress that1.ConsensusAddress then false
  else true

/-! ## Size and Marshal -/

/-- The method `MsgSubmitEvidenceBase.Size`. -/
def MsgSubmitEvidenceBase.Size (m : MsgSubmitEvidenceBase) : Nat :=
  let l := len m.Submitter
  if 0 < l then 1 + l + sovTypes (uint64 l) else 0

/-- The method `Equivocation.Size`. -/
def Equivocation.Size {T E : Type} (c : StdTime T E) (m : Equivocation T) : Nat :=
  let n := if m.Height ≠ 0 then 1 + sovTypes (uint64 m.Height) else 0
  let l := c.SizeOfStdTime m.Time
  let n := n + (1 + l + sovTypes (uint64 l))
  let n := if m.Power ≠ 0 then n + (1 + sovTypes (uint64 m.Power)) else n
  let l := len m.ConsensusAddress
  if 0 < l then n + (1 + l + sovTypes (uint64 l)) else n

/-- The method `MsgSubmitEvidenceBase.MarshalToSizedBuffer`: fills the buffer from its end and
returns the buffer and the number of bytes written. -/
def MsgSubmitEvidenceBase.MarshalToSizedBuffer (m : MsgSubmitEvidenceBase)
    (dAtA : List Byte) : Option (List Byte × Nat) := do
  let i := dAtA.length
  let (dAtA, i) ←
    (if 0 < len m.Submitter then putBytes dAtA i (m.Submitter.getD []) 0xa
     else pure (dAtA, i))
  pure (dAtA, dAtA.length - i)

/-- The method `MsgSubmitEvidenceBase.Marshal`. -/
def MsgSubmitEvidenceBase.Marshal (m : MsgSubmitEvidenceBase) : Option (List Byte) := do
  let size := m.Size
  let dAtA := List.replicate size 0
  let (dAtA, n) ← m.MarshalToSizedBuffer (dAtA.take size)
  if n ≤ dAtA.length then pure (dAtA.take n) else none

/-- The call `StdTimeMarshalTo(t, dAtA[start:])`: the bytes of the time are written at `start`;
the result is the buffer and their number, or the error. -/
def StdTimeMarshalTo {T E : Type} (c : StdTime T E) (t : T) (dAtA : List Byte) (start : Nat) :
    Option (Except E (List Byte × Nat)) :=
  if start ≤ dAtA.length then
    match c.StdTimeMarshal t with
    | .error e => some (.error e)
    | .ok bs =>
      if start + bs.length ≤ dAtA.length then
        some (.ok (dAtA.take start ++ bs ++ dAtA.drop (start + bs.length), bs.length))
      else none
  else none

/-- The method `Equivocation.MarshalToSizedBuffer`: fills the buffer from its end and returns
the buffer and the number of bytes written, or the error of `StdTimeMarshalTo`. -/
def Equivocation.MarshalToSizedBuffer {T E : Type} (c : StdTime T E) (m : Equivocation T)
    (dAtA : List Byte) : Option (Except E (List Byte × Nat)) := do
  let i := dAtA.length
  let (dAtA, i) ←
    (if 0 < len m.ConsensusAddress then putBytes dAtA i (m.ConsensusAddress.getD []) 0x22
     else pure (dAtA, i))
  let (dAtA, i) ←
    (if m.Power ≠ 0 then putVarint dAtA i (uint64 m.Power) 0x18
     else pure (dAtA, i))
  let start ← subIndex i (c.SizeOfStdTime m.Time)
  match ← StdTimeMarshalTo c m.Time dAtA start with
  | .error err1 => pure (.error err1)
  | .ok (dAtA, n1) =>
    let i ← subIndex i n1
    let (dAtA, i) ← putVarint dAtA i (uint64 n1) 0x12
    let (dAtA, i) ←
      (if m.Height ≠ 0 then putVarint dAtA i (uint64 m.Height) 0x8
       else pure (dAtA, i))
    pure (.ok (dAtA, dAtA.length - i))

/-- The method `Equivocation.Marshal`. -/
def Equivocation.Marshal {T E : Type} (c : StdTime T E) (m : Equivocation T) :
    Option (Except E (List Byte)) := do
  let size := m.Size c
  let dAtA := List.replicate size 0
  match ← m.MarshalToSizedBuffer c (dAtA.take size) with
  | .error err => pure (.error err)
  | .ok (dAtA, n) => if n ≤ dAtA.length then pure (.ok (dAtA.take n)) else none

/-! ## Unmarshal -/

/-- The varint loop of the generated code, started at `shift` with the bits read so far in
`acc`: reads bytes until one is below 0x80 and returns the 64-bit pattern read and the bytes
left. In Go the bits shifted out of 64 are lost, for `uint64`, `int64` and `int` alike. -/
def decodeVarint {E : Type} :
    Nat → Nat → List Byte → Except (UnmarshalError E) (Nat × List Byte)
  | shift, _, [] =>
    if 64 ≤ shift then .error .ErrIntOverflowTypes else .error .ErrUnexpectedEOF
  | shift, acc, b :: rest =>
    if 64 ≤ shift then .error .ErrIntOverflowTypes
    else
      let acc := acc ||| (((b &&& 0x7F) <<< shift) % 2 ^ 64)
      if b < 0x80 then .ok (acc, rest) else decodeVarint (shift + 7) acc rest

/-- The loop of the function `skipTypes`, at index `iNdEx` and group depth `depth`; the result
`none` means that the fuel ran out. -/
def skipTypesLoop {E : Type} (dAtA : List Byte) :
    Nat → Nat → Nat → Option (Except (UnmarshalError E) Nat)
  | 0, _, _ => none
  | fuel + 1, iNdEx, depth =>
    if iNdEx < dAtA.length then
      match decodeVarint 0 0 (dAtA.drop iNdEx) with
      | .error e => some (.error e)
      | .ok (wire, rest) =>
        let iNdEx : Int := (dAtA.length - rest.length : Nat)
        let wireType := wire &&& 0x7
        let next : Except (UnmarshalError E) (Int × Nat) :=
          if wireType = 0 then
            match decodeVarint 0 0 rest with
            | .error e => .error e
            | .ok (_, rest2) => .ok (((dAtA.length - rest2.length : Nat) : Int), depth)
          else if wireType = 1 then .ok (wrapInt64 (iNdEx + 8), depth)
          else if wireType = 2 then
            match decodeVarint 0 0 rest with
            | .error e => .error e
            | .ok (length, rest2) =>
              if int64 length < 0 then .error .ErrInvalidLengthTypes
              else .ok (wrapInt64 (((dAtA.length - rest2.length : Nat) : Int) + int64 length),
                depth)
          else if wireType = 3 then .ok (iNdEx, depth + 1)
          else if wireType = 4 then
            if depth = 0 then .error .ErrUnexpectedEndOfGroupTypes else .ok (iNdEx, depth - 1)
          else if wireType = 5 then .ok (wrapInt64 (iNdEx + 4), depth)
          else .error (.illegalWireType wireType)
        match next with
        | .error e => some (.error e)
        | .ok (iNdEx, depth) =>
          if iNdEx < 0 then some (.error .ErrInvalidLengthTypes)
          else if depth = 0 then some (.ok iNdEx.toNat)
          else skipTypesLoop dAtA fuel iNdEx.toNat depth
    else some (.error .ErrUnexpectedEOF)

/-- The function `skipTypes`: the number of bytes of the field at the start of `dAtA`. Every
turn of the loop reads at least one byte, so the fuel does not run out. -/
def skipTypes {E : Type} (dAtA : List Byte) : Option (Except (UnmarshalError E) Nat) :=
  skipTypesLoop dAtA (dAtA.length + 1) 0 0

/-- The `default` case of the field switch: skips the field at the start of `rest`, the bytes
left from `preIndex` on, and returns the bytes after it. -/
def skipField {E : Type} (l : Nat) (rest : List Byte) :
    Option (Except (UnmarshalError E) (List Byte)) :=
  match skipTypes rest with
  | none => none
  | some (.error err) => some (.error err)
  | some (.ok skippy) =>
    let iNdEx : Int := (l - rest.length : Nat)
    if wrapInt64 (iNdEx + skippy) < 0 then some (.error .ErrInvalidLengthTypes)
    else if wrapInt64 (iNdEx + skippy) > l then some (.error .ErrUnexpectedEOF)
    else some (.ok (rest.drop skippy))

/-- The statements that read a length-delimited field after its tag: the length varint, the
checks on it, and the slice `dAtA[iNdEx:postIndex]`; returns the slice and the bytes after
it. -/
def readBytes {E : Type} (l : Nat) (rest : List Byte) :
    Except (UnmarshalError E) (List Byte × List Byte) :=
  match decodeVarint 0 0 rest with
  | .error e => .error e
  | .ok (v, rest1) =>
    let byteLen := int64 v
    if byteLen < 0 then .error .ErrInvalidLengthTypes
    else
      let iNdEx : Int := (l - rest1.length : Nat)
      let postIndex := wrapInt64 (iNdEx + byteLen)
      if postIndex < 0 then .error .ErrInvalidLengthTypes
      else if postIndex > l then .error .ErrUnexpectedEOF
      else .ok (rest1.take byteLen.toNat, rest1.drop byteLen.toNat)

/-- The loop of `MsgSubmitEvidenceBase.Unmarshal` over the bytes left of a buffer of length `l`;
the result `none` means that the fuel ran out. The state of the receiver on an error is not
part of the result. -/
def MsgSubmitEvidenceBase.unmarshalLoop {E : Type} (l : Nat) :
    Nat → MsgSubmitEvidenceBase → List Byte →
      Option (Except (UnmarshalError E) MsgSubmitEvidenceBase)
  | 0, _, _ => none
  | fuel + 1, m, rest =>
    if rest.length = 0 then some (.ok m)
    else
      match decodeVarint 0 0 rest with
      | .error e => some (.error e)
      | .ok (wire, rest1) =>
        let fieldNum := int32 (wire >>> 3)
        let wireType := wire &&& 0x7
        if wireType = 4 then
          some (.error (.wiretypeEndGroup ("MsgSubmitEvidenceBase")))
        else if fieldNum ≤ 0 then
          some (.error (.illegalTag ("MsgSubmitEvidenceBase") fieldNum wire))
        else if fieldNum = 1 then
          if wireType ≠ 2 then some (.error (.wrongWireType wireType ("Submitter")))
          else
            match readBytes l rest1 with
            | .error e => some (.error e)
            | .ok (bs, rest2) =>
              MsgSubmitEvidenceBase.unmarshalLoop l fuel { m with Submitter := some bs } rest2
        else
          match skipField l rest with
          | none => none
          | some (.error e) => some (.error e)
          | some (.ok rest2) => MsgSubmitEvidenceBase.unmarshalLoop l fuel m rest2

/-- The method `MsgSubmitEvidenceBase.Unmarshal` on the receiver `m`. Every turn of the loop
reads at least one byte, so the fuel does not run out. -/
def MsgSubmitEvidenceBase.Unmarshal {E : Type} (m : MsgSubmitEvidenceBase) (dAtA : List Byte) :
    Option (Except (UnmarshalError E) MsgSubmitEvidenceBase) :=
  MsgSubmitEvidenceBase.unmarshalLoop dAtA.length (dAtA.length + 1) m dAtA

/-- The loop of `Equivocation.Unmarshal` over the bytes left of a buffer of length `l`; the
result `none` means that the fuel ran out. The state of the receiver on an error is not part
of the result. -/
def Equivocation.unmarshalLoop {T E : Type} (c : StdTime T E) (l : Nat) :
    Nat → Equivocation T → List Byte → Option (Except (UnmarshalError E) (Equivocation T))
  | 0, _, _ => none
  | fuel + 1, m, rest =>
    if rest.length = 0 then some (.ok m)
    else
      match decodeVarint 0 0 rest with
      | .error e => some (.error e)
      | .ok (wire, rest1) =>
        let fieldNum := int32 (wire >>> 3)
        let wireType := wire &&& 0x7
        if wireType = 4 then
          some (.error (.wiretypeEndGroup ("Equivocation")))
        else if fieldNum ≤ 0 then
          some (.error (.illegalTag ("Equivocation") fieldNum wire))
        else if fieldNum = 1 then
          if wireType ≠ 0 then some (.error (.wrongWireType wireType ("Height")))
          else
            match decodeVarint 0 0 rest1 with
            | .error e => some (.error e)
            | .ok (v, rest2) =>
              Equivocation.unmarshalLoop c l fuel { m with Height := int64 v } rest2
        else if fieldNum = 2 then
          if wireType ≠ 2 then some (.error (.wrongWireType wireType ("Time")))
          else
            match readBytes l rest1 with
            | .error e => some (.error e)
            | .ok (bs, rest2) =>
              match c.StdTimeUnmarshal bs with
              | .error err => some (.error (.stdTime err))
              | .ok t => Equivocation.unmarshalLoop c l fuel { m with Time := t } rest2
        else if fieldNum = 3 then
          if wireType ≠ 0 then some (.error (.wrongWireType wireType ("Power")))
          else
            match decodeVarint 0 0 rest1 with
            | .error e => some (.error e)
            | .ok (v, rest2) =>
              Equivocation.unmarshalLoop c l fuel { m with Power := int64 v } rest2
        else if fieldNum = 4 then
          if wireType ≠ 2 then
            some (.error (.wrongWireType wireType ("ConsensusAddress")))
          else
            match readBytes l rest1 with
            | .error e => some (.error e)
            | .ok (bs, rest2) =>
              Equivocation.unmarshalLoop c l fuel { m with ConsensusAddress := some bs } rest2
        else
          match skipField l rest with
          | none => none
          | some (.error e) => some (.error e)
          | some (.ok rest2) => Equivocation.unmarshalLoop c l fuel m rest2

/-- The method `Equivocation.Unmarshal` on the receiver `m`. Every turn of the loop reads at
least one byte, so the fuel does not run out. -/
def Equivocation.Unmarshal {T E : Type} (c : StdTime T E) (m : Equivocation T)
    (dAtA : List Byte) : Option (Except (UnmarshalError E) (Equivocation T)) :=
  Equivocation.unmarshalLoop c dAtA.length (dAtA.length + 1) m dAtA

/-! ## The wire format, and a sample time -/

/-- The bytes of the varint of `v`, low seven bits first, every byte but the last with the
high bit set. -/
def varintBytes : Nat → Nat → List Byte
  | 0, v => [v % 256]
  | fuel + 1, v =>
    if 128 ≤ v then ((v &&& 0x7f ||| 0x80) % 256) :: varintBytes fuel (v >>> 7)
    else [v % 256]

/-- The varint of a `uint64`. -/
def varint (v : Nat) : List Byte := varintBytes 9 v

/-- A field of wire type 0: the tag and the varint of the value. -/
def varintField (tag : Byte) (v : Nat) : List Byte := tag :: varint v

/-- A field of wire type 2: the tag, the varint of the length and the bytes. -/
def bytesField (tag : Byte) (bs : List Byte) : List Byte :=
  tag :: (varint (uint64 bs.length) ++ bs)

/-- The proto3 layout of a `MsgSubmitEvidenceBase`: field 1, left out when empty. -/
def MsgSubmitEvidenceBase.wire (m : MsgSubmitEvidenceBase) : List Byte :=
  if 0 < len m.Submitter then bytesField 0x0a (m.Submitter.getD []) else []

/-- The proto3 layout of an `Equivocation` whose time is marshalled as `time`: the fields in
ascending order of field number, `Height` and `Power` left out when 0, `ConsensusAddress` when
empty. -/
def Equivocation.wire {T : Type} (m : Equivocation T) (time : List Byte) : List Byte :=
  (if m.Height ≠ 0 then varintField 0x08 (uint64 m.Height) else []) ++
  bytesField 0x12 time ++
  (if m.Power ≠ 0 then varintField 0x18 (uint64 m.Power) else []) ++
  (if 0 < len m.ConsensusAddress then bytesField 0x22 (m.ConsensusAddress.getD []) else [])

/-- A sample time for evaluating the code: a time is a number of seconds below 128, written as
one byte; other times cannot be marshalled. -/
def sampleTime : StdTime Nat Nat where
  StdTimeMarshal t := if t < 128 then .ok [t] else .error 1
  SizeOfStdTime t := if t < 128 then 1 else 0
  StdTimeUnmarshal bs :=
    match bs with
    | [b] => if b < 128 then .ok b else .error 2
    | _ => .error 2
  Equal t u := decide (t = u)

end Evidence

namespace Evidence

/-! ## The encoded fields of an `Equivocation` -/

/-- The encoded fields of an `Equivocation` whose time is marshalled as `time`, those that
`MarshalToSizedBuffer` writes, in the order of the buffer. -/
def Equivocation.fields {T : Type} (m : Equivocation T) (time : List Byte) :
    List (List Byte) :=
  (if m.Height ≠ 0 then [varintField 0x08 (uint64 m.Height)] else []) ++
  [bytesField 0x12 time] ++
  (if m.Power ≠ 0 then [varintField 0x18 (uint64 m.Power)] else []) ++
  (if 0 < len m.ConsensusAddress then [bytesField 0x22 (m.ConsensusAddress.getD [])] else [])

/-- The offsets at which the fields `fs`, written one after the other, end. -/
def fieldEnds : List (List Byte) → List Nat
  | [] => []
  | f :: fs => f.length :: (fieldEnds fs).map (fun n => f.length + n)

/-- The offsets at which a field of `fs`, written one after the other, starts or ends: the
start of the buffer and the end of every field. -/
def fieldBoundaries (fs : List (List Byte)) : List Nat := 0 :: fieldEnds fs

end Evidence

/-!
# Governance votes and tallies (x/gov/keeper)

The keeper of the governance module and the types of its proposals, votes and tallies are not
among the source files: `x/gov/keeper/grpc_query_test.go` calls them. The definitions of this
part follow the specification; the names, and the scenarios of the examples, are those of the
test. Where the calls of the test contradict the specification, the definitions follow the test
and say so.
-/

namespace Gov

variable {A : Type} [DecidableEq A]

/-- Modelled from the spec: the type `ProposalStatus`, declared outside the source files. The
status of a proposal is DepositPeriod, VotingPeriod, Passed, Rejected or Failed. -/
inductive ProposalStatus where
  | StatusDepositPeriod
  | StatusVotingPeriod
  | StatusPassed
  | StatusRejected
  | StatusFailed
deriving DecidableEq, Repr

/-- Modelled from the spec: the terminal statuses, those a proposal gets at the end of its
voting period; no function of the source files names them. -/
def ProposalStatus.isTerminal : ProposalStatus → Bool
  | .StatusPassed => true
  | .StatusRejected => true
  | .StatusFailed => true
  | _ => false

/-- Modelled from the spec: the type `VoteOption`, declared outside the source files. -/
inductive VoteOption where
  | OptionYes
  | OptionNo
  | OptionAbstain
  | OptionNoWithVeto
deriving DecidableEq, Repr

/-- Modelled from the spec: the type `TallyResult`, declared outside the source files; four
amounts in voting-power units. -/
structure TallyResult where
  Yes : Nat
  No : Nat
  Abstain : Nat
  NoWithVeto : Nat
deriving DecidableEq, Repr

/-- Modelled from the spec: the function `EmptyTallyResult`, outside the source files; the
tally with every option at zero. -/
def EmptyTallyResult : TallyResult := { Yes := 0, No := 0, Abstain := 0, NoWithVeto := 0 }

/-- Modelled from the spec: the amount that a tally holds for an option. -/
def TallyResult.get (t : TallyResult) : VoteOption → Nat
  | .OptionYes => t.Yes
  | .OptionNo => t.No
  | .OptionAbstain => t.Abstain
  | .OptionNoWithVeto => t.NoWithVeto

/-- Modelled from the spec: adding power to one option of a tally, the step of the weighted
sums of the absent function `Tally`. -/
def TallyResult.add (t : TallyResult) (o : VoteOption) (n : Nat) : TallyResult :=
  match o with
  | .OptionYes => { t with Yes := t.Yes + n }
  | .OptionNo => { t with No := t.No + n }
  | .OptionAbstain => { t with Abstain := t.Abstain + n }
  | .OptionNoWithVeto => { t with NoWithVeto := t.NoWithVeto + n }

/-- Modelled from the spec: the type `Proposal`, declared outside the source files; of its
fields the id, the status and the final tally. -/
structure Proposal where
  ProposalID : Nat
  Status : ProposalStatus
  FinalTallyResult : TallyResult
deriving DecidableEq, Repr

/-- Modelled from the spec: the type `Vote`, declared outside the source files, over a type
`A` of addresses. -/
structure Vote (A : Type) where
  ProposalID : Nat
  Voter : A
  Option : VoteOption
deriving DecidableEq, Repr

/-- Modelled from the spec: the function `NewVote`, outside the source files. -/
def NewVote (proposalID : Nat) (voter : A) (option : VoteOption) : Vote A :=
  { ProposalID := proposalID, Voter := voter, Option := option }

/-- Modelled from the spec: the bonded stake that gives voting power, which the staking module
keeps outside the source files: `Tokens` of the delegator are bonded with the validator. The
own stake of a validator is a delegation to itself. -/
structure Delegation (A : Type) where
  DelegatorAddress : A
  ValidatorAddress : A
  Tokens : Nat
deriving DecidableEq, Repr

/-- Modelled from the spec: the errors of the governance operations; the error values are
declared outside the source files. `VoterNotEligible` is the error that the spec names for a
voter without voting power; `AddVote` below does not return it. -/
inductive GovError where
  | InvalidState
  | VoterNotEligible
  | NotFound
deriving DecidableEq, Repr

/-- Modelled from the spec: the state that the absent `Keeper` reads and writes through the
context: the proposals, the live votes and the bonded stake at this height. -/
structure Keeper (A : Type) where
  Proposals : List Proposal
  Votes : List (Vote A)
  Delegations : List (Delegation A)

/-- Modelled from the spec: the function `TokensFromConsensusPower`, outside the source
files; a unit of consensus power is 1000000 tokens, the factor of the test. -/
def TokensFromConsensusPower (power : Nat) : Nat := power * 1000000

/-- Modelled from the spec: the method `GetProposal` of the absent keeper. -/
def Keeper.GetProposal (k : Keeper A) (proposalID : Nat) : Option Proposal :=
  k.Proposals.find? (fun p => p.ProposalID = proposalID)

/-- Modelled from the spec: the method `SetProposal` of the absent keeper; the proposal takes
the place of the stored proposal of its id. -/
def Keeper.SetProposal (k : Keeper A) (proposal : Proposal) : Keeper A :=
  let others := k.Proposals.filter (fun p => ¬ p.ProposalID = proposal.ProposalID)
  { k with Proposals := proposal :: others }

/-- Modelled from the spec: the method `GetVote` of the absent keeper; the live vote of the
voter on the proposal. -/
def Keeper.GetVote (k : Keeper A) (proposalID : Nat) (voterAddr : A) : Option (Vote A) :=
  k.Votes.find? (fun v => v.ProposalID = proposalID ∧ v.Voter = voterAddr)

/-- Modelled from the spec: the method `SetVote` of the absent keeper; at most one live vote
per (proposal id, voter), a later vote overwrites the earlier one. -/
def Keeper.SetVote (k : Keeper A) (vote : Vote A) : Keeper A :=
  let others := k.Votes.filter
    (fun v => ¬ (v.ProposalID = vote.ProposalID ∧ v.Voter = vote.Voter))
  { k with Votes := vote :: others }

/-- Modelled from the spec: at most one live vote per (proposal id, voter); the invariant of
the votes that the absent keeper stores. -/
def Keeper.oneVotePerVoter (k : Keeper A) : Prop :=
  (k.Votes.map (fun v => (v.ProposalID, v.Voter))).Nodup

instance (k : Keeper A) : Decidable k.oneVotePerVoter := by
  unfold Keeper.oneVotePerVoter
  exact inferInstance

/-- Modelled from the spec: the voting power of an address on a proposal, which the absent
keeper takes from the staking module: the stake that the address has bonded, and the stake
bonded with it as validator by delegators who have not voted on the proposal themselves (they
inherit the validator's vote; a direct vote takes precedence). -/
def Keeper.votingPower (k : Keeper A) (proposalID : Nat) (addr : A) : Nat :=
  (k.Delegations.map (fun d =>
    if d.DelegatorAddress = addr then d.Tokens
    else if d.ValidatorAddress = addr ∧ (k.GetVote proposalID d.DelegatorAddress).isNone then
      d.Tokens
    else 0)).sum

/-- Modelled from the spec: the method `AddVote` of the absent keeper: fails with InvalidState
unless the proposal is in VotingPeriod, and upserts the vote. An unknown proposal is NotFound.
The guard of the spec on the voting power of the voter is left out: `TestGRPCQueryVote`,
`TestGRPCQueryVotes` and `TestGRPCQueryProposals` call `AddVote` for addresses that are only
funded, without a validator or a delegation, and require that it returns no error. -/
def Keeper.AddVote (k : Keeper A) (proposalID : Nat) (voterAddr : A) (option : VoteOption) :
    Except GovError (Keeper A) :=
  match k.GetProposal proposalID with
  | none => .error .NotFound
  | some proposal =>
    if proposal.Status ≠ .StatusVotingPeriod then .error .InvalidState
    else .ok (k.SetVote (NewVote proposalID voterAddr option))

/-- Modelled from the spec: the option for which the stake of a delegation counts in the tally
of a proposal: the option of the delegator's own vote, else the option of the vote of its
validator, else none. -/
def Keeper.countedOption (k : Keeper A) (proposalID : Nat) (d : Delegation A) :
    Option VoteOption :=
  match k.GetVote proposalID d.DelegatorAddress with
  | some v => some v.Option
  | none =>
    match k.GetVote proposalID d.ValidatorAddress with
    | some v => some v.Option
    | none => none

/-- Modelled from the spec: the tally result of the absent method `Tally`: the weighted sums
per option, with the power at tally time. The outcome that `Tally` also returns (quorum, veto
and threshold) is left out. -/
def Keeper.Tally (k : Keeper A) (proposal : Proposal) : TallyResult :=
  k.Delegations.foldl
    (fun t d =>
      match k.countedOption proposal.ProposalID d with
      | some o => t.add o d.Tokens
      | none => t)
    EmptyTallyResult

/-- Modelled from the spec: the query `Vote` of the absent gRPC server: the live vote of the
voter on the proposal, or an error. -/
def Keeper.Vote (k : Keeper A) (proposalID : Nat) (voter : A) : Except GovError (Gov.Vote A) :=
  match k.GetVote proposalID voter with
  | some vote => .ok vote
  | none => .error .NotFound

/-- Modelled from the spec: the query `TallyResult` of the absent gRPC server: the stored
final tally once the proposal has a terminal status, else the tally of the votes recorded so
far. -/
def Keeper.TallyResult (k : Keeper A) (proposalID : Nat) : Except GovError Gov.TallyResult :=
  match k.GetProposal proposalID with
  | none => .error .NotFound
  | some proposal =>
    if proposal.Status.isTerminal then .ok proposal.FinalTallyResult
    else .ok (k.Tally proposal)

/-- Modelled from the spec: the helper `createValidators` of the tests, outside the source
files: every address becomes a validator whose own bonded stake is the tokens of its
consensus power. -/
def createValidators (k : Keeper A) : List A → List Nat → Keeper A
  | addr :: addrs, power :: powers =>
    let bond : Delegation A :=
      { DelegatorAddress := addr, ValidatorAddress := addr,
        Tokens := TokensFromConsensusPower power }
    createValidators { k with Delegations := k.Delegations ++ [bond] } addrs powers
  | _, _ => k

/-- A sample state for evaluating the model: a proposal in its voting period, one that has
passed and one without votes; two validators with their own stake, the delegator 20, who
has not voted, and the delegator 21, who has. -/
def sampleKeeper : Keeper Nat where
  Proposals := [⟨1, .StatusVotingPeriod, EmptyTallyResult⟩, ⟨2, .StatusPassed, ⟨7, 1, 0, 0⟩⟩,
    ⟨3, .StatusVotingPeriod, EmptyTallyResult⟩]
  Votes := [⟨1, 10, .OptionYes⟩, ⟨1, 11, .OptionNo⟩, ⟨1, 21, .OptionYes⟩]
  Delegations := [⟨10, 10, 5000000⟩, ⟨11, 11, 5000000⟩, ⟨20, 10, 3⟩, ⟨21, 11, 4⟩]

/-- A sample state without votes, that of `TestGRPCQueryVote`: a proposal in its voting period
and one in its deposit period; the addresses 10 and 11 are only funded, no stake is bonded. -/
def sampleVoting : Keeper Nat where
  Proposals := [⟨1, .StatusVotingPeriod, EmptyTallyResult⟩,
    ⟨2, .StatusDepositPeriod, EmptyTallyResult⟩]
  Votes := []
  Delegations := []

end Gov

namespace FeeGrant

variable {D : Type} [LinearOrder D]

open PeriodicFeeAllowance

set_option linter.unusedSectionVars false

/-! ## Lemmas on coin sets -/

section CoinLemmas

set_option linter.unusedSectionVars false

theorem safeAdd_nil_left (bs : Coins D) : safeAdd [] bs = removeZeroCoins bs := rfl

theorem safeAdd_cons_nil (a : Coin D) (as : Coins D) :
    safeAdd (a :: as) [] = removeZeroCoins (a :: as) := rfl

theorem safeAdd_cons_cons (a b : Coin D) (as bs : Coins D) :
    safeAdd (a :: as) (b :: bs) =
      if a.Denom < b.Denom then consNonZero a (safeAdd as (b :: bs))
      else if a.Denom = b.Denom then
        consNonZero { Denom := a.Denom, Amount := a.Amount + b.Amount } (safeAdd as bs)
      else consNonZero b (safeAdd (a :: as) bs) := rfl

theorem amountOf_cons (c : Coin D) (cs : Coins D) (d : D) :
    AmountOf (c :: cs) d = (if c.Denom = d then c.Amount else 0) + AmountOf cs d := rfl

theorem amountOf_consNonZero (c : Coin D) (cs : Coins D) (d : D) :
    AmountOf (consNonZero c cs) d = AmountOf (c :: cs) d := by
  unfold consNonZero
  by_cases hz : c.Amount = 0
  · simp [hz, amountOf_cons]
  · simp [hz]

theorem amountOf_removeZeroCoins (cs : Coins D) (d : D) :
    AmountOf (removeZeroCoins cs) d = AmountOf cs d := by
  induction cs with
  | nil => rfl
  | cons c cs ih =>
    have hstep : removeZeroCoins (c :: cs) =
        if c.Amount = 0 then removeZeroCoins cs else c :: removeZeroCoins cs := by
      by_cases hz : c.Amount = 0 <;> simp [removeZeroCoins, List.filter_cons, hz]
    rw [hstep]
    by_cases hz : c.Amount = 0
    · simp [hz, amountOf_cons, ih]
    · simp [hz, amountOf_cons, ih]

/-- The merge adds amounts denomination by denomination, whatever the order of the lists. -/
theorem amountOf_safeAdd (as bs : Coins D) (d : D) :
    AmountOf (safeAdd as bs) d = AmountOf as d + AmountOf bs d := by
  induction as generalizing bs with
  | nil => simp [safeAdd_nil_left, amountOf_removeZeroCoins, AmountOf]
  | cons a as iha =>
    induction bs with
    | nil => simp [safeAdd_cons_nil, amountOf_removeZeroCoins, AmountOf]
    | cons b bs ihb =>
      rw [safeAdd_cons_cons]
      split_ifs with h1 h2
      · rw [amountOf_consNonZero, amountOf_cons, iha, amountOf_cons a]; ring
      · rw [amountOf_consNonZero, amountOf_cons, iha, amountOf_cons a, amountOf_cons b]
        by_cases hd : a.Denom = d
        · have : b.Denom = d := h2 ▸ hd
          simp [hd, this]; ring
        · have : ¬ b.Denom = d := fun hb => hd (h2.trans hb)
          simp [hd, this]
      · rw [amountOf_consNonZero, amountOf_cons, ihb, amountOf_cons b]; ring

theorem amountOf_negative (cs : Coins D) (d : D) :
    AmountOf (negative cs) d = - AmountOf cs d := by
  induction cs with
  | nil => simp [negative, AmountOf]
  | cons c cs ih =>
    unfold negative at ih ⊢
    rw [List.map_cons, amountOf_cons, amountOf_cons, ih]
    by_cases hd : c.Denom = d <;> simp [hd]
    ring

/-- The difference `SafeSub` returns is the denomination-wise difference. -/
theorem amountOf_safeSub (as bs : Coins D) (d : D) :
    AmountOf (SafeSub as bs).1 d = AmountOf as d - AmountOf bs d := by
  simp only [SafeSub, amountOf_safeAdd, amountOf_negative]; ring

theorem safeSub_snd (as bs : Coins D) : (SafeSub as bs).2 = IsAnyNegative (SafeSub as bs).1 := rfl

theorem isAnyNegative_eq_false_iff (cs : Coins D) :
    IsAnyNegative cs = false ↔ ∀ c ∈ cs, 0 ≤ c.Amount := by
  simp [IsAnyNegative]

theorem isAnyNegative_iff (cs : Coins D) :
    IsAnyNegative cs = true ↔ ∃ c ∈ cs, c.Amount < 0 := by
  simp [IsAnyNegative]

theorem isZero_iff (cs : Coins D) : IsZero cs = true ↔ ∀ c ∈ cs, c.Amount = 0 := by
  simp [IsZero]

theorem amountOf_nonneg (cs : Coins D) (h : ∀ c ∈ cs, 0 ≤ c.Amount) (d : D) :
    0 ≤ AmountOf cs d := by
  induction cs with
  | nil => simp [AmountOf]
  | cons c cs ih =>
    rw [amountOf_cons]
    have h1 : 0 ≤ c.Amount := h c (List.mem_cons_self _ _)
    have h2 := ih (fun x hx => h x (List.mem_cons_of_mem _ hx))
    split_ifs <;> omega

theorem amountOf_eq_zero_of_isZero (cs : Coins D) (h : ∀ c ∈ cs, c.Amount = 0) (d : D) :
    AmountOf cs d = 0 := by
  induction cs with
  | nil => simp [AmountOf]
  | cons c cs ih =>
    rw [amountOf_cons, ih (fun x hx => h x (List.mem_cons_of_mem _ hx)),
      h c (List.mem_cons_self _ _)]
    simp

/-- A coin set without negative coins whose amounts are all 0 has only zero coins. -/
theorem isZero_of_amountOf_eq_zero (cs : Coins D) (hn : ∀ c ∈ cs, 0 ≤ c.Amount)
    (h : ∀ d, AmountOf cs d = 0) : ∀ c ∈ cs, c.Amount = 0 := by
  induction cs with
  | nil => simp
  | cons c cs ih =>
    have hc : 0 ≤ c.Amount := hn c (List.mem_cons_self _ _)
    have hcs : ∀ x ∈ cs, 0 ≤ x.Amount := fun x hx => hn x (List.mem_cons_of_mem _ hx)
    have h0 := h c.Denom
    rw [amountOf_cons] at h0
    simp only [if_true] at h0
    have hrest := amountOf_nonneg cs hcs c.Denom
    have hc0 : c.Amount = 0 := by omega
    have hall : ∀ d, AmountOf cs d = 0 := by
      intro d
      have hd := h d
      rw [amountOf_cons, hc0] at hd
      simpa using hd
    intro x hx
    rcases List.mem_cons.mp hx with rfl | hx
    · exact hc0
    · exact ih hcs hall x hx

theorem mem_consNonZero {c x : Coin D} {cs : Coins D} (h : x ∈ consNonZero c cs) :
    x = c ∨ x ∈ cs := by
  unfold consNonZero at h
  split_ifs at h
  · exact Or.inr h
  · exact List.mem_cons.mp h

theorem mem_removeZeroCoins {x : Coin D} {cs : Coins D} (h : x ∈ removeZeroCoins cs) :
    x ∈ cs := (List.mem_filter.mp h).1

/-- Every coin of a sum carries a denomination of one of the two summands. -/
theorem denom_of_mem_safeAdd (as bs : Coins D) (c : Coin D) (hc : c ∈ safeAdd as bs) :
    (∃ x ∈ as, x.Denom = c.Denom) ∨ (∃ y ∈ bs, y.Denom = c.Denom) := by
  induction as generalizing bs with
  | nil => exact Or.inr ⟨c, mem_removeZeroCoins hc, rfl⟩
  | cons a as iha =>
    induction bs with
    | nil => exact Or.inl ⟨c, mem_removeZeroCoins hc, rfl⟩
    | cons b bs ihb =>
      rw [safeAdd_cons_cons] at hc
      split_ifs at hc with h1 h2
      · rcases mem_consNonZero hc with rfl | hm
        · exact Or.inl ⟨c, List.mem_cons_self _ _, rfl⟩
        · rcases iha _ hm with ⟨x, hx, hxd⟩ | hr
          · exact Or.inl ⟨x, List.mem_cons_of_mem _ hx, hxd⟩
          · exact Or.inr hr
      · rcases mem_consNonZero hc with rfl | hm
        · exact Or.inl ⟨a, List.mem_cons_self _ _, rfl⟩
        · rcases iha _ hm with ⟨x, hx, hxd⟩ | ⟨y, hy, hyd⟩
          · exact Or.inl ⟨x, List.mem_cons_of_mem _ hx, hxd⟩
          · exact Or.inr ⟨y, List.mem_cons_of_mem _ hy, hyd⟩
      · rcases mem_consNonZero hc with rfl | hm
        · exact Or.inr ⟨c, List.mem_cons_self _ _, rfl⟩
        · rcases ihb hm with hl | ⟨y, hy, hyd⟩
          · exact Or.inl hl
          · exact Or.inr ⟨y, List.mem_cons_of_mem _ hy, hyd⟩

theorem denomSorted_consNonZero {c : Coin D} {cs : Coins D}
    (hlt : ∀ x ∈ cs, c.Denom < x.Denom) (hs : DenomSorted cs) :
    DenomSorted (consNonZero c cs) := by
  unfold consNonZero
  split_ifs
  · exact hs
  · exact List.pairwise_cons.mpr ⟨hlt, hs⟩

theorem denomSorted_removeZeroCoins {cs : Coins D} (hs : DenomSorted cs) :
    DenomSorted (removeZeroCoins cs) :=
  List.Pairwise.sublist (List.filter_sublist cs) hs

theorem denomSorted_tail {c : Coin D} {cs : Coins D} (hs : DenomSorted (c :: cs)) :
    DenomSorted cs := (List.pairwise_cons.mp hs).2

theorem denomSorted_head_lt {c : Coin D} {cs : Coins D} (hs : DenomSorted (c :: cs)) :
    ∀ x ∈ cs, c.Denom < x.Denom := (List.pairwise_cons.mp hs).1

/-- The merge of two coin sets in ascending order of denomination is in ascending order. -/
theorem denomSorted_safeAdd (as bs : Coins D) (ha : DenomSorted as) (hb : DenomSorted bs) :
    DenomSorted (safeAdd as bs) := by
  induction as generalizing bs with
  | nil => exact denomSorted_removeZeroCoins hb
  | cons a as iha =>
    induction bs with
    | nil => exact denomSorted_removeZeroCoins ha
    | cons b bs ihb =>
      have hat := denomSorted_tail ha
      have hbt := denomSorted_tail hb
      have hah := denomSorted_head_lt ha
      have hbh := denomSorted_head_lt hb
      rw [safeAdd_cons_cons]
      split_ifs with h1 h2
      · refine denomSorted_consNonZero ?_ (iha _ hat hb)
        intro x hx
        rcases denom_of_mem_safeAdd _ _ x hx with ⟨y, hy, hyd⟩ | ⟨y, hy, hyd⟩
        · exact hyd ▸ hah y hy
        · rcases List.mem_cons.mp hy with rfl | hy
          · exact hyd ▸ h1
          · exact hyd ▸ lt_trans h1 (hbh y hy)
      · refine denomSorted_consNonZero ?_ (iha _ hat hbt)
        intro x hx
        rcases denom_of_mem_safeAdd _ _ x hx with ⟨y, hy, hyd⟩ | ⟨y, hy, hyd⟩
        · exact hyd ▸ hah y hy
        · exact hyd ▸ h2 ▸ hbh y hy
      · have hba : b.Denom < a.Denom :=
          lt_of_le_of_ne (not_lt.mp h1) (fun h => h2 h.symm)
        refine denomSorted_consNonZero ?_ (ihb hbt)
        intro x hx
        rcases denom_of_mem_safeAdd _ _ x hx with ⟨y, hy, hyd⟩ | ⟨y, hy, hyd⟩
        · rcases List.mem_cons.mp hy with rfl | hy
          · exact hyd ▸ hba
          · exact hyd ▸ lt_trans hba (hah y hy)
        · exact hyd ▸ hbh y hy

theorem denomSorted_negative {cs : Coins D} (hs : DenomSorted cs) :
    DenomSorted (negative cs) := by
  unfold DenomSorted negative
  exact List.pairwise_map.mpr hs

theorem denomSorted_safeSub {as bs : Coins D} (ha : DenomSorted as) (hb : DenomSorted bs) :
    DenomSorted (SafeSub as bs).1 :=
  denomSorted_safeAdd _ _ ha (denomSorted_negative hb)

theorem amountOf_eq_zero_of_not_mem (cs : Coins D) (d : D) (h : ∀ x ∈ cs, x.Denom ≠ d) :
    AmountOf cs d = 0 := by
  induction cs with
  | nil => rfl
  | cons y ys ih =>
    rw [amountOf_cons, if_neg (h y (List.mem_cons_self _ _)),
      ih (fun z hz => h z (List.mem_cons_of_mem _ hz))]
    rfl

/-- In a coin set in ascending order the amount of a denomination is the amount of its coin. -/
theorem amountOf_of_mem {cs : Coins D} (hs : DenomSorted cs) {c : Coin D} (hc : c ∈ cs) :
    AmountOf cs c.Denom = c.Amount := by
  induction cs with
  | nil => cases hc
  | cons x xs ih =>
    have hlt := denomSorted_head_lt hs
    have hxs := denomSorted_tail hs
    rw [amountOf_cons]
    rcases List.mem_cons.mp hc with rfl | hm
    · rw [amountOf_eq_zero_of_not_mem xs c.Denom (fun z hz => ne_of_gt (hlt z hz))]
      simp
    · have hne : ¬ x.Denom = c.Denom := ne_of_lt (hlt c hm)
      rw [if_neg hne, ih hxs hm]; simp

/-- For a coin set in ascending order, "some coin is negative" is "some denomination has a
negative amount". -/
theorem isAnyNegative_iff_amountOf {cs : Coins D} (hs : DenomSorted cs) :
    IsAnyNegative cs = true ↔ ∃ d, AmountOf cs d < 0 := by
  constructor
  · intro h
    obtain ⟨c, hc, hneg⟩ := (isAnyNegative_iff cs).mp h
    exact ⟨c.Denom, by rw [amountOf_of_mem hs hc]; exact hneg⟩
  · rintro ⟨d, hd⟩
    by_contra hn
    have hf : IsAnyNegative cs = false := by simpa using hn
    have := amountOf_nonneg cs ((isAnyNegative_eq_false_iff cs).mp hf) d
    omega

/-- For coin sets in ascending order the flag of `SafeSub` says that the difference is negative
in some denomination. -/
theorem safeSub_isNeg_iff {as bs : Coins D} (ha : DenomSorted as) (hb : DenomSorted bs) :
    (SafeSub as bs).2 = true ↔ ∃ d, AmountOf as d - AmountOf bs d < 0 := by
  rw [safeSub_snd, isAnyNegative_iff_amountOf (denomSorted_safeSub ha hb)]
  simp only [amountOf_safeSub]

end CoinLemmas

/-! ## Lemmas on `TryResetPeriod` and `Accept` -/

theorem tryResetPeriod_of_not_reached (a : PeriodicFeeAllowance D) (t h : Int)
    (hz : a.PeriodReset.IsZero = false) (he : a.PeriodReset.IsExpired t h = false) :
    a.TryResetPeriod t h = some a := by
  simp [TryResetPeriod, hz, he]

/-- What `TryResetPeriod` leaves when it returns: either the allowance itself (reset point set
and not reached) or the allowance with a new period allowance and a new reset point. -/
theorem tryResetPeriod_some (a a1 : PeriodicFeeAllowance D) (t h : Int)
    (hr : a.TryResetPeriod t h = some a1) :
    a1 = a ∨ ∃ r, a1 = { a with PeriodCanSpend := resetCanSpend a, PeriodReset := r } := by
  unfold TryResetPeriod at hr
  split_ifs at hr with h1 h2
  · exact Or.inl (Option.some.inj hr).symm
  · right
    simp only at hr
    split at hr
    · cases hr
    · split_ifs at hr with h3
      · split at hr
        · cases hr
        · rename_i r2 _
          exact ⟨r2, by rw [← Option.some.inj hr]; simp [resetCanSpend, h2]⟩
      · rename_i r1 _
        exact ⟨r1, by rw [← Option.some.inj hr]; simp [resetCanSpend, h2]⟩
  · right
    simp only at hr
    split at hr
    · cases hr
    · split_ifs at hr with h3
      · split at hr
        · cases hr
        · rename_i r2 _
          exact ⟨r2, by rw [← Option.some.inj hr]; simp [resetCanSpend, h2]⟩
      · rename_i r1 _
        exact ⟨r1, by rw [← Option.some.inj hr]; simp [resetCanSpend, h2]⟩

/-- `TryResetPeriod` when the reset point is unset or reached. -/
theorem tryResetPeriod_of_reached (a : PeriodicFeeAllowance D) (t h : Int)
    (hc : (!a.PeriodReset.IsZero && !a.PeriodReset.IsExpired t h) = false) :
    a.TryResetPeriod t h =
      (nextReset a.PeriodReset a.Period t h).map
        (fun r => { a with PeriodCanSpend := resetCanSpend a, PeriodReset := r }) := by
  unfold TryResetPeriod nextReset resetCanSpend
  rw [if_neg (by simp [hc])]
  cases (SafeSub a.Basic.SpendLimit a.PeriodSpendLimit).2 <;>
  · simp only [Bool.false_eq_true, if_false, if_true]
    cases a.PeriodReset.MustStep a.Period with
    | none => rfl
    | some r1 =>
      simp only
      cases r1.IsExpired t h
      · simp only [Bool.false_eq_true, if_false]; rfl
      · simp only [if_true]
        cases (r1.FastForward t h).MustStep a.Period <;> rfl

/-- The next reset point of a reset point that is a time. -/
theorem nextReset_time (r : ExpiresAt) (p : Duration) (t h : Int)
    (hr : 0 < r.Time) (hh : r.Height = 0) (hp : 0 < p.Clock) :
    nextReset r p t h =
      some (if t < r.Time + p.Clock then ExpiresAtTime (r.Time + p.Clock)
        else ExpiresAtTime (t + p.Clock)) := by
  have hr0 : r.Time ≠ 0 := by omega
  have hr1 : r.Time + p.Clock ≠ 0 := by omega
  obtain ⟨rt, rh⟩ := r
  simp only at hr hh hp hr0 hr1
  subst hh
  by_cases hlt : t < rt + p.Clock
  · simp [nextReset, ExpiresAt.MustStep, ExpiresAt.IsCompatible, ExpiresAt.IsExpired,
      ExpiresAtTime, hr0, hr1, hp, hlt]
  · have ht0 : t ≠ 0 := by omega
    simp [nextReset, ExpiresAt.MustStep, ExpiresAt.IsCompatible, ExpiresAt.IsExpired,
      ExpiresAt.FastForward, ExpiresAtTime, hr0, hr1, hp, hlt, ht0]

/-- The next reset point of a reset point that is a height, or unset. -/
theorem nextReset_height (r : ExpiresAt) (p : Duration) (t h : Int)
    (hr : r.Time = 0) (hh : 0 ≤ r.Height) (hp : 0 < p.Block) :
    nextReset r p t h =
      some (if h < r.Height + p.Block then ExpiresAtHeight (r.Height + p.Block)
        else ExpiresAtHeight (h + p.Block)) := by
  obtain ⟨rt, rh⟩ := r
  simp only at hr hh hp
  subst hr
  have h1 : rh + p.Block ≠ 0 := by omega
  by_cases hlt : h < rh + p.Block
  · have : ¬ rh + p.Block ≤ h := by omega
    simp [nextReset, ExpiresAt.MustStep, ExpiresAt.IsCompatible, ExpiresAt.IsExpired,
      ExpiresAtHeight, hp, hlt, this]
  · have : rh + p.Block ≤ h := by omega
    simp [nextReset, ExpiresAt.MustStep, ExpiresAt.IsCompatible, ExpiresAt.IsExpired,
      ExpiresAt.FastForward, ExpiresAtHeight, hp, hlt, this, h1]

theorem nextReset_isSome (r : ExpiresAt) (p : Duration) (t h : Int)
    (hc : r.IsCompatible p = true)
    (hu : r.Time = 0 ∨ (0 < r.Time ∧ r.Height = 0)) :
    ∃ r2, nextReset r p t h = some r2 := by
  rcases hu with h0 | ⟨hpos, hh⟩
  · obtain ⟨rt, rh⟩ := r
    simp only at h0
    subst h0
    have hp : 0 < p.Block := by simpa [ExpiresAt.IsCompatible] using hc
    by_cases hx : (rh + p.Block ≠ 0 ∧ rh + p.Block ≤ h)
    · exact ⟨ExpiresAtHeight (h + p.Block), by
        simp [nextReset, ExpiresAt.MustStep, ExpiresAt.IsCompatible, ExpiresAt.IsExpired,
          ExpiresAt.FastForward, ExpiresAtHeight, hp, hx.1, hx.2]⟩
    · refine ⟨ExpiresAtHeight (rh + p.Block), ?_⟩
      simp only [not_and_or, not_not, not_le] at hx
      rcases hx with hx | hx <;>
        simp [nextReset, ExpiresAt.MustStep, ExpiresAt.IsCompatible, ExpiresAt.IsExpired,
          ExpiresAtHeight, hp, hx]
  · have hp : 0 < p.Clock := by
      have : r.Time ≠ 0 := by omega
      simpa [ExpiresAt.IsCompatible, this] using hc
    exact ⟨_, nextReset_time r p t h hpos hh hp⟩

/-- A steppable allowance goes through the reset step without a panic. -/
theorem tryResetPeriod_isSome (a : PeriodicFeeAllowance D) (t h : Int) (hs : Steppable a) :
    ∃ a1, a.TryResetPeriod t h = some a1 := by
  cases hc : (!a.PeriodReset.IsZero && !a.PeriodReset.IsExpired t h) with
  | true =>
    refine ⟨a, ?_⟩
    simp only [TryResetPeriod, hc, if_true]
  | false =>
    obtain ⟨r2, hr2⟩ := nextReset_isSome a.PeriodReset a.Period t h hs.1 hs.2
    rw [tryResetPeriod_of_reached a t h hc, hr2]
    exact ⟨_, rfl⟩

/-- The reset step leaves `Basic`, `Period` and `PeriodSpendLimit` as they are. -/
theorem tryResetPeriod_frame (a a1 : PeriodicFeeAllowance D) (t h : Int)
    (hr : a.TryResetPeriod t h = some a1) :
    a1.Basic = a.Basic ∧ a1.Period = a.Period ∧ a1.PeriodSpendLimit = a.PeriodSpendLimit := by
  rcases tryResetPeriod_some a a1 t h hr with rfl | ⟨r, rfl⟩
  · exact ⟨rfl, rfl, rfl⟩
  · exact ⟨rfl, rfl, rfl⟩

theorem denomSorted_resetCanSpend (a : PeriodicFeeAllowance D)
    (h1 : DenomSorted a.Basic.SpendLimit) (h2 : DenomSorted a.PeriodSpendLimit) :
    DenomSorted (resetCanSpend a) := by
  unfold resetCanSpend
  split_ifs
  · exact h1
  · exact h2

theorem reached_time (r : ExpiresAt) (t h : Int) (h0 : r.Time ≠ 0) (ht : r.Time ≤ t) :
    (!r.IsZero && !r.IsExpired t h) = false := by
  have he : r.IsExpired t h = true := by
    simp [ExpiresAt.IsExpired, h0, ht]
  simp [he]

theorem reached_height (r : ExpiresAt) (t h : Int) (h0 : r.Time = 0) (hh : r.Height ≠ 0)
    (ht : r.Height ≤ h) : (!r.IsZero && !r.IsExpired t h) = false := by
  have he : r.IsExpired t h = true := by
    simp [ExpiresAt.IsExpired, h0, hh, ht]
  simp [he]

theorem cadence_iff (r p now : Int) (hp : 0 < p) :
    (∃ k : Int, 1 ≤ k ∧ (if now < r + p then r + p else now + p) = r + k * p) ↔
      (now < r + p ∨ p ∣ now - r) := by
  by_cases hlt : now < r + p
  · simp only [hlt, if_true, true_or, iff_true]
    exact ⟨1, le_refl _, by ring⟩
  · simp only [hlt, if_false, false_or]
    constructor
    · rintro ⟨k, -, hk⟩
      exact ⟨k - 1, by linarith [mul_comm p (k - 1), sub_mul k 1 p]⟩
    · rintro ⟨c, hc⟩
      refine ⟨c + 1, ?_, by linarith [mul_comm p c, add_mul c 1 p]⟩
      by_contra hneg
      have hc0 : c ≤ -1 := by omega
      have : p * c ≤ p * (-1) := mul_le_mul_of_nonneg_left hc0 (le_of_lt hp)
      omega

/-- `Accept` on an allowance that is not expired and whose reset step returned `a1`. -/
theorem accept_of_reset (a a1 : PeriodicFeeAllowance D) (fee : Coins D) (t h : Int)
    (he : a.Basic.Expiration.IsExpired t h = false) (hr : a.TryResetPeriod t h = some a1) :
    a.Accept fee t h =
      if (SafeSub a1.PeriodCanSpend fee).2 then
        some { allowance := { a1 with PeriodCanSpend := (SafeSub a1.PeriodCanSpend fee).1 },
               remove := false, err := some FeeError.ErrFeeLimitExceeded }
      else if (SafeSub a1.Basic.SpendLimit fee).2 then
        some { allowance := { a1 with
                 PeriodCanSpend := (SafeSub a1.PeriodCanSpend fee).1,
                 Basic := { a1.Basic with SpendLimit := (SafeSub a1.Basic.SpendLimit fee).1 } },
               remove := false, err := some FeeError.ErrFeeLimitExceeded }
      else
        some { allowance := { a1 with
                 PeriodCanSpend := (SafeSub a1.PeriodCanSpend fee).1,
                 Basic := { a1.Basic with SpendLimit := (SafeSub a1.Basic.SpendLimit fee).1 } },
               remove := IsZero (SafeSub a1.Basic.SpendLimit fee).1, err := none } := by
  simp only [Accept, he, hr, Bool.false_eq_true, if_false]

/-- A call of `Accept` that returns without the expired error went through the reset step. -/
theorem accept_some_reset (a : PeriodicFeeAllowance D) (fee : Coins D) (t h : Int)
    (res : AcceptResult D) (hacc : a.Accept fee t h = some res)
    (herr : res.err ≠ some FeeError.ErrFeeLimitExpired) :
    a.Basic.Expiration.IsExpired t h = false ∧ ∃ a1, a.TryResetPeriod t h = some a1 := by
  cases he : a.Basic.Expiration.IsExpired t h with
  | true =>
    simp only [Accept, he, if_true] at hacc
    rw [← Option.some.inj hacc] at herr
    exact absurd rfl herr
  | false =>
    refine ⟨rfl, ?_⟩
    cases hr : a.TryResetPeriod t h with
    | none => simp [Accept, he, hr] at hacc
    | some a1 => exact ⟨a1, rfl⟩

/-! ## The claims -/

/-- C1 (as stated, refuted): two calls that return the fee-limit-exceeded error and leave the
allowance changed. In the first the reset is due: the reset point moves from height 70 to 80 and
`PeriodCanSpend` goes from 5 to -2. In the second no reset is due and only the total limit is
exceeded: `PeriodCanSpend` goes from 10 to 3 and `Basic.SpendLimit` from 5 to -2. -/
theorem accept_limit_exceeded_changes_state :
    ((blockAllowance 10 5 5 10 70).Accept [⟨0, 7⟩] 0 75 =
        some ⟨blockAllowance 10 5 (-2) 10 80, false, some FeeError.ErrFeeLimitExceeded⟩ ∧
      blockAllowance 10 5 (-2) 10 80 ≠ blockAllowance 10 5 5 10 70) ∧
    ((blockAllowance 5 10 10 10 80).Accept [⟨0, 7⟩] 0 75 =
        some ⟨blockAllowance (-2) 10 3 10 80, false, some FeeError.ErrFeeLimitExceeded⟩ ∧
      blockAllowance (-2) 10 3 10 80 ≠ blockAllowance 5 10 10 10 80) := by
  refine ⟨⟨by decide, by decide⟩, ⟨by decide, by decide⟩⟩

/-- C1 (amended): when `Accept` returns the fee-limit-exceeded error, `Basic.Expiration`,
`Period` and `PeriodSpendLimit` are as before the call, `PeriodReset` is the one the reset step
`TryResetPeriod` leaves, and `Basic.SpendLimit` is as before the call when the subtraction from
the period allowance is the one that goes negative. -/
theorem accept_limit_exceeded_state (a : PeriodicFeeAllowance D) (fee : Coins D) (t h : Int)
    (res : AcceptResult D) (hacc : a.Accept fee t h = some res)
    (herr : res.err = some FeeError.ErrFeeLimitExceeded) :
    ∃ a1, a.TryResetPeriod t h = some a1 ∧
      res.allowance.Basic.Expiration = a.Basic.Expiration ∧
      res.allowance.Period = a.Period ∧
      res.allowance.PeriodSpendLimit = a.PeriodSpendLimit ∧
      res.allowance.PeriodReset = a1.PeriodReset ∧
      ((SafeSub a1.PeriodCanSpend fee).2 = true →
        res.allowance.Basic.SpendLimit = a.Basic.SpendLimit) := by
  obtain ⟨he, a1, hr⟩ := accept_some_reset a fee t h res hacc (by rw [herr]; decide)
  obtain ⟨hb, hp, hs⟩ := tryResetPeriod_frame a a1 t h hr
  refine ⟨a1, hr, ?_⟩
  rw [accept_of_reset a a1 fee t h he hr] at hacc
  split_ifs at hacc with h1 h2
  · rw [← Option.some.inj hacc]
    exact ⟨by rw [← hb], hp, hs, rfl, fun _ => by rw [← hb]⟩
  · rw [← Option.some.inj hacc]
    exact ⟨by rw [← hb], hp, hs, rfl, fun hc => absurd hc h1⟩
  · rw [← Option.some.inj hacc] at herr
    cases herr

/-- Witness of `accept_limit_exceeded_state`: limit 10, period limit 5, reset due at height 70, fee 7 at height 75. -/
theorem accept_limit_exceeded_state_witness :
    ((blockAllowance 10 5 5 10 70).Accept [⟨0, 7⟩] 0 75 =
        some ⟨blockAllowance 10 5 (-2) 10 80, false, some FeeError.ErrFeeLimitExceeded⟩) ∧
    ∃ a1, (blockAllowance 10 5 5 10 70).TryResetPeriod 0 75 = some a1 ∧
      (blockAllowance 10 5 (-2) 10 80).Basic.Expiration
        = (blockAllowance 10 5 5 10 70).Basic.Expiration ∧
      (blockAllowance 10 5 (-2) 10 80).Period = (blockAllowance 10 5 5 10 70).Period ∧
      (blockAllowance 10 5 (-2) 10 80).PeriodSpendLimit
        = (blockAllowance 10 5 5 10 70).PeriodSpendLimit ∧
      (blockAllowance 10 5 (-2) 10 80).PeriodReset = a1.PeriodReset ∧
      ((SafeSub a1.PeriodCanSpend [⟨0, 7⟩]).2 = true →
        (blockAllowance 10 5 (-2) 10 80).Basic.SpendLimit
          = (blockAllowance 10 5 5 10 70).Basic.SpendLimit) :=
  ⟨by decide,
   accept_limit_exceeded_state (blockAllowance 10 5 5 10 70) [⟨0, 7⟩] 0 75
     ⟨blockAllowance 10 5 (-2) 10 80, false, some FeeError.ErrFeeLimitExceeded⟩
     (by decide) rfl⟩

/-- C2: for an allowance that is not expired (steppable, its coin sets and the fee in ascending
order of denomination), `Accept` returns the fee-limit-exceeded error with remove=false exactly
when, after the reset step, `PeriodCanSpend` minus the fee or `Basic.SpendLimit` minus the fee is
negative in some denomination; exactly in the other case it returns a nil error. -/
theorem accept_limit_exceeded_iff (a : PeriodicFeeAllowance D) (fee : Coins D) (t h : Int)
    (he : a.Basic.Expiration.IsExpired t h = false) (hs : Steppable a)
    (hl : DenomSorted a.Basic.SpendLimit) (hp : DenomSorted a.PeriodSpendLimit)
    (hc : DenomSorted a.PeriodCanSpend) (hf : DenomSorted fee) :
    ∃ a1, a.TryResetPeriod t h = some a1 ∧
      ((∃ a2, a.Accept fee t h =
            some { allowance := a2, remove := false, err := some FeeError.ErrFeeLimitExceeded }) ↔
        ((∃ d, AmountOf a1.PeriodCanSpend d - AmountOf fee d < 0) ∨
          (∃ d, AmountOf a.Basic.SpendLimit d - AmountOf fee d < 0))) ∧
      ((∃ a2 rm, a.Accept fee t h = some { allowance := a2, remove := rm, err := none }) ↔
        ¬ ((∃ d, AmountOf a1.PeriodCanSpend d - AmountOf fee d < 0) ∨
          (∃ d, AmountOf a.Basic.SpendLimit d - AmountOf fee d < 0))) := by
  obtain ⟨a1, hr⟩ := tryResetPeriod_isSome a t h hs
  obtain ⟨hb, -, -⟩ := tryResetPeriod_frame a a1 t h hr
  have hc1 : DenomSorted a1.PeriodCanSpend := by
    rcases tryResetPeriod_some a a1 t h hr with rfl | ⟨r, rfl⟩
    · exact hc
    · exact denomSorted_resetCanSpend a hl hp
  have hl1 : DenomSorted a1.Basic.SpendLimit := by rw [hb]; exact hl
  have e1 := safeSub_isNeg_iff hc1 hf
  have e2 := safeSub_isNeg_iff hl1 hf
  rw [hb] at e2
  refine ⟨a1, hr, ?_⟩
  rw [accept_of_reset a a1 fee t h he hr, ← e1, ← e2, hb]
  split_ifs with h1 h2
  · simp [h1]
  · simp [h1, h2]
  · simp [h1, h2]

/-- Witness of `accept_limit_exceeded_iff`: limit 10, period limit 5, reset due at height 70, fee 7 at height 75. -/
theorem accept_limit_exceeded_iff_witness :
    ((blockAllowance 10 5 5 10 70).Basic.Expiration.IsExpired 0 75 = false ∧
      Steppable (blockAllowance 10 5 5 10 70) ∧
      DenomSorted (blockAllowance 10 5 5 10 70).Basic.SpendLimit ∧
      DenomSorted (blockAllowance 10 5 5 10 70).PeriodSpendLimit ∧
      DenomSorted (blockAllowance 10 5 5 10 70).PeriodCanSpend ∧
      DenomSorted ([⟨0, 7⟩] : Coins Nat)) ∧
    ∃ a1, (blockAllowance 10 5 5 10 70).TryResetPeriod 0 75 = some a1 ∧
      ((∃ a2, (blockAllowance 10 5 5 10 70).Accept [⟨0, 7⟩] 0 75 =
            some { allowance := a2, remove := false, err := some FeeError.ErrFeeLimitExceeded }) ↔
        ((∃ d, AmountOf a1.PeriodCanSpend d - AmountOf [⟨0, 7⟩] d < 0) ∨
          (∃ d, AmountOf (blockAllowance 10 5 5 10 70).Basic.SpendLimit d
            - AmountOf [⟨0, 7⟩] d < 0))) ∧
      ((∃ a2 rm, (blockAllowance 10 5 5 10 70).Accept [⟨0, 7⟩] 0 75 =
            some { allowance := a2, remove := rm, err := none }) ↔
        ¬ ((∃ d, AmountOf a1.PeriodCanSpend d - AmountOf [⟨0, 7⟩] d < 0) ∨
          (∃ d, AmountOf (blockAllowance 10 5 5 10 70).Basic.SpendLimit d
            - AmountOf [⟨0, 7⟩] d < 0))) :=
  ⟨⟨by decide, ⟨by decide, Or.inl rfl⟩, List.pairwise_singleton _ _, List.pairwise_singleton _ _,
      List.pairwise_singleton _ _, List.pairwise_singleton _ _⟩,
   accept_limit_exceeded_iff (blockAllowance 10 5 5 10 70) [⟨0, 7⟩] 0 75 (by decide)
     ⟨by decide, Or.inl rfl⟩ (List.pairwise_singleton _ _) (List.pairwise_singleton _ _)
     (List.pairwise_singleton _ _) (List.pairwise_singleton _ _)⟩

/-- C3: a call of `Accept` that returns a nil error leaves `Basic.SpendLimit` equal to the old
one minus the fee and `PeriodCanSpend` equal to the one the reset step produced minus the fee,
denomination by denomination, and neither holds a negative amount. -/
theorem accept_ok_deducts (a : PeriodicFeeAllowance D) (fee : Coins D) (t h : Int)
    (res : AcceptResult D) (hacc : a.Accept fee t h = some res) (herr : res.err = none) :
    ∃ a1, a.TryResetPeriod t h = some a1 ∧
      (∀ d, AmountOf res.allowance.Basic.SpendLimit d =
        AmountOf a.Basic.SpendLimit d - AmountOf fee d) ∧
      (∀ d, AmountOf res.allowance.PeriodCanSpend d =
        AmountOf a1.PeriodCanSpend d - AmountOf fee d) ∧
      IsAnyNegative res.allowance.Basic.SpendLimit = false ∧
      IsAnyNegative res.allowance.PeriodCanSpend = false ∧
      (∀ d, 0 ≤ AmountOf res.allowance.Basic.SpendLimit d) ∧
      (∀ d, 0 ≤ AmountOf res.allowance.PeriodCanSpend d) := by
  obtain ⟨he, a1, hr⟩ := accept_some_reset a fee t h res hacc (by rw [herr]; decide)
  obtain ⟨hb, -, -⟩ := tryResetPeriod_frame a a1 t h hr
  refine ⟨a1, hr, ?_⟩
  rw [accept_of_reset a a1 fee t h he hr] at hacc
  split_ifs at hacc with h1 h2
  · rw [← Option.some.inj hacc] at herr; cases herr
  · rw [← Option.some.inj hacc] at herr; cases herr
  · rw [← Option.some.inj hacc]
    have n1 : IsAnyNegative (SafeSub a1.PeriodCanSpend fee).1 = false := by
      rw [← safeSub_snd]; simpa using h1
    have n2 : IsAnyNegative (SafeSub a1.Basic.SpendLimit fee).1 = false := by
      rw [← safeSub_snd]; simpa using h2
    refine ⟨fun d => ?_, fun d => amountOf_safeSub _ _ d, n2, n1, fun d => ?_, fun d => ?_⟩
    · simp only [amountOf_safeSub, hb]
    · exact amountOf_nonneg _ ((isAnyNegative_eq_false_iff _).mp n2) d
    · exact amountOf_nonneg _ ((isAnyNegative_eq_false_iff _).mp n1) d

/-- Witness of `accept_ok_deducts`: limit 10, period limit 5, reset due at height 70, fee 3 at height 75. -/
theorem accept_ok_deducts_witness :
    ((blockAllowance 10 5 5 10 70).Accept [⟨0, 3⟩] 0 75 =
        some ⟨blockAllowance 7 5 2 10 80, false, none⟩) ∧
    ∃ a1, (blockAllowance 10 5 5 10 70).TryResetPeriod 0 75 = some a1 ∧
      (∀ d, AmountOf (blockAllowance 7 5 2 10 80).Basic.SpendLimit d =
        AmountOf (blockAllowance 10 5 5 10 70).Basic.SpendLimit d - AmountOf [⟨0, 3⟩] d) ∧
      (∀ d, AmountOf (blockAllowance 7 5 2 10 80).PeriodCanSpend d =
        AmountOf a1.PeriodCanSpend d - AmountOf [⟨0, 3⟩] d) ∧
      IsAnyNegative (blockAllowance 7 5 2 10 80).Basic.SpendLimit = false ∧
      IsAnyNegative (blockAllowance 7 5 2 10 80).PeriodCanSpend = false ∧
      (∀ d, 0 ≤ AmountOf (blockAllowance 7 5 2 10 80).Basic.SpendLimit d) ∧
      (∀ d, 0 ≤ AmountOf (blockAllowance 7 5 2 10 80).PeriodCanSpend d) :=
  ⟨by decide,
   accept_ok_deducts (blockAllowance 10 5 5 10 70) [⟨0, 3⟩] 0 75
     ⟨blockAllowance 7 5 2 10 80, false, none⟩ (by decide) rfl⟩

/-- C4: on an allowance whose `Basic.Expiration` is expired at the block time and height,
`Accept` returns remove=true with the fee-limit-expired error, whatever the fee, and leaves the
allowance as it is. -/
theorem accept_expired (a : PeriodicFeeAllowance D) (fee : Coins D) (t h : Int)
    (he : a.Basic.Expiration.IsExpired t h = true) :
    a.Accept fee t h =
      some { allowance := a, remove := true, err := some FeeError.ErrFeeLimitExpired } := by
  simp only [Accept, he, if_true]

/-- Witness of `accept_expired`: expiration at height 100, empty fee at height 100. -/
theorem accept_expired_witness :
    (blockAllowance 10 5 5 10 70).Basic.Expiration.IsExpired 0 100 = true ∧
    (blockAllowance 10 5 5 10 70).Accept [] 0 100 =
      some { allowance := blockAllowance 10 5 5 10 70, remove := true,
             err := some FeeError.ErrFeeLimitExpired } :=
  ⟨by decide, accept_expired (blockAllowance 10 5 5 10 70) [] 0 100 (by decide)⟩

/-- C5: on a call of `Accept` that returns a nil error the remove flag is true exactly when the
`Basic.SpendLimit` left is zero, which is exactly when the fee equals the previous total limit in
every denomination; a call that leaves a positive amount in some denomination returns
remove=false. -/
theorem accept_ok_remove_iff (a : PeriodicFeeAllowance D) (fee : Coins D) (t h : Int)
    (res : AcceptResult D) (hacc : a.Accept fee t h = some res) (herr : res.err = none) :
    (res.remove = true ↔ IsZero res.allowance.Basic.SpendLimit = true) ∧
    (res.remove = true ↔ ∀ d, AmountOf res.allowance.Basic.SpendLimit d = 0) ∧
    (res.remove = true ↔ ∀ d, AmountOf fee d = AmountOf a.Basic.SpendLimit d) ∧
    ((∃ d, 0 < AmountOf res.allowance.Basic.SpendLimit d) → res.remove = false) := by
  obtain ⟨he, a1, hr⟩ := accept_some_reset a fee t h res hacc (by rw [herr]; decide)
  obtain ⟨hb, -, -⟩ := tryResetPeriod_frame a a1 t h hr
  rw [accept_of_reset a a1 fee t h he hr] at hacc
  split_ifs at hacc with h1 h2
  · rw [← Option.some.inj hacc] at herr; cases herr
  · rw [← Option.some.inj hacc] at herr; cases herr
  · rw [← Option.some.inj hacc]
    have n2 : IsAnyNegative (SafeSub a1.Basic.SpendLimit fee).1 = false := by
      rw [← safeSub_snd]; simpa using h2
    have hnn := (isAnyNegative_eq_false_iff _).mp n2
    have key : IsZero (SafeSub a1.Basic.SpendLimit fee).1 = true ↔
        ∀ d, AmountOf (SafeSub a1.Basic.SpendLimit fee).1 d = 0 := by
      rw [isZero_iff]
      exact ⟨fun hz d => amountOf_eq_zero_of_isZero _ hz d,
        fun hz => isZero_of_amountOf_eq_zero _ hnn hz⟩
    refine ⟨Iff.rfl, key, ?_, ?_⟩
    · show IsZero (SafeSub a1.Basic.SpendLimit fee).1 = true ↔ _
      rw [key]
      simp only [amountOf_safeSub, hb]
      exact forall_congr' fun d => by constructor <;> intro hd <;> omega
    · rintro ⟨d, hd⟩
      show IsZero (SafeSub a1.Basic.SpendLimit fee).1 = false
      by_contra hne
      have hz : IsZero (SafeSub a1.Basic.SpendLimit fee).1 = true := by simpa using hne
      have hd0 := key.mp hz d
      have hd1 : 0 < AmountOf (SafeSub a1.Basic.SpendLimit fee).1 d := hd
      omega

/-- Witness of `accept_ok_remove_iff`: limit 5, period allowance 5, no reset due, fee 5. -/
theorem accept_ok_remove_iff_witness :
    ((blockAllowance 5 5 5 10 80).Accept [⟨0, 5⟩] 0 75 =
        some ⟨{ blockAllowance 5 5 5 10 80 with
                  Basic := { SpendLimit := [], Expiration := ExpiresAtHeight 100 },
                  PeriodCanSpend := [] }, true, none⟩) ∧
    (true = true ↔ IsZero ([] : Coins Nat) = true) ∧
    (true = true ↔ ∀ d, AmountOf ([] : Coins Nat) d = 0) ∧
    (true = true ↔
      ∀ d, AmountOf [⟨0, 5⟩] d = AmountOf (blockAllowance 5 5 5 10 80).Basic.SpendLimit d) ∧
    ((∃ d, 0 < AmountOf ([] : Coins Nat) d) → true = false) :=
  ⟨by decide,
   accept_ok_remove_iff (blockAllowance 5 5 5 10 80) [⟨0, 5⟩] 0 75
     ⟨{ blockAllowance 5 5 5 10 80 with
          Basic := { SpendLimit := [], Expiration := ExpiresAtHeight 100 },
          PeriodCanSpend := [] }, true, none⟩ (by decide) rfl⟩

/-- C6 (the code at the failing input): with total limit 10 of denomination 0 and 1 of
denomination 1 and period limit 5 of each, a reset sets `PeriodCanSpend` to the whole total
limit, 10 of denomination 0, which is not min(10, 5) and is above the period limit; `Accept`
then takes a fee of 7 of denomination 0 within one period. -/
theorem tryResetPeriod_mixed_denoms :
    (TryResetPeriod (
        { Basic := { SpendLimit := [⟨0, 10⟩, ⟨1, 1⟩], Expiration := ExpiresAtHeight 100 },
          Period := ⟨0, 10⟩, PeriodSpendLimit := [⟨0, 5⟩, ⟨1, 5⟩], PeriodCanSpend := [],
          PeriodReset := ExpiresAtHeight 70 } : PeriodicFeeAllowance Nat) 0 75
      = some
        { Basic := { SpendLimit := [⟨0, 10⟩, ⟨1, 1⟩], Expiration := ExpiresAtHeight 100 },
          Period := ⟨0, 10⟩, PeriodSpendLimit := [⟨0, 5⟩, ⟨1, 5⟩],
          PeriodCanSpend := [⟨0, 10⟩, ⟨1, 1⟩], PeriodReset := ExpiresAtHeight 80 }) ∧
    AmountOf ([⟨0, 10⟩, ⟨1, 1⟩] : Coins Nat) 0 = 10 ∧
    min (AmountOf ([⟨0, 10⟩, ⟨1, 1⟩] : Coins Nat) 0) (AmountOf ([⟨0, 5⟩, ⟨1, 5⟩] : Coins Nat) 0)
      = 5 ∧
    (Accept (
        { Basic := { SpendLimit := [⟨0, 10⟩, ⟨1, 1⟩], Expiration := ExpiresAtHeight 100 },
          Period := ⟨0, 10⟩, PeriodSpendLimit := [⟨0, 5⟩, ⟨1, 5⟩], PeriodCanSpend := [],
          PeriodReset := ExpiresAtHeight 70 } : PeriodicFeeAllowance Nat) [⟨0, 7⟩] 0 75
      = some
        { allowance :=
            { Basic := { SpendLimit := [⟨0, 3⟩, ⟨1, 1⟩], Expiration := ExpiresAtHeight 100 },
              Period := ⟨0, 10⟩, PeriodSpendLimit := [⟨0, 5⟩, ⟨1, 5⟩],
              PeriodCanSpend := [⟨0, 3⟩, ⟨1, 1⟩], PeriodReset := ExpiresAtHeight 80 },
          remove := false, err := none }) := by
  refine ⟨by decide, by decide, by decide, by decide⟩

/-- C7: when `PeriodReset` is set and not reached at the block time and height, `TryResetPeriod`
returns and leaves every field of the allowance as it is. -/
theorem tryResetPeriod_not_reached_unchanged (a : PeriodicFeeAllowance D) (t h : Int)
    (hz : a.PeriodReset.IsZero = false) (he : a.PeriodReset.IsExpired t h = false) :
    a.TryResetPeriod t h = some a :=
  tryResetPeriod_of_not_reached a t h hz he

/-- Witness of `tryResetPeriod_not_reached_unchanged`: reset point at time 500, call at time 499. -/
theorem tryResetPeriod_not_reached_unchanged_witness :
    ((clockAllowance 10 5 2 100 500).PeriodReset.IsZero = false ∧
      (clockAllowance 10 5 2 100 500).PeriodReset.IsExpired 499 7 = false) ∧
    (clockAllowance 10 5 2 100 500).TryResetPeriod 499 7 = some (clockAllowance 10 5 2 100 500) :=
  ⟨⟨by decide, by decide⟩,
   tryResetPeriod_not_reached_unchanged (clockAllowance 10 5 2 100 500) 499 7
     (by decide) (by decide)⟩

/-- C8: the reset point is inclusive. When the reset point is a time equal to the block time, or
a height equal to the block height, and the period is positive in that unit, `TryResetPeriod`
resets: `PeriodCanSpend` is recomputed from `Basic.SpendLimit` and `PeriodSpendLimit` and
`PeriodReset` moves forward by one period. -/
theorem tryResetPeriod_at_reset_point (a : PeriodicFeeAllowance D) (t h : Int) :
    (a.PeriodReset.Time ≠ 0 → a.PeriodReset.Height = 0 → a.PeriodReset.Time = t →
      0 < a.Period.Clock →
      a.TryResetPeriod t h =
        some { a with PeriodCanSpend := resetCanSpend a,
                      PeriodReset := ExpiresAtTime (t + a.Period.Clock) }) ∧
    (a.PeriodReset.Time = 0 → a.PeriodReset.Height ≠ 0 → a.PeriodReset.Height = h →
      0 < a.Period.Block →
      a.TryResetPeriod t h =
        some { a with PeriodCanSpend := resetCanSpend a,
                      PeriodReset := ExpiresAtHeight (h + a.Period.Block) }) := by
  constructor
  · intro h0 hh ht hp
    subst ht
    have he : a.PeriodReset.IsExpired a.PeriodReset.Time h = true := by
      simp [ExpiresAt.IsExpired, h0]
    rw [tryResetPeriod_of_reached a _ h (by simp [he])]
    have hn : nextReset a.PeriodReset a.Period a.PeriodReset.Time h
        = some (ExpiresAtTime (a.PeriodReset.Time + a.Period.Clock)) := by
      generalize a.PeriodReset = r at h0 hh
      obtain ⟨rt, rh⟩ := r
      simp only at h0 hh
      subst hh
      simp [nextReset, ExpiresAt.MustStep, ExpiresAt.IsCompatible, ExpiresAt.IsExpired,
        ExpiresAtTime, h0, hp]
    rw [hn]; rfl
  · intro h0 hh ht hp
    subst ht
    have he : a.PeriodReset.IsExpired t a.PeriodReset.Height = true := by
      simp [ExpiresAt.IsExpired, h0, hh]
    rw [tryResetPeriod_of_reached a t _ (by simp [he])]
    have hn : nextReset a.PeriodReset a.Period t a.PeriodReset.Height
        = some (ExpiresAtHeight (a.PeriodReset.Height + a.Period.Block)) := by
      generalize a.PeriodReset = r at h0 hh
      obtain ⟨rt, rh⟩ := r
      simp only at h0 hh
      subst h0
      have : ¬ rh + a.Period.Block ≤ rh := by omega
      simp [nextReset, ExpiresAt.MustStep, ExpiresAt.IsCompatible, ExpiresAt.IsExpired,
        ExpiresAtHeight, hp, this]
    rw [hn]; rfl

/-- Witness of `tryResetPeriod_at_reset_point`: reset time 500 called at time 500 with period 100, and reset height 70 called at height 70 with period 10. -/
theorem tryResetPeriod_at_reset_point_witness :
    (clockAllowance 10 5 2 100 500).TryResetPeriod 500 7 = some (clockAllowance 10 5 5 100 600) ∧
    (blockAllowance 10 5 2 10 70).TryResetPeriod 0 70 = some (blockAllowance 10 5 5 10 80) :=
  ⟨(tryResetPeriod_at_reset_point (clockAllowance 10 5 2 100 500) 500 7).1
      (by decide) rfl rfl (by decide),
   (tryResetPeriod_at_reset_point (blockAllowance 10 5 2 10 70) 0 70).2
      rfl (by decide) rfl (by decide)⟩

/-- C9 (as stated, refuted): a reset point at height 10 with a period of 4 blocks, called at
height 19, moves to height 23, and 23 is not 10 + k*4 for any integer k. -/
theorem tryResetPeriod_off_cadence :
    (blockAllowance 10 5 5 4 10).TryResetPeriod 0 19 = some (blockAllowance 10 5 5 4 23) ∧
    ¬ ∃ k : Int, 1 ≤ k ∧ (blockAllowance 10 5 5 4 23).PeriodReset.Height
        = (blockAllowance 10 5 5 4 10).PeriodReset.Height
          + k * (blockAllowance 10 5 5 4 10).Period.Block := by
  refine ⟨by decide, ?_⟩
  rintro ⟨k, -, hk⟩
  simp only [blockAllowance, ExpiresAtHeight] at hk
  omega

/-- C9 (amended): when the reset point `r` is reached, the new reset point is `r + Period` if
`now < r + Period` and `now + Period` otherwise; it has the form `r + k*Period` with an integer
`k >= 1` exactly when `now < r + Period` or `now - r` is a multiple of `Period`. -/
theorem tryResetPeriod_next_reset (a : PeriodicFeeAllowance D) (t h : Int) :
    (0 < a.PeriodReset.Time → a.PeriodReset.Height = 0 → 0 < a.Period.Clock →
      a.PeriodReset.Time ≤ t →
      ∃ a1, a.TryResetPeriod t h = some a1 ∧
        a1.PeriodReset = ExpiresAtTime
          (if t < a.PeriodReset.Time + a.Period.Clock then a.PeriodReset.Time + a.Period.Clock
            else t + a.Period.Clock) ∧
        ((∃ k : Int, 1 ≤ k ∧ a1.PeriodReset.Time = a.PeriodReset.Time + k * a.Period.Clock) ↔
          (t < a.PeriodReset.Time + a.Period.Clock ∨ a.Period.Clock ∣ t - a.PeriodReset.Time))) ∧
    (a.PeriodReset.Time = 0 → 0 < a.PeriodReset.Height → 0 < a.Period.Block →
      a.PeriodReset.Height ≤ h →
      ∃ a1, a.TryResetPeriod t h = some a1 ∧
        a1.PeriodReset = ExpiresAtHeight
          (if h < a.PeriodReset.Height + a.Period.Block
            then a.PeriodReset.Height + a.Period.Block else h + a.Period.Block) ∧
        ((∃ k : Int, 1 ≤ k ∧
            a1.PeriodReset.Height = a.PeriodReset.Height + k * a.Period.Block) ↔
          (h < a.PeriodReset.Height + a.Period.Block ∨
            a.Period.Block ∣ h - a.PeriodReset.Height))) := by
  constructor
  · intro h0 hh hp ht
    rw [tryResetPeriod_of_reached a t h (reached_time _ t h (by omega) ht),
      nextReset_time _ _ t h h0 hh hp]
    refine ⟨_, rfl, ?_, ?_⟩
    · dsimp only
      split_ifs <;> rfl
    · rw [← cadence_iff a.PeriodReset.Time a.Period.Clock t hp]
      dsimp only
      split_ifs <;> rfl
  · intro h0 hh hp ht
    rw [tryResetPeriod_of_reached a t h (reached_height _ t h h0 (by omega) ht),
      nextReset_height _ _ t h h0 (le_of_lt hh) hp]
    refine ⟨_, rfl, ?_, ?_⟩
    · dsimp only
      split_ifs <;> rfl
    · rw [← cadence_iff a.PeriodReset.Height a.Period.Block h hp]
      dsimp only
      split_ifs <;> rfl

/-- Witness of `tryResetPeriod_next_reset`: reset time 500 with period 100 called at time 730, and reset height 10 with period 4 called at height 19. -/
theorem tryResetPeriod_next_reset_witness :
    (∃ a1, (clockAllowance 10 5 2 100 500).TryResetPeriod 730 7 = some a1 ∧
      a1.PeriodReset = ExpiresAtTime (if (730 : Int) < 500 + 100 then 500 + 100 else 730 + 100) ∧
      ((∃ k : Int, 1 ≤ k ∧ a1.PeriodReset.Time = 500 + k * 100) ↔
        ((730 : Int) < 500 + 100 ∨ (100 : Int) ∣ 730 - 500))) ∧
    (∃ a1, (blockAllowance 10 5 2 4 10).TryResetPeriod 0 19 = some a1 ∧
      a1.PeriodReset = ExpiresAtHeight (if (19 : Int) < 10 + 4 then 10 + 4 else 19 + 4) ∧
      ((∃ k : Int, 1 ≤ k ∧ a1.PeriodReset.Height = 10 + k * 4) ↔
        ((19 : Int) < 10 + 4 ∨ (4 : Int) ∣ 19 - 10))) :=
  ⟨(tryResetPeriod_next_reset (clockAllowance 10 5 2 100 500) 730 7).1
      (by decide) rfl (by decide) (by decide),
   (tryResetPeriod_next_reset (blockAllowance 10 5 2 4 10) 0 19).2
      rfl (by decide) (by decide) (by decide)⟩

/-- C10: when the reset point `r` is more than one period out (`now >= r + Period` in the unit
of `r`), `TryResetPeriod` resets and the new reset point is one period from now,
`now + Period`. -/
theorem tryResetPeriod_more_than_one_period_out (a : PeriodicFeeAllowance D) (t h : Int) :
    (0 < a.PeriodReset.Time → a.PeriodReset.Height = 0 → 0 < a.Period.Clock →
      a.PeriodReset.Time + a.Period.Clock ≤ t →
      a.TryResetPeriod t h =
        some { a with PeriodCanSpend := resetCanSpend a,
                      PeriodReset := ExpiresAtTime (t + a.Period.Clock) }) ∧
    (a.PeriodReset.Time = 0 → 0 < a.PeriodReset.Height → 0 < a.Period.Block →
      a.PeriodReset.Height + a.Period.Block ≤ h →
      a.TryResetPeriod t h =
        some { a with PeriodCanSpend := resetCanSpend a,
                      PeriodReset := ExpiresAtHeight (h + a.Period.Block) }) := by
  constructor
  · intro h0 hh hp ht
    rw [tryResetPeriod_of_reached a t h (reached_time _ t h (by omega) (by omega)),
      nextReset_time _ _ t h h0 hh hp, if_neg (by omega)]
    rfl
  · intro h0 hh hp ht
    rw [tryResetPeriod_of_reached a t h (reached_height _ t h h0 (by omega) (by omega)),
      nextReset_height _ _ t h h0 (le_of_lt hh) hp, if_neg (by omega)]
    rfl

/-- Witness of `tryResetPeriod_more_than_one_period_out`: reset time 500 with period 100 called at time 730, and reset height 10 with period 4 called at height 19. -/
theorem tryResetPeriod_more_than_one_period_out_witness :
    (clockAllowance 10 5 2 100 500).TryResetPeriod 730 7 = some (clockAllowance 10 5 5 100 830) ∧
    (blockAllowance 10 5 2 4 10).TryResetPeriod 0 19 = some (blockAllowance 10 5 5 4 23) :=
  ⟨(tryResetPeriod_more_than_one_period_out (clockAllowance 10 5 2 100 500) 730 7).1
      (by decide) rfl (by decide) (by decide),
   (tryResetPeriod_more_than_one_period_out (blockAllowance 10 5 2 4 10) 0 19).2
      rfl (by decide) (by decide) (by decide)⟩

/-! ## Reset points: within a period, and after the reset -/

/-- C11: when `r <= now < r + Period` for the reset point `r` and a positive period in the unit
of `r`, `TryResetPeriod` resets and the new reset point is `r + Period`, wherever in that period
`now` lies. -/
theorem tryResetPeriod_within_period (a : PeriodicFeeAllowance D) (t h : Int) :
    (0 < a.PeriodReset.Time → a.PeriodReset.Height = 0 → 0 < a.Period.Clock →
      a.PeriodReset.Time ≤ t → t < a.PeriodReset.Time + a.Period.Clock →
      a.TryResetPeriod t h =
        some { a with PeriodCanSpend := resetCanSpend a,
                      PeriodReset := ExpiresAtTime (a.PeriodReset.Time + a.Period.Clock) }) ∧
    (a.PeriodReset.Time = 0 → 0 < a.PeriodReset.Height → 0 < a.Period.Block →
      a.PeriodReset.Height ≤ h → h < a.PeriodReset.Height + a.Period.Block →
      a.TryResetPeriod t h =
        some { a with PeriodCanSpend := resetCanSpend a,
                      PeriodReset := ExpiresAtHeight (a.PeriodReset.Height + a.Period.Block) }) := by
  constructor
  · intro h0 hh hp ht hlt
    rw [tryResetPeriod_of_reached a t h (reached_time _ t h (by omega) ht),
      nextReset_time _ _ t h h0 hh hp, if_pos hlt]
    rfl
  · intro h0 hh hp ht hlt
    rw [tryResetPeriod_of_reached a t h (reached_height _ t h h0 (by omega) ht),
      nextReset_height _ _ t h h0 (le_of_lt hh) hp, if_pos hlt]
    rfl

/-- Witness of `tryResetPeriod_within_period`: reset time 500 with period 100 called at times
500 and 599, and reset height 70 with period 10 called at height 75. -/
theorem tryResetPeriod_within_period_witness :
    (clockAllowance 10 5 2 100 500).TryResetPeriod 500 7 = some (clockAllowance 10 5 5 100 600) ∧
    (clockAllowance 10 5 2 100 500).TryResetPeriod 599 7 = some (clockAllowance 10 5 5 100 600) ∧
    (blockAllowance 10 5 2 10 70).TryResetPeriod 0 75 = some (blockAllowance 10 5 5 10 80) :=
  ⟨(tryResetPeriod_within_period (clockAllowance 10 5 2 100 500) 500 7).1
      (by decide) rfl (by decide) (by decide) (by decide),
   (tryResetPeriod_within_period (clockAllowance 10 5 2 100 500) 599 7).1
      (by decide) rfl (by decide) (by decide) (by decide),
   (tryResetPeriod_within_period (blockAllowance 10 5 2 10 70) 0 75).2
      rfl (by decide) (by decide) (by decide) (by decide)⟩

theorem not_reached_of_time_lt (r : ExpiresAt) (t h : Int) (h0 : 0 < r.Time)
    (hh : r.Height = 0) (ht : t < r.Time) :
    r.IsZero = false ∧ r.IsExpired t h = false := by
  have hne : r.Time ≠ 0 := by omega
  simp [ExpiresAt.IsZero, ExpiresAt.IsExpired, hne, hh, ht]

theorem not_reached_of_height_lt (r : ExpiresAt) (t h : Int) (h0 : r.Time = 0)
    (hh : 0 < r.Height) (ht : h < r.Height) :
    r.IsZero = false ∧ r.IsExpired t h = false := by
  have hne : r.Height ≠ 0 := by omega
  have hle : ¬ r.Height ≤ h := by omega
  simp [ExpiresAt.IsZero, ExpiresAt.IsExpired, h0, hne, hle]

/-- C12: for a period positive in the unit of the reset point (a time after the zero instant,
or a height that is 0 or above), after `TryResetPeriod` at a block time and height the reset
point is set and strictly after now, it is not expired there, and a second `TryResetPeriod` at
the same time and height leaves the allowance as it is, however long the gap was. -/
theorem tryResetPeriod_idempotent (a : PeriodicFeeAllowance D) (t h : Int)
    (hu : (0 < a.PeriodReset.Time ∧ a.PeriodReset.Height = 0 ∧ 0 < a.Period.Clock) ∨
      (a.PeriodReset.Time = 0 ∧ 0 ≤ a.PeriodReset.Height ∧ 0 < a.Period.Block)) :
    ∃ a1, a.TryResetPeriod t h = some a1 ∧
      a1.PeriodReset.IsZero = false ∧
      a1.PeriodReset.IsExpired t h = false ∧
      ((0 < a.PeriodReset.Time → t < a1.PeriodReset.Time) ∧
        (a.PeriodReset.Time = 0 → h < a1.PeriodReset.Height)) ∧
      a1.TryResetPeriod t h = some a1 := by
  rcases hu with ⟨h0, hh, hp⟩ | ⟨h0, hh, hp⟩
  · by_cases hr : a.PeriodReset.Time ≤ t
    · rw [tryResetPeriod_of_reached a t h (reached_time _ t h (by omega) hr),
        nextReset_time _ _ t h h0 hh hp]
      refine ⟨_, rfl, ?_⟩
      have key : ∀ x : Int, 0 < x → t < x →
          (ExpiresAtTime x).IsZero = false ∧ (ExpiresAtTime x).IsExpired t h = false :=
        fun x hx htx => not_reached_of_time_lt (ExpiresAtTime x) t h hx rfl htx
      have hx : 0 < (if t < a.PeriodReset.Time + a.Period.Clock
          then a.PeriodReset.Time + a.Period.Clock else t + a.Period.Clock) ∧
          t < (if t < a.PeriodReset.Time + a.Period.Clock
          then a.PeriodReset.Time + a.Period.Clock else t + a.Period.Clock) := by
        split_ifs <;> constructor <;> omega
      have hk := key _ hx.1 hx.2
      have hsplit : (if t < a.PeriodReset.Time + a.Period.Clock
          then ExpiresAtTime (a.PeriodReset.Time + a.Period.Clock)
          else ExpiresAtTime (t + a.Period.Clock)) =
          ExpiresAtTime (if t < a.PeriodReset.Time + a.Period.Clock
          then a.PeriodReset.Time + a.Period.Clock else t + a.Period.Clock) := by
        split_ifs <;> rfl
      simp only [Option.map_some', hsplit]
      refine ⟨hk.1, hk.2, ⟨fun _ => hx.2, fun hz => absurd hz (by omega)⟩, ?_⟩
      exact tryResetPeriod_of_not_reached _ t h hk.1 hk.2
    · have hk := not_reached_of_time_lt a.PeriodReset t h h0 hh (by omega)
      exact ⟨a, tryResetPeriod_of_not_reached a t h hk.1 hk.2, hk.1, hk.2,
        ⟨fun _ => by omega, fun hz => absurd hz (by omega)⟩,
        tryResetPeriod_of_not_reached a t h hk.1 hk.2⟩
  · by_cases hr : a.PeriodReset.Height = 0 ∨ a.PeriodReset.Height ≤ h
    · have hc : (!a.PeriodReset.IsZero && !a.PeriodReset.IsExpired t h) = false := by
        rcases hr with hz | hle
        · simp [ExpiresAt.IsZero, h0, hz]
        · by_cases hz : a.PeriodReset.Height = 0
          · simp [ExpiresAt.IsZero, h0, hz]
          · exact reached_height _ t h h0 hz hle
      rw [tryResetPeriod_of_reached a t h hc, nextReset_height _ _ t h h0 hh hp]
      refine ⟨_, rfl, ?_⟩
      have key : ∀ x : Int, 0 < x → h < x →
          (ExpiresAtHeight x).IsZero = false ∧ (ExpiresAtHeight x).IsExpired t h = false :=
        fun x hx htx => not_reached_of_height_lt (ExpiresAtHeight x) t h rfl hx htx
      have hx : 0 < (if h < a.PeriodReset.Height + a.Period.Block
          then a.PeriodReset.Height + a.Period.Block else h + a.Period.Block) ∧
          h < (if h < a.PeriodReset.Height + a.Period.Block
          then a.PeriodReset.Height + a.Period.Block else h + a.Period.Block) := by
        split_ifs <;> constructor <;> omega
      have hk := key _ hx.1 hx.2
      have hsplit : (if h < a.PeriodReset.Height + a.Period.Block
          then ExpiresAtHeight (a.PeriodReset.Height + a.Period.Block)
          else ExpiresAtHeight (h + a.Period.Block)) =
          ExpiresAtHeight (if h < a.PeriodReset.Height + a.Period.Block
          then a.PeriodReset.Height + a.Period.Block else h + a.Period.Block) := by
        split_ifs <;> rfl
      simp only [Option.map_some', hsplit]
      refine ⟨hk.1, hk.2, ⟨fun hz => absurd h0 (by omega), fun _ => hx.2⟩, ?_⟩
      exact tryResetPeriod_of_not_reached _ t h hk.1 hk.2
    · simp only [not_or, not_le] at hr
      have hk := not_reached_of_height_lt a.PeriodReset t h h0 (by omega) hr.2
      exact ⟨a, tryResetPeriod_of_not_reached a t h hk.1 hk.2, hk.1, hk.2,
        ⟨fun hz => absurd h0 (by omega), fun _ => hr.2⟩,
        tryResetPeriod_of_not_reached a t h hk.1 hk.2⟩

/-- Witness of `tryResetPeriod_idempotent`: reset height 10 with period 4 called at height 23,
a gap of more than three periods. -/
theorem tryResetPeriod_idempotent_witness :
    ((0 < (blockAllowance 10 5 2 4 10).PeriodReset.Time ∧
        (blockAllowance 10 5 2 4 10).PeriodReset.Height = 0 ∧
        0 < (blockAllowance 10 5 2 4 10).Period.Clock) ∨
      ((blockAllowance 10 5 2 4 10).PeriodReset.Time = 0 ∧
        0 ≤ (blockAllowance 10 5 2 4 10).PeriodReset.Height ∧
        0 < (blockAllowance 10 5 2 4 10).Period.Block)) ∧
    (blockAllowance 10 5 2 4 10).TryResetPeriod 0 23 = some (blockAllowance 10 5 5 4 27) ∧
    ∃ a1, (blockAllowance 10 5 2 4 10).TryResetPeriod 0 23 = some a1 ∧
      a1.PeriodReset.IsZero = false ∧
      a1.PeriodReset.IsExpired 0 23 = false ∧
      ((0 < (blockAllowance 10 5 2 4 10).PeriodReset.Time → 0 < a1.PeriodReset.Time) ∧
        ((blockAllowance 10 5 2 4 10).PeriodReset.Time = 0 → 23 < a1.PeriodReset.Height)) ∧
      a1.TryResetPeriod 0 23 = some a1 :=
  ⟨Or.inr ⟨rfl, by decide, by decide⟩, by decide,
   tryResetPeriod_idempotent (blockAllowance 10 5 2 4 10) 0 23
     (Or.inr ⟨rfl, by decide, by decide⟩)⟩

/-! ## Histories -/

/-- What a call of `Accept` that returns leaves in `Basic.SpendLimit`: on an error the old
limit or the old limit minus the fee, on a nil error the old limit minus the fee, which then is
not negative. -/
theorem accept_spendLimit_amount (a : PeriodicFeeAllowance D) (fee : Coins D) (t h : Int)
    (res : AcceptResult D) (hacc : a.Accept fee t h = some res) (d : D) :
    (res.err = none →
      AmountOf res.allowance.Basic.SpendLimit d = AmountOf a.Basic.SpendLimit d - AmountOf fee d ∧
      0 ≤ AmountOf res.allowance.Basic.SpendLimit d) ∧
    (res.err ≠ none →
      AmountOf res.allowance.Basic.SpendLimit d = AmountOf a.Basic.SpendLimit d ∨
      AmountOf res.allowance.Basic.SpendLimit d =
        AmountOf a.Basic.SpendLimit d - AmountOf fee d) := by
  cases he : a.Basic.Expiration.IsExpired t h with
  | true =>
    simp only [Accept, he, if_true] at hacc
    rw [← Option.some.inj hacc]
    constructor
    · intro hn; cases hn
    · intro _; exact Or.inl rfl
  | false =>
    cases hr : a.TryResetPeriod t h with
    | none => simp [Accept, he, hr] at hacc
    | some a1 =>
      obtain ⟨hb, -, -⟩ := tryResetPeriod_frame a a1 t h hr
      rw [accept_of_reset a a1 fee t h he hr] at hacc
      split_ifs at hacc with h1 h2
      · rw [← Option.some.inj hacc]
        constructor
        · intro hn; cases hn
        · intro _; exact Or.inl (by rw [← hb])
      · rw [← Option.some.inj hacc]
        constructor
        · intro hn; cases hn
        · intro _
          right
          simp only [amountOf_safeSub, hb]
      · rw [← Option.some.inj hacc]
        have n2 : IsAnyNegative (SafeSub a1.Basic.SpendLimit fee).1 = false := by
          rw [← safeSub_snd]; simpa using h2
        constructor
        · intro _
          constructor
          · simp only [amountOf_safeSub, hb]
          · exact amountOf_nonneg _ ((isAnyNegative_eq_false_iff _).mp n2) d
        · intro hn; exact absurd rfl hn

/-- The accepted amount of a history is at most the total limit the history starts with, or 0
when that limit is negative. -/
theorem acceptedAmount_le_max (d : D) (calls : List (AcceptCall D))
    (hf : ∀ c ∈ calls, ∀ x ∈ c.fee, 0 ≤ x.Amount) (a : PeriodicFeeAllowance D) :
    acceptedAmount d a calls ≤ max 0 (AmountOf a.Basic.SpendLimit d) := by
  induction calls generalizing a with
  | nil => simp [acceptedAmount]
  | cons c cs ih =>
    have hfc : 0 ≤ AmountOf c.fee d := amountOf_nonneg _ (hf c (List.mem_cons_self _ _)) d
    have hfs : ∀ c ∈ cs, ∀ x ∈ c.fee, 0 ≤ x.Amount :=
      fun c hc => hf c (List.mem_cons_of_mem _ hc)
    unfold acceptedAmount
    cases hacc : a.Accept c.fee c.blockTime c.blockHeight with
    | none => simp
    | some res =>
      have hs := accept_spendLimit_amount a c.fee c.blockTime c.blockHeight res hacc d
      simp only
      cases herr : res.err with
      | none =>
        have h1 := hs.1 herr
        have h2 := ih hfs res.allowance
        simp only
        rw [max_eq_right h1.2] at h2
        have h3 : AmountOf a.Basic.SpendLimit d ≤ max 0 (AmountOf a.Basic.SpendLimit d) :=
          le_max_right _ _
        omega
      | some e =>
        have h1 := hs.2 (by rw [herr]; exact Option.some_ne_none e)
        simp only
        cases c.keep with
        | false => exact ih hfs a
        | true =>
          have h2 := ih hfs res.allowance
          simp only [if_true]
          rcases h1 with h1 | h1
          · rw [h1] at h2; exact h2
          · rw [h1] at h2
            refine le_trans h2 (max_le_max (le_refl _) ?_)
            omega

/-- C13: the maximum cap holds over any history. For an allowance whose `Basic.SpendLimit` has no
negative amount and any history of `Accept` calls whose fees have no negative amount (failed
calls included, at any times and heights, whether or not the caller keeps what a failed call
left), the fees of the calls that returned a nil error add up, in every denomination, to at most
the initial `Basic.SpendLimit`. -/
theorem acceptedAmount_le_spendLimit (a : PeriodicFeeAllowance D) (calls : List (AcceptCall D))
    (hl : ∀ x ∈ a.Basic.SpendLimit, 0 ≤ x.Amount)
    (hf : ∀ c ∈ calls, ∀ x ∈ c.fee, 0 ≤ x.Amount) (d : D) :
    acceptedAmount d a calls ≤ AmountOf a.Basic.SpendLimit d := by
  have h := acceptedAmount_le_max d calls hf a
  rwa [max_eq_right (amountOf_nonneg _ hl d)] at h

/-- Witness of `acceptedAmount_le_spendLimit`: limit 10, period limit 5 per 10 blocks; fees 4
(taken), 4 (over the period limit), 5 (taken after the reset at height 80), 3 (over the total
limit); 9 is accepted in all. -/
theorem acceptedAmount_le_spendLimit_witness :
    ((∀ x ∈ (blockAllowance 10 5 5 10 70).Basic.SpendLimit, 0 ≤ x.Amount) ∧
      (∀ c ∈ ([⟨[⟨0, 4⟩], 0, 75, true⟩, ⟨[⟨0, 4⟩], 0, 76, false⟩, ⟨[⟨0, 5⟩], 0, 81, true⟩,
          ⟨[⟨0, 3⟩], 0, 82, true⟩] : List (AcceptCall Nat)), ∀ x ∈ c.fee, 0 ≤ x.Amount)) ∧
    acceptedAmount 0 (blockAllowance 10 5 5 10 70)
        [⟨[⟨0, 4⟩], 0, 75, true⟩, ⟨[⟨0, 4⟩], 0, 76, false⟩, ⟨[⟨0, 5⟩], 0, 81, true⟩,
          ⟨[⟨0, 3⟩], 0, 82, true⟩] = 9 ∧
    acceptedAmount 0 (blockAllowance 10 5 5 10 70)
        [⟨[⟨0, 4⟩], 0, 75, true⟩, ⟨[⟨0, 4⟩], 0, 76, false⟩, ⟨[⟨0, 5⟩], 0, 81, true⟩,
          ⟨[⟨0, 3⟩], 0, 82, true⟩]
      ≤ AmountOf (blockAllowance 10 5 5 10 70).Basic.SpendLimit 0 :=
  ⟨⟨by decide, by decide⟩, by decide,
   acceptedAmount_le_spendLimit (blockAllowance 10 5 5 10 70) _ (by decide) (by decide) 0⟩

/-- C14 (the code at the failing input): with total limit 10 of denomination 0 and 1 of
denomination 1 and period limit 5 of each, two calls with a fee of 4 of denomination 0, at
heights 75 and 76, both return a nil error; no reset lies between them (the reset point is
height 80 after both), and 8 of denomination 0 is accepted in that period, above the period
limit of 5. -/
theorem accept_mixed_denoms_exceeds_period_limit :
    (Accept (
        { Basic := { SpendLimit := [⟨0, 10⟩, ⟨1, 1⟩], Expiration := ExpiresAtHeight 100 },
          Period := ⟨0, 10⟩, PeriodSpendLimit := [⟨0, 5⟩, ⟨1, 5⟩], PeriodCanSpend := [],
          PeriodReset := ExpiresAtHeight 70 } : PeriodicFeeAllowance Nat) [⟨0, 4⟩] 0 75
      = some
        { allowance :=
            { Basic := { SpendLimit := [⟨0, 6⟩, ⟨1, 1⟩], Expiration := ExpiresAtHeight 100 },
              Period := ⟨0, 10⟩, PeriodSpendLimit := [⟨0, 5⟩, ⟨1, 5⟩],
              PeriodCanSpend := [⟨0, 6⟩, ⟨1, 1⟩], PeriodReset := ExpiresAtHeight 80 },
          remove := false, err := none }) ∧
    (Accept (
        { Basic := { SpendLimit := [⟨0, 6⟩, ⟨1, 1⟩], Expiration := ExpiresAtHeight 100 },
          Period := ⟨0, 10⟩, PeriodSpendLimit := [⟨0, 5⟩, ⟨1, 5⟩],
          PeriodCanSpend := [⟨0, 6⟩, ⟨1, 1⟩],
          PeriodReset := ExpiresAtHeight 80 } : PeriodicFeeAllowance Nat) [⟨0, 4⟩] 0 76
      = some
        { allowance :=
            { Basic := { SpendLimit := [⟨0, 2⟩, ⟨1, 1⟩], Expiration := ExpiresAtHeight 100 },
              Period := ⟨0, 10⟩, PeriodSpendLimit := [⟨0, 5⟩, ⟨1, 5⟩],
              PeriodCanSpend := [⟨0, 2⟩, ⟨1, 1⟩], PeriodReset := ExpiresAtHeight 80 },
          remove := false, err := none }) ∧
    AmountOf ([⟨0, 5⟩, ⟨1, 5⟩] : Coins Nat) 0
      < AmountOf ([⟨0, 4⟩] : Coins Nat) 0 + AmountOf ([⟨0, 4⟩] : Coins Nat) 0 := by
  refine ⟨by decide, by decide, by decide⟩

/-! ## `ValidateBasic` and `PrepareForExport` -/

/-- C15: `ValidateBasic` returns nil exactly when `Basic.ValidateBasic` returns nil,
`PeriodSpendLimit` is valid and all positive, `PeriodCanSpend` is valid and has no negative
amount, and `Period.ValidateBasic` and `PeriodReset.ValidateBasic` return nil; otherwise it
returns the error of the first of these checks, in this order, that fails. -/
theorem validateBasic_nil_iff {E : Type} (c : BasicChecks D E) (a : PeriodicFeeAllowance D) :
    (a.ValidateBasic c = none ↔
      c.basicValidateBasic a.Basic = none ∧
      c.IsValid a.PeriodSpendLimit = true ∧
      c.IsAllPositive a.PeriodSpendLimit = true ∧
      c.IsValid a.PeriodCanSpend = true ∧
      IsAnyNegative a.PeriodCanSpend = false ∧
      c.durationValidateBasic a.Period = none ∧
      c.expiresAtValidateBasic a.PeriodReset = none) ∧
    (∀ e, c.basicValidateBasic a.Basic = some e → a.ValidateBasic c = some e) ∧
    (c.basicValidateBasic a.Basic = none → c.IsValid a.PeriodSpendLimit = false →
      a.ValidateBasic c = some (c.ErrInvalidCoins
        ("spend amount is invalid: " ++ c.coinsString a.PeriodSpendLimit))) ∧
    (c.basicValidateBasic a.Basic = none → c.IsValid a.PeriodSpendLimit = true →
      c.IsAllPositive a.PeriodSpendLimit = false →
      a.ValidateBasic c = some (c.ErrInvalidCoins ("spend limit must be positive"))) ∧
    (c.basicValidateBasic a.Basic = none → c.IsValid a.PeriodSpendLimit = true →
      c.IsAllPositive a.PeriodSpendLimit = true → c.IsValid a.PeriodCanSpend = false →
      a.ValidateBasic c = some (c.ErrInvalidCoins
        ("can spend amount is invalid: " ++ c.coinsString a.PeriodCanSpend))) ∧
    (c.basicValidateBasic a.Basic = none → c.IsValid a.PeriodSpendLimit = true →
      c.IsAllPositive a.PeriodSpendLimit = true → c.IsValid a.PeriodCanSpend = true →
      IsAnyNegative a.PeriodCanSpend = true →
      a.ValidateBasic c = some (c.ErrInvalidCoins ("can spend must not be negative"))) ∧
    (∀ e, c.basicValidateBasic a.Basic = none → c.IsValid a.PeriodSpendLimit = true →
      c.IsAllPositive a.PeriodSpendLimit = true → c.IsValid a.PeriodCanSpend = true →
      IsAnyNegative a.PeriodCanSpend = false → c.durationValidateBasic a.Period = some e →
      a.ValidateBasic c = some e) ∧
    (c.basicValidateBasic a.Basic = none → c.IsValid a.PeriodSpendLimit = true →
      c.IsAllPositive a.PeriodSpendLimit = true → c.IsValid a.PeriodCanSpend = true →
      IsAnyNegative a.PeriodCanSpend = false → c.durationValidateBasic a.Period = none →
      a.ValidateBasic c = c.expiresAtValidateBasic a.PeriodReset) := by
  unfold ValidateBasic
  cases h1 : c.basicValidateBasic a.Basic with
  | some e1 => simp
  | none =>
    cases h2 : c.IsValid a.PeriodSpendLimit with
    | false => simp
    | true =>
      cases h3 : c.IsAllPositive a.PeriodSpendLimit with
      | false => simp
      | true =>
        cases h4 : c.IsValid a.PeriodCanSpend with
        | false => simp
        | true =>
          cases h5 : IsAnyNegative a.PeriodCanSpend with
          | true => simp
          | false =>
            cases h6 : c.durationValidateBasic a.Period with
            | some e6 => simp
            | none => simp

/-- Witness of `validateBasic_nil_iff`: under the sample checks an allowance with limit 10,
period limit 5, period allowance 5 and a period of 10 blocks passes every check, and the same
allowance with a period of 0 blocks gets the error of the period check. -/
theorem validateBasic_nil_iff_witness :
    (sampleChecks.basicValidateBasic (blockAllowance 10 5 5 10 70).Basic = none ∧
      sampleChecks.IsValid (blockAllowance 10 5 5 10 70).PeriodSpendLimit = true ∧
      sampleChecks.IsAllPositive (blockAllowance 10 5 5 10 70).PeriodSpendLimit = true ∧
      sampleChecks.IsValid (blockAllowance 10 5 5 10 70).PeriodCanSpend = true ∧
      IsAnyNegative (blockAllowance 10 5 5 10 70).PeriodCanSpend = false ∧
      sampleChecks.durationValidateBasic (blockAllowance 10 5 5 10 70).Period = none ∧
      sampleChecks.expiresAtValidateBasic (blockAllowance 10 5 5 10 70).PeriodReset = none) ∧
    (blockAllowance 10 5 5 10 70).ValidateBasic sampleChecks = none ∧
    (blockAllowance 10 5 5 0 70).ValidateBasic sampleChecks = some 2 :=
  ⟨⟨by decide, by decide, by decide, by decide, by decide, by decide, by decide⟩,
   (validateBasic_nil_iff sampleChecks (blockAllowance 10 5 5 10 70)).1.mpr
      ⟨by decide, by decide, by decide, by decide, by decide, by decide, by decide⟩,
   (validateBasic_nil_iff sampleChecks (blockAllowance 10 5 5 0 70)).2.2.2.2.2.2.1 2
      (by decide) (by decide) (by decide) (by decide) (by decide) (by decide)⟩

/-- C16: `PrepareForExport` returns an allowance whose `Basic.SpendLimit`, `PeriodSpendLimit`,
`PeriodCanSpend` and `Period` are the receiver's, whose `Basic.Expiration` and `PeriodReset` are
the receiver's passed through `ExpiresAt.PrepareForExport` with the dump time and height, and it
leaves the receiver as it is. -/
theorem prepareForExport_fields (prepare : ExpiresAt → Int → Int → ExpiresAt)
    (a : PeriodicFeeAllowance D) (dumpTime dumpHeight : Int) :
    (a.PrepareForExport prepare dumpTime dumpHeight).1 = a ∧
    (a.PrepareForExport prepare dumpTime dumpHeight).2.Basic.SpendLimit = a.Basic.SpendLimit ∧
    (a.PrepareForExport prepare dumpTime dumpHeight).2.PeriodSpendLimit = a.PeriodSpendLimit ∧
    (a.PrepareForExport prepare dumpTime dumpHeight).2.PeriodCanSpend = a.PeriodCanSpend ∧
    (a.PrepareForExport prepare dumpTime dumpHeight).2.Period = a.Period ∧
    (a.PrepareForExport prepare dumpTime dumpHeight).2.Basic.Expiration
      = prepare a.Basic.Expiration dumpTime dumpHeight ∧
    (a.PrepareForExport prepare dumpTime dumpHeight).2.PeriodReset
      = prepare a.PeriodReset dumpTime dumpHeight :=
  ⟨rfl, rfl, rfl, rfl, rfl, rfl, rfl⟩

end FeeGrant

namespace Evidence

/-! ## Machine integers and varint sizes -/

theorem uint64_lt (x : Int) : uint64 x < 2 ^ 64 := by
  unfold uint64
  have h1 : 0 ≤ x % 2 ^ 64 := Int.emod_nonneg _ (by norm_num)
  have h2 : x % 2 ^ 64 < 2 ^ 64 := Int.emod_lt_of_pos _ (by norm_num)
  omega

theorem uint64_natCast (n : Nat) (h : n < 2 ^ 64) : uint64 (n : Int) = n := by
  unfold uint64
  have : ((n : Int) % 2 ^ 64) = n := Int.emod_eq_of_lt (by omega) (by exact_mod_cast h)
  rw [this]; simp

theorem int64_uint64 (x : Int) (h1 : -2 ^ 63 ≤ x) (h2 : x < 2 ^ 63) : int64 (uint64 x) = x := by
  unfold int64 uint64
  have h3 : 0 ≤ x % 2 ^ 64 := Int.emod_nonneg _ (by norm_num)
  have h4 : x % 2 ^ 64 < 2 ^ 64 := Int.emod_lt_of_pos _ (by norm_num)
  have h5 : ((x % 2 ^ 64).toNat : Int) = x % 2 ^ 64 := Int.toNat_of_nonneg h3
  have h6 : (x % 2 ^ 64).toNat % 2 ^ 64 = (x % 2 ^ 64).toNat := Nat.mod_eq_of_lt (by omega)
  rw [h6]
  split_ifs with hc <;> omega

theorem int64_of_lt (n : Nat) (h : n < 2 ^ 63) : int64 n = n := by
  unfold int64
  have : n % 2 ^ 64 = n := Nat.mod_eq_of_lt (by omega)
  rw [this, if_pos h]

theorem or_one_div_two (y : Nat) : (y ||| 1) / 2 = y / 2 := by
  rw [Nat.or_div_two]; simp

theorem or_one_mod_two (y : Nat) : (y ||| 1) % 2 = 1 :=
  Nat.or_mod_two_eq_one.mpr (Or.inr rfl)

theorem or_one_ne_zero (y : Nat) : y ||| 1 ≠ 0 := by
  have := or_one_mod_two y
  omega

theorem lenLoop_or_one (f y : Nat) (hy : y ≠ 0) : lenLoop (f + 1) (y ||| 1) = lenLoop (f + 1) y := by
  simp only [lenLoop, or_one_ne_zero, hy, if_false, or_one_div_two]

theorem lenLoop_le (f x : Nat) : lenLoop f x ≤ f := by
  induction f generalizing x with
  | zero => simp [lenLoop]
  | succ f ih =>
    simp only [lenLoop]
    split_ifs
    · omega
    · have := ih (x / 2); omega

theorem lenLoop_le_of_lt (f k x : Nat) (h : x < 2 ^ k) : lenLoop f x ≤ k := by
  induction f generalizing x k with
  | zero => simp [lenLoop]
  | succ f ih =>
    simp only [lenLoop]
    split_ifs with h0
    · omega
    · cases k with
      | zero => simp at h; exact absurd h h0
      | succ k =>
        have : x / 2 < 2 ^ k := by
          rw [pow_succ] at h; omega
        have := ih k (x / 2) this
        omega

theorem lenLoop_fuel (f g x : Nat) (hf : x < 2 ^ f) (hg : x < 2 ^ g) :
    lenLoop f x = lenLoop g x := by
  induction f generalizing x g with
  | zero =>
    have hx : x = 0 := by simpa using hf
    subst hx
    cases g <;> simp [lenLoop]
  | succ f ih =>
    cases g with
    | zero =>
      have hx : x = 0 := by simpa using hg
      subst hx
      simp [lenLoop]
    | succ g =>
      simp only [lenLoop]
      split_ifs with h0
      · rfl
      · have h1 : x / 2 < 2 ^ f := by rw [pow_succ] at hf; omega
        have h2 : x / 2 < 2 ^ g := by rw [pow_succ] at hg; omega
        rw [ih g (x / 2) h1 h2]

theorem lenLoop_add_seven (f x : Nat) (hx : 64 ≤ x) :
    lenLoop (f + 7) x = 7 + lenLoop f (x / 128) := by
  have e : x / 2 / 2 / 2 / 2 / 2 / 2 / 2 = x / 128 := by omega
  have h1 : x ≠ 0 := by omega
  have h2 : x / 2 ≠ 0 := by omega
  have h3 : x / 2 / 2 ≠ 0 := by omega
  have h4 : x / 2 / 2 / 2 ≠ 0 := by omega
  have h5 : x / 2 / 2 / 2 / 2 ≠ 0 := by omega
  have h6 : x / 2 / 2 / 2 / 2 / 2 ≠ 0 := by omega
  have h7 : x / 2 / 2 / 2 / 2 / 2 / 2 ≠ 0 := by omega
  simp only [lenLoop, h1, h2, h3, h4, h5, h6, h7, if_false, e]
  omega

theorem or_one_div_128 (v : Nat) : (v ||| 1) / 128 = v / 128 := by
  have h := or_one_div_two v
  omega

theorem or_one_lt (v k : Nat) (h : v < 2 ^ (k + 1)) : v ||| 1 < 2 ^ (k + 1) :=
  Nat.or_lt_two_pow h (Nat.one_lt_two_pow (by omega))

theorem le_or_one (v : Nat) : v ≤ v ||| 1 := by
  have h1 := or_one_div_two v
  have h2 := or_one_mod_two v
  omega

/-- The number of bytes of a varint is what `sovTypes` computes. -/
theorem varintBytes_length (f v : Nat) (hv : v < 2 ^ (7 * (f + 1))) :
    (varintBytes f v).length = (lenLoop (7 * (f + 1)) (v ||| 1) + 6) / 7 := by
  induction f generalizing v with
  | zero =>
    have h1 : lenLoop 7 (v ||| 1) ≤ 7 := lenLoop_le _ _
    have h2 : 1 ≤ lenLoop 7 (v ||| 1) := by
      simp only [lenLoop, or_one_ne_zero, if_false]; omega
    simp only [varintBytes, List.length_singleton]
    show 1 = (lenLoop 7 (v ||| 1) + 6) / 7
    omega
  | succ f ih =>
    unfold varintBytes
    split_ifs with h128
    · have hv7 : v >>> 7 < 2 ^ (7 * (f + 1)) := by
        rw [Nat.shiftRight_eq_div_pow]
        have : 2 ^ (7 * (f + 1 + 1)) = 2 ^ (7 * (f + 1)) * 2 ^ 7 := by
          rw [← pow_add]; ring_nf
        rw [this] at hv
        exact Nat.div_lt_of_lt_mul (by rw [mul_comm]; exact hv)
      rw [List.length_cons, ih _ hv7]
      have e1 : 7 * (f + 1 + 1) = 7 * (f + 1) + 7 := by ring
      have hne : v >>> 7 ≠ 0 := by
        rw [Nat.shiftRight_eq_div_pow]
        have : 1 ≤ v / 2 ^ 7 := by
          rw [Nat.le_div_iff_mul_le (by norm_num)]; omega
        omega
      have e2 : lenLoop (7 * (f + 1)) (v >>> 7 ||| 1) = lenLoop (7 * (f + 1)) (v >>> 7) := by
        have : 7 * (f + 1) = (7 * f + 6) + 1 := by ring
        rw [this]
        exact lenLoop_or_one _ _ hne
      rw [e1, lenLoop_add_seven _ _ (le_trans (by omega) (le_or_one v)), or_one_div_128, e2,
        Nat.shiftRight_eq_div_pow]
      norm_num
      omega
    · have hlt : v ||| 1 < 2 ^ 7 := or_one_lt v 6 (by omega)
      have h1 : lenLoop (7 * (f + 1 + 1)) (v ||| 1) ≤ 7 := lenLoop_le_of_lt _ _ _ hlt
      have h2 : 1 ≤ lenLoop (7 * (f + 1 + 1)) (v ||| 1) := by
        have : 7 * (f + 1 + 1) = (7 * f + 13) + 1 := by ring
        rw [this]
        simp only [lenLoop, or_one_ne_zero, if_false]; omega
      simp only [List.length_singleton]
      omega

theorem varint_length (v : Nat) (hv : v < 2 ^ 64) : (varint v).length = sovTypes v := by
  unfold varint sovTypes Len64
  rw [varintBytes_length 9 v (lt_of_lt_of_le hv (by norm_num))]
  have h1 : v ||| 1 < 2 ^ 64 := or_one_lt v 63 hv
  rw [lenLoop_fuel (7 * (9 + 1)) 64 (v ||| 1) (lt_of_lt_of_le h1 (by norm_num)) h1]

theorem varint_length_pos (v : Nat) : 1 ≤ (varint v).length := by
  unfold varint varintBytes
  split_ifs <;> simp

/-! ## Reading back a varint -/

theorem and_7f (v : Nat) : v &&& 0x7f = v % 128 := Nat.and_pow_two_sub_one_eq_mod v 7

theorem or_80 (r : Nat) (h : r < 128) : r ||| 0x80 = r + 128 := by
  have := Nat.mul_add_lt_is_or (i := 7) (b := r) (by simpa using h) 1
  rw [Nat.or_comm]
  simp only [Nat.reducePow, Nat.mul_one] at this
  omega

theorem continuation_byte (v : Nat) : (v &&& 0x7f ||| 0x80) % 256 = v % 128 + 128 := by
  rw [and_7f, or_80 _ (Nat.mod_lt _ (by norm_num))]
  omega

theorem or_shift (acc r shift : Nat) (ha : acc < 2 ^ shift) (hr : acc + r * 2 ^ shift < 2 ^ 64) :
    acc ||| ((r <<< shift) % 2 ^ 64) = acc + r * 2 ^ shift := by
  rw [Nat.shiftLeft_eq, Nat.mod_eq_of_lt (by omega), Nat.or_comm, Nat.mul_comm,
    ← Nat.mul_add_lt_is_or ha]
  omega

theorem decodeVarint_last {E : Type} (v shift acc : Nat) (rest : List Byte) (hv : v < 128)
    (ha : acc < 2 ^ shift) (hsum : acc + v * 2 ^ shift < 2 ^ 64) (hs : shift ≤ 63) :
    decodeVarint (E := E) shift acc (v :: rest) = .ok (acc + v * 2 ^ shift, rest) := by
  have h2 : v &&& 0x7F = v := by rw [and_7f]; exact Nat.mod_eq_of_lt hv
  have h3 : ¬ 64 ≤ shift := by omega
  have h4 : v < 0x80 := hv
  simp only [decodeVarint, h3, if_false, h2, or_shift acc v shift ha hsum, h4, if_true]

theorem decodeVarint_more {E : Type} (r shift acc : Nat) (rest : List Byte) (hr : r < 128)
    (ha : acc < 2 ^ shift) (hsum : acc + r * 2 ^ shift < 2 ^ 64) (hs : shift ≤ 63) :
    decodeVarint (E := E) shift acc ((r + 128) :: rest) =
      decodeVarint (shift + 7) (acc + r * 2 ^ shift) rest := by
  have h2 : (r + 128) &&& 0x7F = r := by rw [and_7f]; omega
  have h3 : ¬ 64 ≤ shift := by omega
  have h4 : ¬ r + 128 < 0x80 := by omega
  simp only [decodeVarint, h3, if_false, h2, or_shift acc r shift ha hsum, h4]

/-- The varint loop reads back what `encodeVarintTypes` writes. -/
theorem decodeVarint_varintBytes {E : Type} (f v shift acc : Nat) (rest : List Byte)
    (ha : acc < 2 ^ shift) (hsum : acc + v * 2 ^ shift < 2 ^ 64) (hs : shift + 7 * f ≤ 63)
    (hv : v < 2 ^ (7 * (f + 1))) :
    decodeVarint (E := E) shift acc (varintBytes f v ++ rest) = .ok (acc + v * 2 ^ shift, rest) := by
  induction f generalizing v shift acc with
  | zero =>
    have hv' : v < 128 := by simpa using hv
    have h1 : v % 256 = v := Nat.mod_eq_of_lt (by omega)
    simp only [varintBytes, h1, List.singleton_append]
    exact decodeVarint_last v shift acc rest hv' ha hsum (by omega)
  | succ f ih =>
    unfold varintBytes
    split_ifs with h128
    · rw [continuation_byte, List.cons_append]
      have hdecomp : v * 2 ^ shift = (v % 128) * 2 ^ shift + (v / 128) * (128 * 2 ^ shift) := by
        have hv0 : v = v % 128 + 128 * (v / 128) := (Nat.mod_add_div v 128).symm
        calc v * 2 ^ shift = (v % 128 + 128 * (v / 128)) * 2 ^ shift := by rw [← hv0]
          _ = _ := by ring
      have hsum1 : acc + (v % 128) * 2 ^ shift < 2 ^ 64 := by
        have h0 : 0 ≤ (v / 128) * (128 * 2 ^ shift) := Nat.zero_le _
        omega
      have hpow : 2 ^ (shift + 7) = 128 * 2 ^ shift := by rw [pow_add]; norm_num; ring
      have ha1 : acc + (v % 128) * 2 ^ shift < 2 ^ (shift + 7) := by
        rw [hpow]
        have h0 : v % 128 ≤ 127 := by omega
        have h1 : (v % 128) * 2 ^ shift ≤ 127 * 2 ^ shift := Nat.mul_le_mul_right _ h0
        omega
      have hv7 : v >>> 7 < 2 ^ (7 * (f + 1)) := by
        rw [Nat.shiftRight_eq_div_pow]
        have h0 : 2 ^ (7 * (f + 1 + 1)) = 2 ^ (7 * (f + 1)) * 2 ^ 7 := by
          rw [← pow_add]; ring_nf
        rw [h0] at hv
        exact Nat.div_lt_of_lt_mul (by rw [mul_comm]; exact hv)
      have hshr : v >>> 7 = v / 128 := by rw [Nat.shiftRight_eq_div_pow]
      have hsum2 : acc + v % 128 * 2 ^ shift + (v >>> 7) * 2 ^ (shift + 7) < 2 ^ 64 := by
        rw [hshr, hpow]; omega
      rw [decodeVarint_more (v % 128) shift acc _ (Nat.mod_lt _ (by norm_num)) ha hsum1
          (by omega),
        ih (v >>> 7) (shift + 7) _ ha1 hsum2 (by omega) hv7, hshr, hpow]
      congr 2
      omega
    · have hv' : v < 128 := by omega
      have h1 : v % 256 = v := Nat.mod_eq_of_lt (by omega)
      simp only [h1, List.singleton_append]
      exact decodeVarint_last v shift acc rest hv' ha hsum (by omega)

theorem decodeVarint_varint {E : Type} (v : Nat) (rest : List Byte) (hv : v < 2 ^ 64) :
    decodeVarint (E := E) 0 0 (varint v ++ rest) = .ok (v, rest) := by
  have := decodeVarint_varintBytes (E := E) 9 v 0 0 rest (by norm_num) (by simpa using hv)
    (by norm_num) (lt_of_lt_of_le hv (by norm_num))
  simpa [varint] using this

/-! ## Writing into a buffer -/

theorem setByte_append (pre post : List Byte) (z b : Byte) :
    setByte (pre ++ z :: post) pre.length b = some (pre ++ b :: post) := by
  unfold setByte
  rw [if_pos (by simp)]
  congr 1
  induction pre with
  | nil => rfl
  | cons p pre ih => simp only [List.cons_append, List.length_cons, List.set_cons_succ, ih]

theorem copyAt_append (pre zs post bs : List Byte) {buf : List Byte} {i : Nat}
    (h : zs.length = bs.length) (hbuf : buf = pre ++ zs ++ post) (hi : i = pre.length) :
    copyAt buf i bs = some (pre ++ bs ++ post) := by
  subst hbuf hi
  unfold copyAt
  rw [if_pos (by simp)]
  congr 1
  have h1 : List.take pre.length (pre ++ zs ++ post) = pre := by
    rw [List.append_assoc]
    exact List.take_left' rfl
  have h2 : List.take ((pre ++ zs ++ post).length - pre.length) bs = bs := by
    apply List.take_of_length_le
    simp only [List.length_append]
    omega
  have h3 : List.drop (pre.length + bs.length) (pre ++ zs ++ post) = post := by
    have : pre.length + bs.length = (pre ++ zs).length := by
      rw [List.length_append, h]
    exact List.drop_left' this.symm
  rw [h1, h2, h3]

theorem encodeVarintLoop_append (f : Nat) (pre zs post : List Byte) (v : Nat)
    (h : zs.length = (varintBytes f v).length) :
    encodeVarintLoop f (pre ++ zs ++ post) pre.length v
      = some (pre ++ varintBytes f v ++ post) := by
  induction f generalizing pre zs v with
  | zero =>
    simp only [varintBytes, List.length_singleton] at h
    obtain ⟨z, rfl⟩ := List.length_eq_one.mp h
    simp only [encodeVarintLoop, varintBytes, List.append_assoc, List.singleton_append]
    exact setByte_append pre post z _
  | succ f ih =>
    unfold varintBytes at h ⊢
    unfold encodeVarintLoop
    split_ifs at h ⊢ with h128
    · rw [List.length_cons] at h
      obtain ⟨z, zs', rfl⟩ := List.exists_cons_of_length_eq_add_one h
      simp only [List.length_cons, Nat.add_right_cancel_iff] at h
      rw [List.append_assoc, List.cons_append, setByte_append]
      simp only
      have e1 : pre ++ ((v &&& 0x7f ||| 0x80) % 256) :: (zs' ++ post)
          = (pre ++ [(v &&& 0x7f ||| 0x80) % 256]) ++ zs' ++ post := by simp
      have e2 : pre.length + 1 = (pre ++ [(v &&& 0x7f ||| 0x80) % 256]).length := by simp
      rw [e1, e2, ih _ zs' _ h]
      simp
    · simp only [List.length_singleton] at h
      obtain ⟨z, rfl⟩ := List.length_eq_one.mp h
      simp only [List.append_assoc, List.singleton_append]
      exact setByte_append pre post z _

theorem encodeVarintTypes_append (pre zs post : List Byte) (v : Nat) {buf : List Byte}
    {i : Nat} (hv : v < 2 ^ 64) (h : zs.length = sovTypes v) (hbuf : buf = pre ++ zs ++ post)
    (hi : i = pre.length + zs.length) :
    encodeVarintTypes buf i v = some (pre ++ varint v ++ post, pre.length) := by
  subst hbuf hi
  unfold encodeVarintTypes subIndex
  rw [if_pos (by omega)]
  have e : pre.length + zs.length - sovTypes v = pre.length := by omega
  simp only [Option.bind_eq_bind, Option.some_bind, e]
  rw [encodeVarintLoop_append 9 pre zs post v (by rw [h, ← varint_length v hv]; rfl)]
  rfl

theorem putTag_append (pre post : List Byte) (z tag : Byte) {buf : List Byte} (i : Nat)
    (hbuf : buf = pre ++ z :: post) (hi : i = pre.length + 1) :
    putTag buf i tag = some (pre ++ tag :: post, pre.length) := by
  subst hbuf hi
  unfold putTag subIndex
  rw [if_pos (by omega)]
  simp only [Option.bind_eq_bind, Option.some_bind, Nat.add_sub_cancel]
  rw [setByte_append]
  rfl

theorem putVarint_append (buf pre zs post : List Byte) (v i : Nat) (tag : Byte)
    (hv : v < 2 ^ 64) (hz : zs.length = (varintField tag v).length)
    (hbuf : buf = pre ++ zs ++ post) (hi : i = pre.length + zs.length) :
    putVarint buf i v tag = some (pre ++ varintField tag v ++ post, pre.length) := by
  subst hbuf hi
  have hl : (varintField tag v).length = sovTypes v + 1 := by
    simp only [varintField, List.length_cons, varint_length v hv]
  rw [hl] at hz
  obtain ⟨z, zs', rfl⟩ := List.exists_cons_of_length_eq_add_one hz
  simp only [List.length_cons, Nat.add_right_cancel_iff] at hz
  unfold putVarint
  rw [encodeVarintTypes_append (pre ++ [z]) zs' post v hv hz
    (by simp)
    (by simp only [List.length_append, List.length_cons, List.length_nil]; omega)]
  simp only [Option.bind_eq_bind, Option.some_bind]
  rw [putTag_append pre (varint v ++ post) z tag _
    (by simp)
    (by simp only [List.length_append, List.length_cons, List.length_nil])]
  simp only [varintField, List.cons_append, List.append_assoc]

theorem putBytes_append (buf pre zs post bs : List Byte) (i : Nat) (tag : Byte)
    (hz : zs.length = (bytesField tag bs).length)
    (hbuf : buf = pre ++ zs ++ post) (hi : i = pre.length + zs.length) :
    putBytes buf i bs tag = some (pre ++ bytesField tag bs ++ post, pre.length) := by
  subst hbuf hi
  have hv := uint64_lt (bs.length : Int)
  have hl : (bytesField tag bs).length = (sovTypes (uint64 bs.length) + bs.length) + 1 := by
    simp only [bytesField, List.length_cons, List.length_append, varint_length _ hv]
  rw [hl] at hz
  obtain ⟨z, zs', rfl⟩ := List.exists_cons_of_length_eq_add_one hz
  simp only [List.length_cons, Nat.add_right_cancel_iff] at hz
  have hsplit : zs' = zs'.take (sovTypes (uint64 bs.length))
      ++ zs'.drop (sovTypes (uint64 bs.length)) := (List.take_append_drop _ _).symm
  generalize hz1 : zs'.take (sovTypes (uint64 bs.length)) = z1 at hsplit
  generalize hz2 : zs'.drop (sovTypes (uint64 bs.length)) = z2 at hsplit
  have hl1 : z1.length = sovTypes (uint64 bs.length) := by
    rw [← hz1, List.length_take]; omega
  have hl2 : z2.length = bs.length := by
    rw [← hz2, List.length_drop]; omega
  subst hsplit
  unfold putBytes subIndex
  rw [if_pos (by simp only [List.length_cons, List.length_append]; omega)]
  simp only [Option.bind_eq_bind, Option.some_bind]
  rw [copyAt_append (pre ++ z :: z1) z2 post bs hl2
    (by simp only [List.append_assoc, List.cons_append])
    (by simp only [List.length_append, List.length_cons]; omega)]
  simp only [Option.some_bind]
  rw [encodeVarintTypes_append (pre ++ [z]) z1 (bs ++ post) _ hv hl1
    (by simp only [List.append_assoc, List.cons_append, List.nil_append])
    (by simp only [List.length_append, List.length_cons, List.length_nil]; omega)]
  simp only [Option.some_bind]
  rw [putTag_append pre (varint (uint64 bs.length) ++ (bs ++ post)) z tag _
    (by simp only [List.append_assoc, List.cons_append, List.nil_append])
    (by simp only [List.length_append, List.length_cons, List.length_nil])]
  simp only [bytesField, List.cons_append, List.append_assoc]

/-! ## Marshal writes the wire format -/

theorem optBytes_step (buf pre zs post bs : List Byte) (i : Nat) (tag : Byte)
    (hz : zs.length = (if 0 < bs.length then bytesField tag bs else []).length)
    (hbuf : buf = pre ++ zs ++ post) (hi : i = pre.length + zs.length) :
    (if 0 < bs.length then putBytes buf i bs tag else pure (buf, i))
      = some (pre ++ (if 0 < bs.length then bytesField tag bs else []) ++ post, pre.length) := by
  split_ifs at hz ⊢ with h
  · exact putBytes_append buf pre zs post bs i tag hz hbuf hi
  · have hnil : zs = [] := List.length_eq_zero.mp hz
    subst hnil hbuf hi
    simp

theorem optVarint_step (buf pre zs post : List Byte) (x : Int) (i : Nat) (tag : Byte)
    (hz : zs.length = (if x ≠ 0 then varintField tag (uint64 x) else []).length)
    (hbuf : buf = pre ++ zs ++ post) (hi : i = pre.length + zs.length) :
    (if x ≠ 0 then putVarint buf i (uint64 x) tag else pure (buf, i))
      = some (pre ++ (if x ≠ 0 then varintField tag (uint64 x) else []) ++ post,
          pre.length) := by
  split_ifs at hz ⊢ with h
  · exact putVarint_append buf pre zs post _ i tag (uint64_lt x) hz hbuf hi
  · have hnil : zs = [] := List.length_eq_zero.mp hz
    subst hnil hbuf hi
    simp

theorem msgSize_eq (m : MsgSubmitEvidenceBase) : m.Size = m.wire.length := by
  unfold MsgSubmitEvidenceBase.Size MsgSubmitEvidenceBase.wire
  simp only [len]
  split_ifs with h
  · simp only [bytesField, List.length_cons, List.length_append,
      varint_length _ (uint64_lt _)]
    omega
  · rfl

theorem msg_marshalToSizedBuffer (m : MsgSubmitEvidenceBase) (pre : List Byte) :
    m.MarshalToSizedBuffer (pre ++ List.replicate m.wire.length 0)
      = some (pre ++ m.wire, m.wire.length) := by
  unfold MsgSubmitEvidenceBase.MarshalToSizedBuffer
  simp only [len]
  rw [optBytes_step _ pre (List.replicate m.wire.length 0) [] (m.Submitter.getD []) _ 0xa
    (by simp only [MsgSubmitEvidenceBase.wire, len, List.length_replicate])
    (by simp only [List.append_nil])
    (by simp only [List.length_append])]
  simp only [Option.bind_eq_bind, Option.some_bind, MsgSubmitEvidenceBase.wire, len,
    List.append_nil, List.length_append, Nat.add_sub_cancel_left]
  rfl

theorem msg_marshal (m : MsgSubmitEvidenceBase) : m.Marshal = some m.wire := by
  unfold MsgSubmitEvidenceBase.Marshal
  have h := msg_marshalToSizedBuffer m []
  simp only [List.nil_append] at h
  simp only [msgSize_eq, List.take_replicate, Nat.min_self, h, Option.bind_eq_bind,
    Option.some_bind, le_refl, if_true, List.take_length]
  rfl

theorem stdTimeMarshalTo_append {T E : Type} (c : StdTime T E) (t : T) (tb : List Byte)
    (buf pre zs post : List Byte) (start : Nat) (hm : c.StdTimeMarshal t = .ok tb)
    (hz : zs.length = tb.length) (hbuf : buf = pre ++ zs ++ post) (hs : start = pre.length) :
    StdTimeMarshalTo c t buf start = some (.ok (pre ++ tb ++ post, tb.length)) := by
  subst hbuf hs
  unfold StdTimeMarshalTo
  rw [if_pos (by simp), hm]
  simp only
  rw [if_pos (by simp; omega)]
  have h1 : List.take pre.length (pre ++ zs ++ post) = pre := by
    rw [List.append_assoc]
    exact List.take_left' rfl
  have h3 : List.drop (pre.length + tb.length) (pre ++ zs ++ post) = post := by
    have : pre.length + tb.length = (pre ++ zs).length := by
      rw [List.length_append, hz]
    exact List.drop_left' this.symm
  rw [h1, h3]

theorem equivocationSize_eq {T E : Type} (c : StdTime T E) (m : Equivocation T)
    (tb : List Byte) (hs : c.SizeOfStdTime m.Time = tb.length) :
    m.Size c = (m.wire tb).length := by
  unfold Equivocation.Size Equivocation.wire
  simp only [len, hs]
  have e1 := varint_length _ (uint64_lt m.Height)
  have e2 := varint_length _ (uint64_lt m.Power)
  have e3 := varint_length _ (uint64_lt ((m.ConsensusAddress.getD []).length : Int))
  have e4 := varint_length _ (uint64_lt (tb.length : Int))
  split_ifs <;>
    simp only [bytesField, varintField, List.length_cons, List.length_append, List.length_nil,
      e1, e2, e3, e4] <;> omega

theorem subIndex_append (a b : List Byte) (k : Nat) (h : b.length = k) :
    subIndex (a ++ b).length k = some a.length := by
  unfold subIndex
  rw [List.length_append, if_pos (by omega)]
  congr 1
  omega

/-- `MarshalToSizedBuffer` on a buffer that ends in as many bytes as the wire format has
writes the wire format into those bytes. -/
theorem equivocation_marshalToSizedBuffer {T E : Type} (c : StdTime T E) (m : Equivocation T)
    (tb : List Byte) (hm : c.StdTimeMarshal m.Time = .ok tb)
    (hs : c.SizeOfStdTime m.Time = tb.length) (pre : List Byte) :
    m.MarshalToSizedBuffer c (pre ++ List.replicate (m.wire tb).length 0)
      = some (.ok (pre ++ m.wire tb, (m.wire tb).length)) := by
  have hv := uint64_lt (tb.length : Int)
  have hT : bytesField 0x12 tb = varintField 0x12 (uint64 tb.length) ++ tb := by
    simp only [bytesField, varintField, List.cons_append]
  have hw : m.wire tb =
      (if m.Height ≠ 0 then varintField 0x08 (uint64 m.Height) else [])
      ++ varintField 0x12 (uint64 tb.length) ++ tb
      ++ (if m.Power ≠ 0 then varintField 0x18 (uint64 m.Power) else [])
      ++ (if 0 < (m.ConsensusAddress.getD []).length
          then bytesField 0x22 (m.ConsensusAddress.getD []) else []) := by
    simp only [Equivocation.wire, len, hT, List.append_assoc]
  rw [hw]
  simp only [List.length_append, List.replicate_add]
  -- the zero bytes under the four fields
  generalize hzH : List.replicate
    (if m.Height ≠ 0 then varintField 0x08 (uint64 m.Height) else []).length 0 = zH
  generalize hzV : List.replicate (varintField 0x12 (uint64 tb.length)).length 0 = zV
  generalize hzT : List.replicate tb.length 0 = zT
  generalize hzP : List.replicate
    (if m.Power ≠ 0 then varintField 0x18 (uint64 m.Power) else []).length 0 = zP
  generalize hzA : List.replicate
    (if 0 < (m.ConsensusAddress.getD []).length
      then bytesField 0x22 (m.ConsensusAddress.getD []) else []).length 0 = zA
  have lH : zH.length
      = (if m.Height ≠ 0 then varintField 0x08 (uint64 m.Height) else []).length := by
    rw [← hzH, List.length_replicate]
  have lV : zV.length = (varintField 0x12 (uint64 tb.length)).length := by
    rw [← hzV, List.length_replicate]
  have lT : zT.length = tb.length := by rw [← hzT, List.length_replicate]
  have lP : zP.length
      = (if m.Power ≠ 0 then varintField 0x18 (uint64 m.Power) else []).length := by
    rw [← hzP, List.length_replicate]
  have lA : zA.length = (if 0 < (m.ConsensusAddress.getD []).length
      then bytesField 0x22 (m.ConsensusAddress.getD []) else []).length := by
    rw [← hzA, List.length_replicate]
  generalize hH : (if m.Height ≠ 0 then varintField 0x08 (uint64 m.Height) else []) = H
    at lH ⊢
  generalize hP : (if m.Power ≠ 0 then varintField 0x18 (uint64 m.Power) else []) = P at lP ⊢
  generalize hA : (if 0 < (m.ConsensusAddress.getD []).length
      then bytesField 0x22 (m.ConsensusAddress.getD []) else []) = A at lA ⊢
  unfold Equivocation.MarshalToSizedBuffer
  simp only [len, hs]
  -- ConsensusAddress
  rw [optBytes_step _ (pre ++ zH ++ zV ++ zT ++ zP) zA [] (m.ConsensusAddress.getD []) _ 0x22
    (by rw [hA]; exact lA)
    (by simp only [List.append_assoc, List.append_nil])
    (by simp only [List.length_append]; omega)]
  simp only [Option.bind_eq_bind, Option.some_bind, hA]
  -- Power
  rw [optVarint_step _ (pre ++ zH ++ zV ++ zT) zP (A ++ []) m.Power _ 0x18
    (by rw [hP]; exact lP)
    (by simp only [List.append_assoc])
    (by simp only [List.length_append])]
  simp only [Option.some_bind, hP]
  -- Time
  rw [subIndex_append (pre ++ zH ++ zV) zT _ lT]
  simp only [Option.some_bind]
  rw [stdTimeMarshalTo_append c m.Time tb _ (pre ++ zH ++ zV) zT (P ++ (A ++ [])) _ hm lT
    (by simp only [List.append_assoc]) rfl]
  simp only [Option.some_bind]
  rw [subIndex_append (pre ++ zH ++ zV) zT _ lT]
  simp only [Option.some_bind]
  rw [putVarint_append _ (pre ++ zH) zV (tb ++ (P ++ (A ++ []))) (uint64 tb.length) _ 0x12 hv lV
    (by simp only [List.append_assoc])
    (by simp only [List.length_append])]
  simp only [Option.some_bind]
  -- Height
  rw [optVarint_step _ pre zH (varintField 0x12 (uint64 tb.length) ++ (tb ++ (P ++ (A ++ []))))
    m.Height _ 0x8 (by rw [hH]; exact lH)
    (by simp only [List.append_assoc])
    (by simp only [List.length_append])]
  simp only [Option.some_bind, hH]
  show some _ = some _
  congr 2
  simp only [List.append_assoc, List.append_nil, List.length_append, Prod.mk.injEq, true_and]
  omega

theorem equivocation_marshal {T E : Type} (c : StdTime T E) (m : Equivocation T)
    (tb : List Byte) (hm : c.StdTimeMarshal m.Time = .ok tb)
    (hs : c.SizeOfStdTime m.Time = tb.length) :
    m.Marshal c = some (.ok (m.wire tb)) := by
  unfold Equivocation.Marshal
  have h := equivocation_marshalToSizedBuffer c m tb hm hs []
  simp only [List.nil_append] at h
  simp only [equivocationSize_eq c m tb hs, List.take_replicate, Nat.min_self, h,
    Option.bind_eq_bind, Option.some_bind, le_refl, if_true, List.take_length]
  rfl

/-! ## Marshal overwrites the buffer -/

/-- `MarshalToSizedBuffer` writes the wire format over the last bytes of the buffer, whatever
they hold, and leaves the bytes before them as they are. -/
theorem msg_marshalToSizedBuffer_over (m : MsgSubmitEvidenceBase) (pre zs : List Byte)
    (hz : zs.length = m.wire.length) :
    m.MarshalToSizedBuffer (pre ++ zs) = some (pre ++ m.wire, m.wire.length) := by
  unfold MsgSubmitEvidenceBase.MarshalToSizedBuffer
  simp only [len]
  rw [optBytes_step _ pre zs [] (m.Submitter.getD []) _ 0xa
    (by rw [hz]; simp only [MsgSubmitEvidenceBase.wire, len])
    (by simp only [List.append_nil])
    (by simp only [List.length_append])]
  simp only [Option.bind_eq_bind, Option.some_bind, MsgSubmitEvidenceBase.wire, len,
    List.append_nil, List.length_append, Nat.add_sub_cancel_left]
  rfl

/-- The bytes under the four fields, given one by one. -/
theorem equivocation_marshalToSizedBuffer_chunks {T E : Type} (c : StdTime T E)
    (m : Equivocation T) (tb : List Byte) (hm : c.StdTimeMarshal m.Time = .ok tb)
    (hs : c.SizeOfStdTime m.Time = tb.length) (pre zH zV zT zP zA : List Byte)
    (lH : zH.length
      = (if m.Height ≠ 0 then varintField 0x08 (uint64 m.Height) else []).length)
    (lV : zV.length = (varintField 0x12 (uint64 tb.length)).length)
    (lT : zT.length = tb.length)
    (lP : zP.length = (if m.Power ≠ 0 then varintField 0x18 (uint64 m.Power) else []).length)
    (lA : zA.length = (if 0 < (m.ConsensusAddress.getD []).length
      then bytesField 0x22 (m.ConsensusAddress.getD []) else []).length) :
    m.MarshalToSizedBuffer c (pre ++ (zH ++ zV ++ zT ++ zP ++ zA))
      = some (.ok (pre ++ m.wire tb, (m.wire tb).length)) := by
  have hv := uint64_lt (tb.length : Int)
  have hT : bytesField 0x12 tb = varintField 0x12 (uint64 tb.length) ++ tb := by
    simp only [bytesField, varintField, List.cons_append]
  have hw : m.wire tb =
      (if m.Height ≠ 0 then varintField 0x08 (uint64 m.Height) else [])
      ++ varintField 0x12 (uint64 tb.length) ++ tb
      ++ (if m.Power ≠ 0 then varintField 0x18 (uint64 m.Power) else [])
      ++ (if 0 < (m.ConsensusAddress.getD []).length
          then bytesField 0x22 (m.ConsensusAddress.getD []) else []) := by
    simp only [Equivocation.wire, len, hT, List.append_assoc]
  rw [hw]
  simp only [List.length_append]
  generalize hH : (if m.Height ≠ 0 then varintField 0x08 (uint64 m.Height) else []) = H
    at lH ⊢
  generalize hP : (if m.Power ≠ 0 then varintField 0x18 (uint64 m.Power) else []) = P at lP ⊢
  generalize hA : (if 0 < (m.ConsensusAddress.getD []).length
      then bytesField 0x22 (m.ConsensusAddress.getD []) else []) = A at lA ⊢
  unfold Equivocation.MarshalToSizedBuffer
  simp only [len, hs]
  -- ConsensusAddress
  rw [optBytes_step _ (pre ++ zH ++ zV ++ zT ++ zP) zA [] (m.ConsensusAddress.getD []) _ 0x22
    (by rw [hA]; exact lA)
    (by simp only [List.append_assoc, List.append_nil])
    (by simp only [List.length_append]; omega)]
  simp only [Option.bind_eq_bind, Option.some_bind, hA]
  -- Power
  rw [optVarint_step _ (pre ++ zH ++ zV ++ zT) zP (A ++ []) m.Power _ 0x18
    (by rw [hP]; exact lP)
    (by simp only [List.append_assoc])
    (by simp only [List.length_append])]
  simp only [Option.some_bind, hP]
  -- Time
  rw [subIndex_append (pre ++ zH ++ zV) zT _ lT]
  simp only [Option.some_bind]
  rw [stdTimeMarshalTo_append c m.Time tb _ (pre ++ zH ++ zV) zT (P ++ (A ++ [])) _ hm lT
    (by simp only [List.append_assoc]) rfl]
  simp only [Option.some_bind]
  rw [subIndex_append (pre ++ zH ++ zV) zT _ lT]
  simp only [Option.some_bind]
  rw [putVarint_append _ (pre ++ zH) zV (tb ++ (P ++ (A ++ []))) (uint64 tb.length) _ 0x12 hv lV
    (by simp only [List.append_assoc])
    (by simp only [List.length_append])]
  simp only [Option.some_bind]
  -- Height
  rw [optVarint_step _ pre zH (varintField 0x12 (uint64 tb.length) ++ (tb ++ (P ++ (A ++ []))))
    m.Height _ 0x8 (by rw [hH]; exact lH)
    (by simp only [List.append_assoc])
    (by simp only [List.length_append])]
  simp only [Option.some_bind, hH]
  show some _ = some _
  congr 2
  simp only [List.append_assoc, List.append_nil, List.length_append, Prod.mk.injEq, true_and]
  omega

theorem split_two (zs : List Byte) (a b : Nat) (h : zs.length = a + b) :
    ∃ xs ys, zs = xs ++ ys ∧ xs.length = a ∧ ys.length = b :=
  ⟨zs.take a, zs.drop a, (List.take_append_drop a zs).symm,
    by rw [List.length_take]; omega, by rw [List.length_drop]; omega⟩

/-- `MarshalToSizedBuffer` writes the wire format over the last bytes of the buffer, whatever
they hold, and leaves the bytes before them as they are. -/
theorem equivocation_marshalToSizedBuffer_over {T E : Type} (c : StdTime T E)
    (m : Equivocation T) (tb : List Byte) (hm : c.StdTimeMarshal m.Time = .ok tb)
    (hs : c.SizeOfStdTime m.Time = tb.length) (pre zs : List Byte)
    (hz : zs.length = (m.wire tb).length) :
    m.MarshalToSizedBuffer c (pre ++ zs)
      = some (.ok (pre ++ m.wire tb, (m.wire tb).length)) := by
  have hT : bytesField 0x12 tb = varintField 0x12 (uint64 tb.length) ++ tb := by
    simp only [bytesField, varintField, List.cons_append]
  have hw : (m.wire tb).length =
      ((((if m.Height ≠ 0 then varintField 0x08 (uint64 m.Height) else []).length
      + (varintField 0x12 (uint64 tb.length)).length) + tb.length)
      + (if m.Power ≠ 0 then varintField 0x18 (uint64 m.Power) else []).length)
      + (if 0 < (m.ConsensusAddress.getD []).length
          then bytesField 0x22 (m.ConsensusAddress.getD []) else []).length := by
    simp only [Equivocation.wire, len, hT, List.length_append]
    omega
  rw [hw] at hz
  obtain ⟨z4, zA, rfl, h4, lA⟩ := split_two zs _ _ hz
  obtain ⟨z3, zP, rfl, h3, lP⟩ := split_two z4 _ _ h4
  obtain ⟨z2, zT, rfl, h2, lT⟩ := split_two z3 _ _ h3
  obtain ⟨zH, zV, rfl, lH, lV⟩ := split_two z2 _ _ h2
  exact equivocation_marshalToSizedBuffer_chunks c m tb hm hs pre zH zV zT zP zA lH lV lT lP lA

/-! ## Unmarshal reads the wire format -/

theorem wrapInt64_of_range (x : Int) (h1 : -2 ^ 63 ≤ x) (h2 : x < 2 ^ 63) : wrapInt64 x = x :=
  int64_uint64 x h1 h2

theorem decodeVarint_tag {E : Type} (tag : Nat) (rest : List Byte) (h : tag < 128) :
    decodeVarint (E := E) 0 0 (tag :: rest) = .ok (tag, rest) := by
  have := decodeVarint_last (E := E) tag 0 0 rest h (by norm_num) (by simpa using (by omega : tag < 2 ^ 64))
    (by norm_num)
  simpa using this

/-- Reading a length-delimited field back: the length varint and then the bytes. -/
theorem readBytes_bytes {E : Type} (l : Nat) (bs rest : List Byte) (hl : l < 2 ^ 63)
    (hfit : (bs ++ rest).length ≤ l) :
    readBytes (E := E) l (varint (uint64 bs.length) ++ (bs ++ rest)) = .ok (bs, rest) := by
  rw [List.length_append] at hfit
  have hlen : bs.length < 2 ^ 63 := by omega
  have hu : uint64 (bs.length : Int) = bs.length := uint64_natCast _ (by omega)
  unfold readBytes
  rw [decodeVarint_varint _ _ (uint64_lt _)]
  simp only [hu, int64_of_lt _ hlen, List.length_append]
  rw [if_neg (by omega)]
  have hidx : wrapInt64 (((l - (bs.length + rest.length) : Nat) : Int) + (bs.length : Int))
      = ((l - (bs.length + rest.length) : Nat) : Int) + (bs.length : Int) := by
    apply wrapInt64_of_range <;> omega
  rw [hidx, if_neg (by omega), if_neg (by omega)]
  simp

theorem msg_loop_nil {E : Type} (l fuel : Nat) (m : MsgSubmitEvidenceBase) :
    MsgSubmitEvidenceBase.unmarshalLoop (E := E) l (fuel + 1) m [] = some (.ok m) := by
  simp [MsgSubmitEvidenceBase.unmarshalLoop]

theorem msg_loop_submitter {E : Type} (l fuel : Nat) (m : MsgSubmitEvidenceBase)
    (bs rest : List Byte) (hl : l < 2 ^ 63) (hfit : (bs ++ rest).length ≤ l) :
    MsgSubmitEvidenceBase.unmarshalLoop (E := E) l (fuel + 1) m (bytesField 0x0a bs ++ rest)
      = MsgSubmitEvidenceBase.unmarshalLoop l fuel { m with Submitter := some bs } rest := by
  have e : bytesField 0x0a bs ++ rest = 0x0a :: (varint (uint64 bs.length) ++ (bs ++ rest)) := by
    simp [bytesField]
  rw [e]
  conv_lhs => unfold MsgSubmitEvidenceBase.unmarshalLoop
  rw [if_neg (by simp), decodeVarint_tag 0x0a _ (by norm_num)]
  have h1 : int32 (0x0a >>> 3) = 1 := by decide
  have h2 : (0x0a : Nat) &&& 0x7 = 2 := by decide
  simp only [h1, h2]
  rw [readBytes_bytes l bs rest hl hfit]
  simp

theorem eq_loop_nil {T E : Type} (c : StdTime T E) (l fuel : Nat) (m : Equivocation T) :
    Equivocation.unmarshalLoop c l (fuel + 1) m [] = some (.ok m) := by
  simp [Equivocation.unmarshalLoop]

theorem eq_loop_height {T E : Type} (c : StdTime T E) (l fuel : Nat) (m : Equivocation T)
    (v : Nat) (rest : List Byte) (hv : v < 2 ^ 64) :
    Equivocation.unmarshalLoop c l (fuel + 1) m (varintField 0x08 v ++ rest)
      = Equivocation.unmarshalLoop c l fuel { m with Height := int64 v } rest := by
  have e : varintField 0x08 v ++ rest = 0x08 :: (varint v ++ rest) := by simp [varintField]
  rw [e]
  conv_lhs => unfold Equivocation.unmarshalLoop
  rw [if_neg (by simp), decodeVarint_tag 0x08 _ (by norm_num)]
  have h1 : int32 (0x08 >>> 3) = 1 := by decide
  have h2 : (0x08 : Nat) &&& 0x7 = 0 := by decide
  simp only [h1, h2]
  rw [decodeVarint_varint v rest hv]
  simp

theorem eq_loop_power {T E : Type} (c : StdTime T E) (l fuel : Nat) (m : Equivocation T)
    (v : Nat) (rest : List Byte) (hv : v < 2 ^ 64) :
    Equivocation.unmarshalLoop c l (fuel + 1) m (varintField 0x18 v ++ rest)
      = Equivocation.unmarshalLoop c l fuel { m with Power := int64 v } rest := by
  have e : varintField 0x18 v ++ rest = 0x18 :: (varint v ++ rest) := by simp [varintField]
  rw [e]
  conv_lhs => unfold Equivocation.unmarshalLoop
  rw [if_neg (by simp), decodeVarint_tag 0x18 _ (by norm_num)]
  have h1 : int32 (0x18 >>> 3) = 3 := by decide
  have h2 : (0x18 : Nat) &&& 0x7 = 0 := by decide
  simp only [h1, h2]
  rw [decodeVarint_varint v rest hv]
  simp

theorem eq_loop_time {T E : Type} (c : StdTime T E) (l fuel : Nat) (m : Equivocation T)
    (tb rest : List Byte) (t : T) (ht : c.StdTimeUnmarshal tb = .ok t) (hl : l < 2 ^ 63)
    (hfit : (tb ++ rest).length ≤ l) :
    Equivocation.unmarshalLoop c l (fuel + 1) m (bytesField 0x12 tb ++ rest)
      = Equivocation.unmarshalLoop c l fuel { m with Time := t } rest := by
  have e : bytesField 0x12 tb ++ rest = 0x12 :: (varint (uint64 tb.length) ++ (tb ++ rest)) := by
    simp [bytesField]
  rw [e]
  conv_lhs => unfold Equivocation.unmarshalLoop
  rw [if_neg (by simp), decodeVarint_tag 0x12 _ (by norm_num)]
  have h1 : int32 (0x12 >>> 3) = 2 := by decide
  have h2 : (0x12 : Nat) &&& 0x7 = 2 := by decide
  simp only [h1, h2]
  rw [readBytes_bytes l tb rest hl hfit]
  simp [ht]

theorem eq_loop_address {T E : Type} (c : StdTime T E) (l fuel : Nat) (m : Equivocation T)
    (bs rest : List Byte) (hl : l < 2 ^ 63) (hfit : (bs ++ rest).length ≤ l) :
    Equivocation.unmarshalLoop c l (fuel + 1) m (bytesField 0x22 bs ++ rest)
      = Equivocation.unmarshalLoop c l fuel { m with ConsensusAddress := some bs } rest := by
  have e : bytesField 0x22 bs ++ rest = 0x22 :: (varint (uint64 bs.length) ++ (bs ++ rest)) := by
    simp [bytesField]
  rw [e]
  conv_lhs => unfold Equivocation.unmarshalLoop
  rw [if_neg (by simp), decodeVarint_tag 0x22 _ (by norm_num)]
  have h1 : int32 (0x22 >>> 3) = 4 := by decide
  have h2 : (0x22 : Nat) &&& 0x7 = 2 := by decide
  simp only [h1, h2]
  rw [readBytes_bytes l bs rest hl hfit]
  simp

/-- One more field in front: if the loop, given enough fuel, reads `rest` from `m1` to `r`, it
reads `field ++ rest` from `m` to `r`. -/
theorem eq_loop_field {T E : Type} (c : StdTime T E) (l : Nat) (m m1 : Equivocation T)
    (field rest : List Byte) (r : Except (UnmarshalError E) (Equivocation T))
    (hpos : 1 ≤ field.length)
    (hstep : ∀ fuel, Equivocation.unmarshalLoop c l (fuel + 1) m (field ++ rest)
      = Equivocation.unmarshalLoop c l fuel m1 rest)
    (hrest : ∀ fuel, rest.length + 1 ≤ fuel →
      Equivocation.unmarshalLoop c l fuel m1 rest = some r) :
    ∀ fuel, (field ++ rest).length + 1 ≤ fuel →
      Equivocation.unmarshalLoop c l fuel m (field ++ rest) = some r := by
  intro fuel hf
  rw [List.length_append] at hf
  obtain ⟨f, rfl⟩ : ∃ f, fuel = f + 1 := ⟨fuel - 1, by omega⟩
  rw [hstep f]
  exact hrest f (by omega)

theorem varintField_length_pos (tag : Byte) (v : Nat) : 1 ≤ (varintField tag v).length := by
  simp [varintField]

theorem bytesField_length_pos (tag : Byte) (bs : List Byte) :
    1 ≤ (bytesField tag bs).length := by
  simp [bytesField]

theorem bytesField_length (tag : Byte) (bs : List Byte) :
    bs.length < (bytesField tag bs).length := by
  simp only [bytesField, List.length_cons, List.length_append]; omega

/-- `Unmarshal` into a zero message reads the wire format of `e` back. -/
theorem equivocation_unmarshal_wire {T E : Type} (c : StdTime T E) (e : Equivocation T)
    (t0 t1 : T) (tb : List Byte)
    (hH1 : -2 ^ 63 ≤ e.Height) (hH2 : e.Height < 2 ^ 63)
    (hP1 : -2 ^ 63 ≤ e.Power) (hP2 : e.Power < 2 ^ 63)
    (hu : c.StdTimeUnmarshal tb = .ok t1) (hl : (e.wire tb).length < 2 ^ 63) :
    Equivocation.Unmarshal c { Height := 0, Time := t0, Power := 0, ConsensusAddress := none }
        (e.wire tb)
      = some (.ok { Height := e.Height, Time := t1, Power := e.Power,
                    ConsensusAddress :=
                      if 0 < len e.ConsensusAddress then some (e.ConsensusAddress.getD [])
                      else none }) := by
  unfold Equivocation.Unmarshal
  generalize hL : (e.wire tb).length = l at hl
  have hw : e.wire tb =
      (if e.Height ≠ 0 then varintField 0x08 (uint64 e.Height) else []) ++
      (bytesField 0x12 tb ++
      ((if e.Power ≠ 0 then varintField 0x18 (uint64 e.Power) else []) ++
      ((if 0 < (e.ConsensusAddress.getD []).length
          then bytesField 0x22 (e.ConsensusAddress.getD []) else []) ++ []))) := by
    simp only [Equivocation.wire, len, List.append_assoc, List.append_nil]
  have hlen := congrArg List.length hw
  rw [hL] at hlen
  simp only [List.length_append, List.length_nil] at hlen
  have hTb := bytesField_length 0x12 tb
  -- ConsensusAddress
  have stepA : ∀ fuel,
      ((if 0 < (e.ConsensusAddress.getD []).length
          then bytesField 0x22 (e.ConsensusAddress.getD []) else []) ++ []).length + 1 ≤ fuel →
      Equivocation.unmarshalLoop c l fuel
          { Height := e.Height, Time := t1, Power := e.Power, ConsensusAddress := none }
          ((if 0 < (e.ConsensusAddress.getD []).length
            then bytesField 0x22 (e.ConsensusAddress.getD []) else []) ++ [])
        = some (.ok { Height := e.Height, Time := t1, Power := e.Power,
                      ConsensusAddress :=
                        if 0 < len e.ConsensusAddress then some (e.ConsensusAddress.getD [])
                        else none }) := by
    by_cases hA : 0 < (e.ConsensusAddress.getD []).length
    · have hAb := bytesField_length 0x22 (e.ConsensusAddress.getD [])
      simp only [hA, if_true, len] at hlen ⊢
      refine eq_loop_field c l _ _ _ [] _ (bytesField_length_pos _ _)
        (fun fuel => eq_loop_address c l fuel _ _ [] hl (by
          simp only [List.append_nil]; omega)) ?_
      intro fuel hf
      obtain ⟨f, rfl⟩ : ∃ f, fuel = f + 1 := ⟨fuel - 1, by simp at hf; omega⟩
      exact eq_loop_nil c l f _
    · simp only [hA, if_false, len, List.append_nil, List.length_nil]
      intro fuel hf
      obtain ⟨f, rfl⟩ : ∃ f, fuel = f + 1 := ⟨fuel - 1, by omega⟩
      exact eq_loop_nil c l f _
  -- Power
  have stepP : ∀ fuel,
      ((if e.Power ≠ 0 then varintField 0x18 (uint64 e.Power) else []) ++
        ((if 0 < (e.ConsensusAddress.getD []).length
          then bytesField 0x22 (e.ConsensusAddress.getD []) else []) ++ [])).length + 1 ≤ fuel →
      Equivocation.unmarshalLoop c l fuel
          { Height := e.Height, Time := t1, Power := 0, ConsensusAddress := none }
          ((if e.Power ≠ 0 then varintField 0x18 (uint64 e.Power) else []) ++
            ((if 0 < (e.ConsensusAddress.getD []).length
              then bytesField 0x22 (e.ConsensusAddress.getD []) else []) ++ []))
        = some (.ok { Height := e.Height, Time := t1, Power := e.Power,
                      ConsensusAddress :=
                        if 0 < len e.ConsensusAddress then some (e.ConsensusAddress.getD [])
                        else none }) := by
    by_cases hP : e.Power ≠ 0
    · simp only [hP, if_true, ne_eq, not_false_eq_true]
      refine eq_loop_field c l _ _ _ _ _ (varintField_length_pos _ _)
        (fun fuel => eq_loop_power c l fuel _ _ _ (uint64_lt _)) ?_
      rw [int64_uint64 _ hP1 hP2]
      exact stepA
    · have hP0 : e.Power = 0 := by simpa using hP
      simp only [hP, if_false, List.nil_append]
      have hm0 : ({ Height := e.Height, Time := t1, Power := 0, ConsensusAddress := none }
          : Equivocation T)
          = { Height := e.Height, Time := t1, Power := e.Power, ConsensusAddress := none } := by
        rw [hP0]
      rw [hm0]
      exact stepA
  -- Time
  have stepT : ∀ fuel,
      (bytesField 0x12 tb ++
        ((if e.Power ≠ 0 then varintField 0x18 (uint64 e.Power) else []) ++
        ((if 0 < (e.ConsensusAddress.getD []).length
          then bytesField 0x22 (e.ConsensusAddress.getD []) else []) ++ []))).length + 1 ≤ fuel →
      Equivocation.unmarshalLoop c l fuel
          { Height := e.Height, Time := t0, Power := 0, ConsensusAddress := none }
          (bytesField 0x12 tb ++
            ((if e.Power ≠ 0 then varintField 0x18 (uint64 e.Power) else []) ++
            ((if 0 < (e.ConsensusAddress.getD []).length
              then bytesField 0x22 (e.ConsensusAddress.getD []) else []) ++ [])))
        = some (.ok { Height := e.Height, Time := t1, Power := e.Power,
                      ConsensusAddress :=
                        if 0 < len e.ConsensusAddress then some (e.ConsensusAddress.getD [])
                        else none }) :=
    eq_loop_field c l _ _ _ _ _ (bytesField_length_pos _ _)
      (fun fuel => eq_loop_time c l fuel _ tb _ t1 hu hl (by
        simp only [List.length_append, List.length_nil]; omega)) stepP
  -- Height
  have stepH : ∀ fuel,
      ((if e.Height ≠ 0 then varintField 0x08 (uint64 e.Height) else []) ++
        (bytesField 0x12 tb ++
        ((if e.Power ≠ 0 then varintField 0x18 (uint64 e.Power) else []) ++
        ((if 0 < (e.ConsensusAddress.getD []).length
          then bytesField 0x22 (e.ConsensusAddress.getD []) else []) ++ [])))).length + 1 ≤ fuel →
      Equivocation.unmarshalLoop c l fuel
          { Height := 0, Time := t0, Power := 0, ConsensusAddress := none }
          ((if e.Height ≠ 0 then varintField 0x08 (uint64 e.Height) else []) ++
            (bytesField 0x12 tb ++
            ((if e.Power ≠ 0 then varintField 0x18 (uint64 e.Power) else []) ++
            ((if 0 < (e.ConsensusAddress.getD []).length
              then bytesField 0x22 (e.ConsensusAddress.getD []) else []) ++ []))))
        = some (.ok { Height := e.Height, Time := t1, Power := e.Power,
                      ConsensusAddress :=
                        if 0 < len e.ConsensusAddress then some (e.ConsensusAddress.getD [])
                        else none }) := by
    by_cases hH : e.Height ≠ 0
    · simp only [hH, if_true, ne_eq, not_false_eq_true]
      refine eq_loop_field c l _ _ _ _ _ (varintField_length_pos _ _)
        (fun fuel => eq_loop_height c l fuel _ _ _ (uint64_lt _)) ?_
      rw [int64_uint64 _ hH1 hH2]
      exact stepT
    · have hH0 : e.Height = 0 := by simpa using hH
      simp only [hH, if_false, List.nil_append]
      have hm0 : ({ Height := 0, Time := t0, Power := 0, ConsensusAddress := none }
          : Equivocation T)
          = { Height := e.Height, Time := t0, Power := 0, ConsensusAddress := none } := by
        rw [hH0]
      rw [hm0]
      exact stepT
  rw [hw] at hL ⊢
  exact stepH (l + 1) (by rw [hL])

/-- `Unmarshal` into a zero message reads the wire format of `m` back. -/
theorem msg_unmarshal_wire {E : Type} (m : MsgSubmitEvidenceBase)
    (hl : m.wire.length < 2 ^ 63) :
    MsgSubmitEvidenceBase.Unmarshal (E := E) { Submitter := none } m.wire
      = some (.ok { Submitter :=
          if 0 < len m.Submitter then some (m.Submitter.getD []) else none }) := by
  unfold MsgSubmitEvidenceBase.Unmarshal
  by_cases hA : 0 < (m.Submitter.getD []).length
  · have hw : m.wire = bytesField 0x0a (m.Submitter.getD []) ++ [] := by
      simp [MsgSubmitEvidenceBase.wire, len, hA]
    have hb := bytesField_length 0x0a (m.Submitter.getD [])
    rw [hw] at hl ⊢
    rw [msg_loop_submitter _ _ _ _ [] hl (by
      simp only [List.append_nil, List.length_append, List.length_nil] at hl ⊢; omega)]
    obtain ⟨f, hf⟩ : ∃ f, (bytesField 0x0a (m.Submitter.getD []) ++ []).length = f + 1 :=
      ⟨_, (Nat.succ_pred_eq_of_pos (by
        simp only [List.append_nil]; exact bytesField_length_pos _ _)).symm⟩
    rw [hf, msg_loop_nil]
    simp [len, hA]
  · have hw : m.wire = [] := by simp [MsgSubmitEvidenceBase.wire, len, hA]
    rw [hw]
    simp [MsgSubmitEvidenceBase.unmarshalLoop, len, hA]

theorem bytesEqual_present (b : Option (List Byte)) :
    bytesEqual b (if 0 < len b then some (b.getD []) else none) = true := by
  unfold bytesEqual len
  split_ifs with h
  · simp
  · have : (b.getD []).length = 0 := by omega
    simp [List.length_eq_zero.mp this]

/-! ## The claims on the evidence messages -/

/-- C17: round trip of `Equivocation`. When the time of `e` can be marshalled (to bytes of the
size `SizeOfStdTime` gives, which `StdTimeUnmarshal` reads back to an equal time), `Height` and
`Power` are `int64` values and the size is below 2^63, `Marshal` succeeds and `Unmarshal` of its
bytes into a zero `Equivocation` returns no error and a message that `Equal` accepts. -/
theorem equivocation_round_trip {T E : Type} (c : StdTime T E) (e : Equivocation T)
    (t0 t1 : T) (tb : List Byte)
    (hm : c.StdTimeMarshal e.Time = .ok tb) (hs : c.SizeOfStdTime e.Time = tb.length)
    (hu : c.StdTimeUnmarshal tb = .ok t1) (heq : c.Equal e.Time t1 = true)
    (hH : -2 ^ 63 ≤ e.Height ∧ e.Height < 2 ^ 63) (hP : -2 ^ 63 ≤ e.Power ∧ e.Power < 2 ^ 63)
    (hl : e.Size c < 2 ^ 63) :
    ∃ bs e1, e.Marshal c = some (.ok bs) ∧
      Equivocation.Unmarshal c
        { Height := 0, Time := t0, Power := 0, ConsensusAddress := none } bs = some (.ok e1) ∧
      e.Equal c e1 = true := by
  rw [equivocationSize_eq c e tb hs] at hl
  refine ⟨e.wire tb, _, equivocation_marshal c e tb hm hs,
    equivocation_unmarshal_wire c e t0 t1 tb hH.1 hH.2 hP.1 hP.2 hu hl, ?_⟩
  simp [Equivocation.Equal, heq, bytesEqual_present]

/-- Witness of `equivocation_round_trip`: height -7, time 5, power 300 and a consensus address
of three bytes, with the sample time. -/
theorem equivocation_round_trip_witness :
    (sampleTime.StdTimeMarshal 5 = .ok [5] ∧ sampleTime.SizeOfStdTime 5 = [5].length ∧
      sampleTime.StdTimeUnmarshal [5] = .ok 5 ∧ sampleTime.Equal 5 5 = true ∧
      Equivocation.Size sampleTime ⟨-7, 5, 300, some [1, 2, 3]⟩ < 2 ^ 63) ∧
    Equivocation.Marshal sampleTime ⟨-7, 5, 300, some [1, 2, 3]⟩
      = some (.ok [8, 249, 255, 255, 255, 255, 255, 255, 255, 255, 1, 18, 1, 5, 24, 172, 2,
          34, 3, 1, 2, 3]) ∧
    ∃ bs e1, Equivocation.Marshal sampleTime ⟨-7, 5, 300, some [1, 2, 3]⟩ = some (.ok bs) ∧
      Equivocation.Unmarshal sampleTime
        { Height := 0, Time := 0, Power := 0, ConsensusAddress := none } bs = some (.ok e1) ∧
      Equivocation.Equal sampleTime ⟨-7, 5, 300, some [1, 2, 3]⟩ e1 = true :=
  ⟨⟨rfl, rfl, rfl, rfl, by decide⟩, rfl,
   equivocation_round_trip sampleTime ⟨-7, 5, 300, some [1, 2, 3]⟩ 0 5 [5] rfl rfl rfl rfl
     ⟨by decide, by decide⟩ ⟨by decide, by decide⟩ (by decide)⟩

/-- C18: round trip of `MsgSubmitEvidenceBase`. For every message (its `Submitter` nil, empty or
not, the size below 2^63) `Marshal` succeeds and `Unmarshal` of its bytes into a zero message
returns no error and a message that `Equal` accepts. -/
theorem msg_round_trip {E : Type} (m : MsgSubmitEvidenceBase) (hl : m.Size < 2 ^ 63) :
    ∃ bs m1, m.Marshal = some bs ∧
      MsgSubmitEvidenceBase.Unmarshal (E := E) { Submitter := none } bs = some (.ok m1) ∧
      m.Equal m1 = true := by
  rw [msgSize_eq] at hl
  refine ⟨m.wire, _, msg_marshal m, msg_unmarshal_wire m hl, ?_⟩
  simp [MsgSubmitEvidenceBase.Equal, bytesEqual_present]

/-- Witness of `msg_round_trip`: a submitter of two bytes. -/
theorem msg_round_trip_witness :
    MsgSubmitEvidenceBase.Size ⟨some [7, 9]⟩ < 2 ^ 63 ∧
    MsgSubmitEvidenceBase.Marshal ⟨some [7, 9]⟩ = some [10, 2, 7, 9] ∧
    ∃ bs m1, MsgSubmitEvidenceBase.Marshal ⟨some [7, 9]⟩ = some bs ∧
      MsgSubmitEvidenceBase.Unmarshal (E := Nat) { Submitter := none } bs = some (.ok m1) ∧
      MsgSubmitEvidenceBase.Equal ⟨some [7, 9]⟩ m1 = true :=
  ⟨by decide, rfl, msg_round_trip ⟨some [7, 9]⟩ (by decide)⟩

/-- C19: `Size` agrees with `Marshal`. For every `MsgSubmitEvidenceBase`, and for every
`Equivocation` whose time can be marshalled (to bytes of the size `SizeOfStdTime` gives),
`MarshalToSizedBuffer` on a buffer of `Size()` bytes does not panic and reports `Size()` bytes
written, and `Marshal` returns `Size()` bytes. The buffer is filled whole: whatever a buffer of
`Size()` bytes holds, after `MarshalToSizedBuffer` it holds the bytes that `Marshal` returns,
so every byte of it is overwritten. Nothing is written before its start: when the `Size()`
bytes are the end of a longer buffer, the bytes `pre` in front of them stay as they are. -/
theorem size_agrees_with_marshal {T E : Type} (c : StdTime T E) (m : MsgSubmitEvidenceBase)
    (e : Equivocation T) (tb : List Byte) :
    ((∃ buf, m.MarshalToSizedBuffer (List.replicate m.Size 0) = some (buf, m.Size)
        ∧ buf.length = m.Size) ∧
      ∃ bs, m.Marshal = some bs ∧ bs.length = m.Size ∧
        ∀ pre buf : List Byte, buf.length = m.Size →
          m.MarshalToSizedBuffer (pre ++ buf) = some (pre ++ bs, m.Size)) ∧
    (c.StdTimeMarshal e.Time = .ok tb → c.SizeOfStdTime e.Time = tb.length →
      (∃ buf, e.MarshalToSizedBuffer c (List.replicate (e.Size c) 0)
          = some (.ok (buf, e.Size c)) ∧ buf.length = e.Size c) ∧
      ∃ bs, e.Marshal c = some (.ok bs) ∧ bs.length = e.Size c ∧
        ∀ pre buf : List Byte, buf.length = e.Size c →
          e.MarshalToSizedBuffer c (pre ++ buf) = some (.ok (pre ++ bs, e.Size c))) := by
  constructor
  · have h := msg_marshalToSizedBuffer m []
    simp only [List.nil_append] at h
    rw [msgSize_eq]
    exact ⟨⟨m.wire, h, rfl⟩, m.wire, msg_marshal m, rfl,
      fun pre buf hb => msg_marshalToSizedBuffer_over m pre buf hb⟩
  · intro hm hs
    have h := equivocation_marshalToSizedBuffer c e tb hm hs []
    simp only [List.nil_append] at h
    rw [equivocationSize_eq c e tb hs]
    exact ⟨⟨e.wire tb, h, rfl⟩, e.wire tb, equivocation_marshal c e tb hm hs, rfl,
      fun pre buf hb => equivocation_marshalToSizedBuffer_over c e tb hm hs pre buf hb⟩

/-- Witness of `size_agrees_with_marshal`: a submitter of two bytes (size 4) and an
equivocation of size 22; a buffer of four bytes 1 behind a byte 5 is overwritten by the four
bytes of the submitter. -/
theorem size_agrees_with_marshal_witness :
    (sampleTime.StdTimeMarshal 5 = .ok [5] ∧ sampleTime.SizeOfStdTime 5 = [5].length) ∧
    MsgSubmitEvidenceBase.Size ⟨some [7, 9]⟩ = 4 ∧
    Equivocation.Size sampleTime ⟨-7, 5, 300, some [1, 2, 3]⟩ = 22 ∧
    MsgSubmitEvidenceBase.MarshalToSizedBuffer ⟨some [7, 9]⟩ [5, 1, 1, 1, 1]
      = some ([5, 10, 2, 7, 9], 4) ∧
    ((∃ buf, Equivocation.MarshalToSizedBuffer sampleTime ⟨-7, 5, 300, some [1, 2, 3]⟩
          (List.replicate (Equivocation.Size sampleTime ⟨-7, 5, 300, some [1, 2, 3]⟩) 0)
          = some (.ok (buf, Equivocation.Size sampleTime ⟨-7, 5, 300, some [1, 2, 3]⟩)) ∧
        buf.length = Equivocation.Size sampleTime ⟨-7, 5, 300, some [1, 2, 3]⟩) ∧
      ∃ bs, Equivocation.Marshal sampleTime ⟨-7, 5, 300, some [1, 2, 3]⟩ = some (.ok bs) ∧
        bs.length = Equivocation.Size sampleTime ⟨-7, 5, 300, some [1, 2, 3]⟩ ∧
        ∀ pre buf : List Byte,
          buf.length = Equivocation.Size sampleTime ⟨-7, 5, 300, some [1, 2, 3]⟩ →
          Equivocation.MarshalToSizedBuffer sampleTime ⟨-7, 5, 300, some [1, 2, 3]⟩ (pre ++ buf)
            = some (.ok (pre ++ bs,
                Equivocation.Size sampleTime ⟨-7, 5, 300, some [1, 2, 3]⟩))) :=
  ⟨⟨rfl, rfl⟩, by decide, by decide, rfl,
   (size_agrees_with_marshal sampleTime ⟨some [7, 9]⟩ ⟨-7, 5, 300, some [1, 2, 3]⟩ [5]).2
     rfl rfl⟩

/-- C20: the encoding follows the proto3 layout. `Marshal` of an `Equivocation` whose time is
marshalled as `tb` is tag 0x08 and the varint of `Height`, tag 0x12, the length of `tb` and
`tb`, tag 0x18 and the varint of `Power`, tag 0x22, the length and the bytes of
`ConsensusAddress`, in this order, `Height` and `Power` left out when 0 and `ConsensusAddress`
when empty, the time never; `Marshal` of a `MsgSubmitEvidenceBase` is tag 0x0a, the length and
the bytes of `Submitter`, and no byte at all when `Submitter` is empty. -/
theorem marshal_layout {T E : Type} (c : StdTime T E) (m : MsgSubmitEvidenceBase)
    (e : Equivocation T) (tb : List Byte) :
    (c.StdTimeMarshal e.Time = .ok tb → c.SizeOfStdTime e.Time = tb.length →
      e.Marshal c = some (.ok
        ((if e.Height ≠ 0 then 0x08 :: varint (uint64 e.Height) else []) ++
         (0x12 :: (varint (uint64 tb.length) ++ tb)) ++
         (if e.Power ≠ 0 then 0x18 :: varint (uint64 e.Power) else []) ++
         (if 0 < len e.ConsensusAddress then
            0x22 :: (varint (uint64 (len e.ConsensusAddress)) ++ e.ConsensusAddress.getD [])
          else [])))) ∧
    m.Marshal = some
      (if 0 < len m.Submitter then
         0x0a :: (varint (uint64 (len m.Submitter)) ++ m.Submitter.getD [])
       else []) ∧
    (len m.Submitter = 0 → m.Marshal = some []) := by
  refine ⟨fun hm hs => ?_, ?_, fun h0 => ?_⟩
  · rw [equivocation_marshal c e tb hm hs]
    rfl
  · rw [msg_marshal m]
    rfl
  · rw [msg_marshal m]
    simp [MsgSubmitEvidenceBase.wire, h0]

/-- Witness of `marshal_layout`: the bytes of an equivocation with height -7, time 5, power 300
and a consensus address of three bytes, with the sample time. -/
theorem marshal_layout_witness :
    (sampleTime.StdTimeMarshal 5 = .ok [5] ∧ sampleTime.SizeOfStdTime 5 = [5].length) ∧
    Equivocation.Marshal sampleTime ⟨-7, 5, 300, some [1, 2, 3]⟩ = some (.ok
      ((if (-7 : Int) ≠ 0 then 0x08 :: varint (uint64 (-7)) else []) ++
       (0x12 :: (varint (uint64 ([5] : List Byte).length) ++ [5])) ++
       (if (300 : Int) ≠ 0 then 0x18 :: varint (uint64 300) else []) ++
       (if 0 < len (some [1, 2, 3]) then
          0x22 :: (varint (uint64 (len (some [1, 2, 3]))) ++ (some [1, 2, 3]).getD [])
        else []))) ∧
    varint (uint64 (-7)) = [249, 255, 255, 255, 255, 255, 255, 255, 255, 1] ∧
    varint (uint64 300) = [172, 2] :=
  ⟨⟨rfl, rfl⟩,
   (marshal_layout sampleTime ⟨none⟩ ⟨-7, 5, 300, some [1, 2, 3]⟩ [5]).1 rfl rfl,
   by decide, by decide⟩

end Evidence

namespace Evidence

/-! ## Truncated varints -/

theorem decodeVarint_cut {E : Type} (pre : List Byte) :
    ∀ shift acc : Nat, (∀ b ∈ pre, 128 ≤ b) → shift + 7 * pre.length < 64 →
      decodeVarint (E := E) shift acc pre = .error .ErrUnexpectedEOF := by
  induction pre with
  | nil =>
    intro shift acc _ hs
    simp only [List.length_nil] at hs
    simp only [decodeVarint]
    rw [if_neg (by omega)]
  | cons b bs ih =>
    intro shift acc hb hs
    simp only [List.length_cons] at hs
    have hb0 : 128 ≤ b := hb b (List.mem_cons_self _ _)
    simp only [decodeVarint]
    rw [if_neg (by omega), if_neg (Nat.not_lt.mpr hb0)]
    exact ih _ _ (fun x hx => hb x (List.mem_cons_of_mem _ hx)) (by omega)

theorem varintBytes_length_le (f : Nat) : ∀ v : Nat, (varintBytes f v).length ≤ f + 1 := by
  induction f with
  | zero => intro v; simp [varintBytes]
  | succ f ih =>
    intro v
    unfold varintBytes
    split
    · simp only [List.length_cons]; have := ih (v >>> 7); omega
    · simp

theorem varintBytes_init_ge (f : Nat) :
    ∀ (v : Nat) (pre suf : List Byte), varintBytes f v = pre ++ suf → suf ≠ [] →
      ∀ b ∈ pre, 128 ≤ b := by
  induction f with
  | zero =>
    intro v pre suf h hsuf b hb
    simp only [varintBytes] at h
    cases pre with
    | nil => cases hb
    | cons p ps =>
      simp only [List.cons_append, List.cons.injEq] at h
      have := h.2
      have h2 : ps ++ suf = [] := this.symm
      simp only [List.append_eq_nil] at h2
      exact absurd h2.2 hsuf
  | succ f ih =>
    intro v pre suf h hsuf b hb
    unfold varintBytes at h
    split at h
    · cases pre with
      | nil => cases hb
      | cons p ps =>
        simp only [List.cons_append, List.cons.injEq] at h
        rcases List.mem_cons.mp hb with hbp | hbps
        · rw [hbp, ← h.1, continuation_byte]; exact Nat.le_add_left _ _
        · exact ih _ ps suf h.2 hsuf b hbps
    · cases pre with
      | nil => cases hb
      | cons p ps =>
        simp only [List.cons_append, List.cons.injEq] at h
        have h2 : ps ++ suf = [] := h.2.symm
        simp only [List.append_eq_nil] at h2
        exact absurd h2.2 hsuf

theorem decodeVarint_varint_cut {E : Type} (v : Nat) (pre suf : List Byte)
    (h : varint v = pre ++ suf) (hsuf : suf ≠ []) :
    decodeVarint (E := E) 0 0 pre = .error .ErrUnexpectedEOF := by
  apply decodeVarint_cut
  · exact varintBytes_init_ge 9 v pre suf h hsuf
  · have hl := varintBytes_length_le 9 v
    have hlen : (varint v).length = pre.length + suf.length := by rw [h, List.length_append]
    have hs : 1 ≤ suf.length := by
      cases suf with
      | nil => exact absurd rfl hsuf
      | cons _ _ => simp
    unfold varint at hlen
    omega

/-! ## Truncated fields -/

/-- A length-delimited field cut inside its length or inside its bytes. -/
theorem readBytes_cut {E : Type} (l : Nat) (bs pre suf : List Byte)
    (h : pre ++ suf = varint (uint64 bs.length) ++ bs) (hsuf : suf ≠ [])
    (hpre : pre.length ≤ l) (hl : l + suf.length < 2 ^ 63) :
    readBytes (E := E) l pre = .error .ErrUnexpectedEOF := by
  have hs : 1 ≤ suf.length := by
    cases suf with
    | nil => exact absurd rfl hsuf
    | cons _ _ => simp
  rcases List.append_eq_append_iff.mp h with ⟨a, ha, hb⟩ | ⟨cs, hc, hb⟩
  · by_cases ha0 : a = []
    · subst ha0
      simp only [List.append_nil] at ha
      simp only [List.nil_append] at hb
      subst hb
      have hlen : suf.length < 2 ^ 63 := by omega
      have hu : uint64 (suf.length : Int) = suf.length := uint64_natCast _ (by omega)
      have hd := decodeVarint_varint (E := E) (uint64 suf.length) [] (uint64_lt _)
      rw [List.append_nil, ha] at hd
      unfold readBytes
      rw [hd]
      simp only [hu, int64_of_lt _ hlen, List.length_nil, Nat.sub_zero]
      rw [if_neg (by omega)]
      have hidx : wrapInt64 ((l : Int) + (suf.length : Int)) = (l : Int) + (suf.length : Int) := by
        apply wrapInt64_of_range <;> omega
      rw [hidx, if_neg (by omega), if_pos (by omega)]
    · unfold readBytes
      rw [decodeVarint_varint_cut _ pre a ha ha0]
  · have hbl : bs.length = cs.length + suf.length := by rw [hb, List.length_append]
    have hpl : cs.length ≤ pre.length := by rw [hc, List.length_append]; omega
    have hlen : bs.length < 2 ^ 63 := by omega
    have hu : uint64 (bs.length : Int) = bs.length := uint64_natCast _ (by omega)
    have hd := decodeVarint_varint (E := E) (uint64 bs.length) cs (uint64_lt _)
    rw [← hc] at hd
    unfold readBytes
    rw [hd]
    simp only [hu, int64_of_lt _ hlen]
    rw [if_neg (by omega)]
    have hidx : wrapInt64 (((l - cs.length : Nat) : Int) + (bs.length : Int))
        = ((l - cs.length : Nat) : Int) + (bs.length : Int) := by
      apply wrapInt64_of_range <;> omega
    rw [hidx, if_neg (by omega), if_pos (by omega)]

theorem field_cut_cons (tag : Byte) (body q r : List Byte) (h : q ++ r = tag :: body)
    (hq : q ≠ []) : ∃ q1, q = tag :: q1 ∧ q1 ++ r = body := by
  cases q with
  | nil => exact absurd rfl hq
  | cons b q1 =>
    simp only [List.cons_append, List.cons.injEq] at h
    exact ⟨q1, by rw [h.1], h.2⟩

theorem eq_loop_cut_height {T E : Type} (c : StdTime T E) (l fuel : Nat) (m : Equivocation T)
    (v : Nat) (q r : List Byte) (h : q ++ r = varintField 0x08 v) (hq : q ≠ []) (hr : r ≠ []) :
    Equivocation.unmarshalLoop c l (fuel + 1) m q = some (.error .ErrUnexpectedEOF) := by
  obtain ⟨q1, rfl, hb⟩ := field_cut_cons 0x08 (varint v) q r h hq
  conv_lhs => unfold Equivocation.unmarshalLoop
  rw [if_neg (by simp), decodeVarint_tag 0x08 _ (by norm_num)]
  have h1 : int32 (0x08 >>> 3) = 1 := by decide
  have h2 : (0x08 : Nat) &&& 0x7 = 0 := by decide
  simp only [h1, h2]
  rw [decodeVarint_varint_cut v q1 r hb.symm hr]
  simp

theorem eq_loop_cut_power {T E : Type} (c : StdTime T E) (l fuel : Nat) (m : Equivocation T)
    (v : Nat) (q r : List Byte) (h : q ++ r = varintField 0x18 v) (hq : q ≠ []) (hr : r ≠ []) :
    Equivocation.unmarshalLoop c l (fuel + 1) m q = some (.error .ErrUnexpectedEOF) := by
  obtain ⟨q1, rfl, hb⟩ := field_cut_cons 0x18 (varint v) q r h hq
  conv_lhs => unfold Equivocation.unmarshalLoop
  rw [if_neg (by simp), decodeVarint_tag 0x18 _ (by norm_num)]
  have h1 : int32 (0x18 >>> 3) = 3 := by decide
  have h2 : (0x18 : Nat) &&& 0x7 = 0 := by decide
  simp only [h1, h2]
  rw [decodeVarint_varint_cut v q1 r hb.symm hr]
  simp

theorem eq_loop_cut_time {T E : Type} (c : StdTime T E) (l fuel : Nat) (m : Equivocation T)
    (tb q r : List Byte) (h : q ++ r = bytesField 0x12 tb) (hq : q ≠ []) (hr : r ≠ [])
    (hfit : q.length ≤ l) (hl : l + r.length < 2 ^ 63) :
    Equivocation.unmarshalLoop c l (fuel + 1) m q = some (.error .ErrUnexpectedEOF) := by
  obtain ⟨q1, rfl, hb⟩ := field_cut_cons 0x12 _ q r h hq
  simp only [List.length_cons] at hfit
  conv_lhs => unfold Equivocation.unmarshalLoop
  rw [if_neg (by simp), decodeVarint_tag 0x12 _ (by norm_num)]
  have h1 : int32 (0x12 >>> 3) = 2 := by decide
  have h2 : (0x12 : Nat) &&& 0x7 = 2 := by decide
  simp only [h1, h2]
  rw [readBytes_cut l tb q1 r hb hr (by omega) hl]
  simp

theorem eq_loop_cut_address {T E : Type} (c : StdTime T E) (l fuel : Nat) (m : Equivocation T)
    (bs q r : List Byte) (h : q ++ r = bytesField 0x22 bs) (hq : q ≠ []) (hr : r ≠ [])
    (hfit : q.length ≤ l) (hl : l + r.length < 2 ^ 63) :
    Equivocation.unmarshalLoop c l (fuel + 1) m q = some (.error .ErrUnexpectedEOF) := by
  obtain ⟨q1, rfl, hb⟩ := field_cut_cons 0x22 _ q r h hq
  simp only [List.length_cons] at hfit
  conv_lhs => unfold Equivocation.unmarshalLoop
  rw [if_neg (by simp), decodeVarint_tag 0x22 _ (by norm_num)]
  have h1 : int32 (0x22 >>> 3) = 4 := by decide
  have h2 : (0x22 : Nat) &&& 0x7 = 2 := by decide
  simp only [h1, h2]
  rw [readBytes_cut l bs q1 r hb hr (by omega) hl]
  simp

/-! ## Prefixes of a sequence of fields -/

theorem mem_fieldEnds_zero (fs : List (List Byte)) (h : ∀ f ∈ fs, f ≠ []) : 0 ∉ fieldEnds fs := by
  cases fs with
  | nil => simp [fieldEnds]
  | cons f fs =>
    have hf : f ≠ [] := h f (List.mem_cons_self _ _)
    have hl : f.length ≠ 0 := fun h0 => hf (List.length_eq_zero.mp h0)
    simp only [fieldEnds, List.mem_cons, List.mem_map, not_or, not_exists, not_and]
    exact ⟨fun h0 => hl h0.symm, fun n _ h0 => hl (by omega)⟩

/-- A non-empty prefix of the fields `fs` that ends at the end of none of them consists of
whole fields and a part `q` of the next one, of which a part `r` is missing. -/
theorem cut_in_field (fs : List (List Byte)) :
    ∀ p : List Byte, p <+: fs.flatten → p ≠ [] → p.length ∉ fieldEnds fs →
      ∃ done f later q r, fs = done ++ f :: later ∧ f = q ++ r ∧ q ≠ [] ∧ r ≠ [] ∧
        p = done.flatten ++ q := by
  induction fs with
  | nil =>
    intro p hp hne _
    obtain ⟨t, ht⟩ := hp
    simp only [List.flatten_nil, List.append_eq_nil] at ht
    exact absurd ht.1 hne
  | cons f fs ih =>
    intro p hp hne hend
    simp only [fieldEnds, List.mem_cons, List.mem_map, not_or, not_exists, not_and] at hend
    obtain ⟨t, ht⟩ := hp
    simp only [List.flatten_cons] at ht
    rcases List.append_eq_append_iff.mp ht with ⟨a, ha, hb⟩ | ⟨cs, hc, hb⟩
    · -- `p` is a prefix of `f`
      refine ⟨[], f, fs, p, a, by simp, ha, hne, ?_, by simp⟩
      intro ha0
      subst ha0
      simp only [List.append_nil] at ha
      exact hend.1 (by rw [ha])
    · -- `p` goes beyond `f`
      have hcs : cs ≠ [] := by
        intro h0
        subst h0
        simp only [List.append_nil] at hc
        exact hend.1 (by rw [hc])
      have hpre : cs <+: fs.flatten := ⟨t, hb.symm⟩
      have hnot : cs.length ∉ fieldEnds fs := by
        intro hmem
        exact hend.2 cs.length hmem (by rw [hc, List.length_append])
      obtain ⟨done, g, later, q, r, hfs, hg, hq, hr, hp1⟩ := ih cs hpre hcs hnot
      refine ⟨f :: done, g, later, q, r, by rw [hfs]; simp, hg, hq, hr, ?_⟩
      rw [hc, hp1]; simp

/-- Whole fields in front: if every field of `done` makes the loop take one turn, and the loop
reads `rest` to `r` from every message, it reads the fields and `rest` to `r`. -/
theorem eq_loop_fields {T E : Type} (c : StdTime T E) (l : Nat) (rest : List Byte)
    (r : Except (UnmarshalError E) (Equivocation T))
    (hrest : ∀ (m : Equivocation T) (fuel : Nat), rest.length + 1 ≤ fuel →
      Equivocation.unmarshalLoop c l fuel m rest = some r) :
    ∀ done : List (List Byte),
      (∀ f ∈ done, 1 ≤ f.length ∧ ∀ (fuel : Nat) (m : Equivocation T) (tl : List Byte),
        (f ++ tl).length ≤ l → ∃ m1, Equivocation.unmarshalLoop c l (fuel + 1) m (f ++ tl)
          = Equivocation.unmarshalLoop c l fuel m1 tl) →
      ∀ (m : Equivocation T) (fuel : Nat), (done.flatten ++ rest).length + 1 ≤ fuel →
        (done.flatten ++ rest).length ≤ l →
        Equivocation.unmarshalLoop c l fuel m (done.flatten ++ rest) = some r := by
  intro done
  induction done with
  | nil =>
    intro _ m fuel hf _
    simpa using hrest m fuel (by simpa using hf)
  | cons f done ih =>
    intro hgood m fuel hf hl
    obtain ⟨hpos, hstep⟩ := hgood f (List.mem_cons_self _ _)
    simp only [List.flatten_cons, List.append_assoc] at hf hl ⊢
    rw [List.length_append] at hf
    obtain ⟨g, rfl⟩ : ∃ g, fuel = g + 1 := ⟨fuel - 1, by omega⟩
    obtain ⟨m1, hm1⟩ := hstep g m (done.flatten ++ rest) hl
    rw [hm1]
    rw [List.length_append] at hl
    exact ih (fun x hx => hgood x (List.mem_cons_of_mem _ hx)) m1 g (by omega) (by omega)

/-! ## Truncated input -/

theorem wire_eq_flatten {T : Type} (e : Equivocation T) (tb : List Byte) :
    (e.fields tb).flatten = e.wire tb := by
  unfold Equivocation.fields Equivocation.wire
  by_cases h1 : e.Height ≠ 0 <;> by_cases h2 : e.Power ≠ 0 <;>
    by_cases h3 : 0 < len e.ConsensusAddress <;> simp [h1, h2, h3]

/-- Every encoded field is the field of a tag that the loop knows. -/
theorem fields_shape {T : Type} (e : Equivocation T) (tb : List Byte) :
    ∀ f ∈ e.fields tb,
      (∃ v, v < 2 ^ 64 ∧ f = varintField 0x08 v) ∨ f = bytesField 0x12 tb ∨
      (∃ v, v < 2 ^ 64 ∧ f = varintField 0x18 v) ∨ (∃ bs, f = bytesField 0x22 bs) := by
  intro f hf
  unfold Equivocation.fields at hf
  simp only [List.mem_append, List.mem_singleton] at hf
  rcases hf with ((hf | hf) | hf) | hf
  · split at hf
    · exact Or.inl ⟨_, uint64_lt _, List.mem_singleton.mp hf⟩
    · cases hf
  · exact Or.inr (Or.inl hf)
  · split at hf
    · exact Or.inr (Or.inr (Or.inl ⟨_, uint64_lt _, List.mem_singleton.mp hf⟩))
    · cases hf
  · split at hf
    · exact Or.inr (Or.inr (Or.inr ⟨_, List.mem_singleton.mp hf⟩))
    · cases hf

/-- A whole encoded field makes the loop take one turn. -/
theorem fields_step {T E : Type} (c : StdTime T E) (e : Equivocation T) (tb : List Byte)
    (t1 : T) (hu : c.StdTimeUnmarshal tb = .ok t1) (l : Nat) (hl : l < 2 ^ 63) :
    ∀ f ∈ e.fields tb, 1 ≤ f.length ∧ ∀ (fuel : Nat) (m : Equivocation T) (tl : List Byte),
      (f ++ tl).length ≤ l → ∃ m1, Equivocation.unmarshalLoop c l (fuel + 1) m (f ++ tl)
        = Equivocation.unmarshalLoop c l fuel m1 tl := by
  intro f hf
  rcases fields_shape e tb f hf with ⟨v, hv, rfl⟩ | rfl | ⟨v, hv, rfl⟩ | ⟨bs, rfl⟩
  · exact ⟨varintField_length_pos _ _, fun fuel m tl _ => ⟨_, eq_loop_height c l fuel m v tl hv⟩⟩
  · refine ⟨bytesField_length_pos _ _, fun fuel m tl hfit => ⟨_, eq_loop_time c l fuel m tb tl t1 hu hl ?_⟩⟩
    have := bytesField_length 0x12 tb
    simp only [List.length_append] at hfit ⊢
    omega
  · exact ⟨varintField_length_pos _ _, fun fuel m tl _ => ⟨_, eq_loop_power c l fuel m v tl hv⟩⟩
  · refine ⟨bytesField_length_pos _ _, fun fuel m tl hfit => ⟨_, eq_loop_address c l fuel m bs tl hl ?_⟩⟩
    have := bytesField_length 0x22 bs
    simp only [List.length_append] at hfit ⊢
    omega

/-- An encoded field of which the end is missing makes the loop fail. -/
theorem fields_cut {T E : Type} (c : StdTime T E) (e : Equivocation T) (tb : List Byte)
    (l fuel : Nat) (m : Equivocation T) (f q r : List Byte) (hf : f ∈ e.fields tb)
    (h : f = q ++ r) (hq : q ≠ []) (hr : r ≠ []) (hfit : q.length ≤ l)
    (hl : l + r.length < 2 ^ 63) :
    Equivocation.unmarshalLoop c l (fuel + 1) m q = some (.error .ErrUnexpectedEOF) := by
  rcases fields_shape e tb f hf with ⟨v, _, hv⟩ | hv | ⟨v, _, hv⟩ | ⟨bs, hv⟩
  · exact eq_loop_cut_height c l fuel m v q r (by rw [← h, hv]) hq hr
  · exact eq_loop_cut_time c l fuel m tb q r (by rw [← h, hv]) hq hr hfit hl
  · exact eq_loop_cut_power c l fuel m v q r (by rw [← h, hv]) hq hr
  · exact eq_loop_cut_address c l fuel m bs q r (by rw [← h, hv]) hq hr hfit hl

/-- A prefix of the encoding that ends inside a field is rejected with `ErrUnexpectedEOF`. -/
theorem unmarshal_cut {T E : Type} (c : StdTime T E) (e m : Equivocation T)
    (tb : List Byte) (t1 : T) (hu : c.StdTimeUnmarshal tb = .ok t1)
    (hlen : (e.wire tb).length < 2 ^ 63) (p : List Byte) (hp : p <+: e.wire tb)
    (hne : p ≠ []) (hend : p.length ∉ fieldEnds (e.fields tb)) :
    Equivocation.Unmarshal c m p = some (.error .ErrUnexpectedEOF) := by
  rw [← wire_eq_flatten] at hp
  obtain ⟨done, f, later, q, r, hfs, hf, hq, hr, hpq⟩ := cut_in_field (e.fields tb) p hp hne hend
  have hw : (e.wire tb).length = done.flatten.length + (q.length + r.length)
      + later.flatten.length := by
    rw [← wire_eq_flatten, hfs, hf]
    simp only [List.flatten_append, List.flatten_cons, List.length_append]
    omega
  have hpl : p.length = done.flatten.length + q.length := by rw [hpq, List.length_append]
  have hmem : f ∈ e.fields tb := by rw [hfs]; simp
  unfold Equivocation.Unmarshal
  have hl : p.length < 2 ^ 63 := by omega
  have key := eq_loop_fields c p.length q (.error .ErrUnexpectedEOF)
    (fun m fuel hfuel => by
      obtain ⟨g, rfl⟩ : ∃ g, fuel = g + 1 := ⟨fuel - 1, by omega⟩
      exact fields_cut c e tb p.length g m f q r hmem hf hq hr (by omega) (by omega))
    done
    (fun x hx => fields_step c e tb t1 hu p.length hl x (by rw [hfs]; simp [hx]))
    m (p.length + 1)
  rw [← hpq] at key
  exact key (le_refl _) (le_refl _)

theorem flatten_length_mem_fieldEnds (fs : List (List Byte)) (h : fs ≠ []) :
    fs.flatten.length ∈ fieldEnds fs := by
  induction fs with
  | nil => exact absurd rfl h
  | cons f fs ih =>
    cases fs with
    | nil => simp [fieldEnds]
    | cons g gs =>
      have := ih (by simp)
      simp only [List.flatten_cons, List.length_append, fieldEnds, List.mem_cons, List.mem_map]
        at this ⊢
      right
      exact ⟨_, this, rfl⟩

theorem fields_ne_nil {T : Type} (e : Equivocation T) (tb : List Byte) : e.fields tb ≠ [] := by
  unfold Equivocation.fields
  simp

/-! ## Malformed tags -/

theorem tag_rest_length {E : Type} (rest rest1 : List Byte) (wire : Nat)
    (htag : decodeVarint (E := E) 0 0 rest = .ok (wire, rest1)) : ¬ rest.length = 0 := by
  intro h
  have h0 : rest = [] := List.length_eq_zero.mp h
  subst h0
  simp [decodeVarint] at htag

theorem eq_loop_end_group {T E : Type} (c : StdTime T E) (l fuel : Nat) (m : Equivocation T)
    (rest rest1 : List Byte) (wire : Nat)
    (htag : decodeVarint (E := E) 0 0 rest = .ok (wire, rest1)) (h4 : wire &&& 0x7 = 4) :
    Equivocation.unmarshalLoop c l (fuel + 1) m rest
      = some (.error (.wiretypeEndGroup ("Equivocation"))) := by
  conv_lhs => unfold Equivocation.unmarshalLoop
  rw [if_neg (tag_rest_length rest rest1 wire htag), htag]
  simp only []
  rw [if_pos h4]

theorem eq_loop_illegal_tag {T E : Type} (c : StdTime T E) (l fuel : Nat) (m : Equivocation T)
    (rest rest1 : List Byte) (wire : Nat)
    (htag : decodeVarint (E := E) 0 0 rest = .ok (wire, rest1)) (h4 : wire &&& 0x7 ≠ 4)
    (h0 : int32 (wire >>> 3) ≤ 0) :
    Equivocation.unmarshalLoop c l (fuel + 1) m rest
      = some (.error (.illegalTag ("Equivocation") (int32 (wire >>> 3)) wire)) := by
  conv_lhs => unfold Equivocation.unmarshalLoop
  rw [if_neg (tag_rest_length rest rest1 wire htag), htag]
  simp only []
  rw [if_neg h4, if_pos h0]

theorem eq_loop_wrong_wire_type {T E : Type} (c : StdTime T E) (l fuel : Nat)
    (m : Equivocation T) (rest rest1 : List Byte) (wire : Nat)
    (htag : decodeVarint (E := E) 0 0 rest = .ok (wire, rest1)) (h4 : wire &&& 0x7 ≠ 4) :
    (int32 (wire >>> 3) = 1 → wire &&& 0x7 ≠ 0 →
      Equivocation.unmarshalLoop c l (fuel + 1) m rest
        = some (.error (.wrongWireType (wire &&& 0x7) ("Height")))) ∧
    (int32 (wire >>> 3) = 2 → wire &&& 0x7 ≠ 2 →
      Equivocation.unmarshalLoop c l (fuel + 1) m rest
        = some (.error (.wrongWireType (wire &&& 0x7) ("Time")))) ∧
    (int32 (wire >>> 3) = 3 → wire &&& 0x7 ≠ 0 →
      Equivocation.unmarshalLoop c l (fuel + 1) m rest
        = some (.error (.wrongWireType (wire &&& 0x7) ("Power")))) ∧
    (int32 (wire >>> 3) = 4 → wire &&& 0x7 ≠ 2 →
      Equivocation.unmarshalLoop c l (fuel + 1) m rest
        = some (.error (.wrongWireType (wire &&& 0x7) ("ConsensusAddress")))) := by
  have hne := tag_rest_length rest rest1 wire htag
  refine ⟨fun hf hw => ?_, fun hf hw => ?_, fun hf hw => ?_, fun hf hw => ?_⟩ <;>
  · conv_lhs => unfold Equivocation.unmarshalLoop
    rw [if_neg hne, htag]
    simp only [hf]
    rw [if_neg h4]
    simp [hw]

theorem msg_loop_end_group {E : Type} (l fuel : Nat) (m : MsgSubmitEvidenceBase)
    (rest rest1 : List Byte) (wire : Nat)
    (htag : decodeVarint (E := E) 0 0 rest = .ok (wire, rest1)) (h4 : wire &&& 0x7 = 4) :
    MsgSubmitEvidenceBase.unmarshalLoop (E := E) l (fuel + 1) m rest
      = some (.error (.wiretypeEndGroup ("MsgSubmitEvidenceBase"))) := by
  conv_lhs => unfold MsgSubmitEvidenceBase.unmarshalLoop
  rw [if_neg (tag_rest_length rest rest1 wire htag), htag]
  simp only []
  rw [if_pos h4]

theorem msg_loop_illegal_tag {E : Type} (l fuel : Nat) (m : MsgSubmitEvidenceBase)
    (rest rest1 : List Byte) (wire : Nat)
    (htag : decodeVarint (E := E) 0 0 rest = .ok (wire, rest1)) (h4 : wire &&& 0x7 ≠ 4)
    (h0 : int32 (wire >>> 3) ≤ 0) :
    MsgSubmitEvidenceBase.unmarshalLoop (E := E) l (fuel + 1) m rest
      = some (.error (.illegalTag ("MsgSubmitEvidenceBase") (int32 (wire >>> 3)) wire)) := by
  conv_lhs => unfold MsgSubmitEvidenceBase.unmarshalLoop
  rw [if_neg (tag_rest_length rest rest1 wire htag), htag]
  simp only []
  rw [if_neg h4, if_pos h0]

theorem msg_loop_wrong_wire_type {E : Type} (l fuel : Nat) (m : MsgSubmitEvidenceBase)
    (rest rest1 : List Byte) (wire : Nat)
    (htag : decodeVarint (E := E) 0 0 rest = .ok (wire, rest1)) (h4 : wire &&& 0x7 ≠ 4)
    (hf : int32 (wire >>> 3) = 1) (hw : wire &&& 0x7 ≠ 2) :
    MsgSubmitEvidenceBase.unmarshalLoop (E := E) l (fuel + 1) m rest
      = some (.error (.wrongWireType (wire &&& 0x7) ("Submitter"))) := by
  conv_lhs => unfold MsgSubmitEvidenceBase.unmarshalLoop
  rw [if_neg (tag_rest_length rest rest1 wire htag), htag]
  simp only [hf]
  rw [if_neg h4]
  simp [hw]

/-- A malformed tag makes the loop of `Equivocation.Unmarshal` fail, with an error that depends
on the tag alone. -/
theorem eq_loop_bad_tag {T E : Type} (c : StdTime T E) (rest rest1 : List Byte) (wire : Nat)
    (htag : decodeVarint (E := E) 0 0 rest = .ok (wire, rest1))
    (hbad : wire &&& 0x7 = 4 ∨ int32 (wire >>> 3) = 0 ∨
      ((int32 (wire >>> 3) = 1 ∨ int32 (wire >>> 3) = 3) ∧ wire &&& 0x7 ≠ 0) ∨
      ((int32 (wire >>> 3) = 2 ∨ int32 (wire >>> 3) = 4) ∧ wire &&& 0x7 ≠ 2)) :
    ∃ err : UnmarshalError E, ∀ (l fuel : Nat) (m : Equivocation T),
      Equivocation.unmarshalLoop c l (fuel + 1) m rest = some (.error err) := by
  by_cases h4 : wire &&& 0x7 = 4
  · exact ⟨_, fun l fuel m => eq_loop_end_group c l fuel m rest rest1 wire htag h4⟩
  · rcases hbad with h | h | ⟨h | h, hw⟩ | ⟨h | h, hw⟩
    · exact absurd h h4
    · exact ⟨_, fun l fuel m =>
        eq_loop_illegal_tag c l fuel m rest rest1 wire htag h4 (le_of_eq h)⟩
    · exact ⟨_, fun l fuel m =>
        (eq_loop_wrong_wire_type c l fuel m rest rest1 wire htag h4).1 h hw⟩
    · exact ⟨_, fun l fuel m =>
        (eq_loop_wrong_wire_type c l fuel m rest rest1 wire htag h4).2.2.1 h hw⟩
    · exact ⟨_, fun l fuel m =>
        (eq_loop_wrong_wire_type c l fuel m rest rest1 wire htag h4).2.1 h hw⟩
    · exact ⟨_, fun l fuel m =>
        (eq_loop_wrong_wire_type c l fuel m rest rest1 wire htag h4).2.2.2 h hw⟩

/-- A malformed tag makes the loop of `MsgSubmitEvidenceBase.Unmarshal` fail. -/
theorem msg_loop_bad_tag {E : Type} (rest rest1 : List Byte) (wire : Nat)
    (htag : decodeVarint (E := E) 0 0 rest = .ok (wire, rest1))
    (hbad : wire &&& 0x7 = 4 ∨ int32 (wire >>> 3) = 0 ∨
      (int32 (wire >>> 3) = 1 ∧ wire &&& 0x7 ≠ 2)) :
    ∃ err : UnmarshalError E, ∀ (l fuel : Nat) (m : MsgSubmitEvidenceBase),
      MsgSubmitEvidenceBase.unmarshalLoop l (fuel + 1) m rest = some (.error err) := by
  by_cases h4 : wire &&& 0x7 = 4
  · exact ⟨_, fun l fuel m => msg_loop_end_group l fuel m rest rest1 wire htag h4⟩
  · rcases hbad with h | h | ⟨h, hw⟩
    · exact absurd h h4
    · exact ⟨_, fun l fuel m => msg_loop_illegal_tag l fuel m rest rest1 wire htag h4 (le_of_eq h)⟩
    · exact ⟨_, fun l fuel m => msg_loop_wrong_wire_type l fuel m rest rest1 wire htag h4 h hw⟩

/-- A malformed tag after the encoded fields of a message: `Unmarshal` reads the fields and
fails at the tag. -/
theorem unmarshal_fields_bad_tag {T E : Type} (c : StdTime T E) (m e : Equivocation T)
    (tb : List Byte) (t1 : T) (hu : c.StdTimeUnmarshal tb = .ok t1)
    (rest rest1 : List Byte) (wire : Nat)
    (hlen : (e.wire tb ++ rest).length < 2 ^ 63)
    (htag : decodeVarint (E := E) 0 0 rest = .ok (wire, rest1))
    (hbad : wire &&& 0x7 = 4 ∨ int32 (wire >>> 3) = 0 ∨
      ((int32 (wire >>> 3) = 1 ∨ int32 (wire >>> 3) = 3) ∧ wire &&& 0x7 ≠ 0) ∨
      ((int32 (wire >>> 3) = 2 ∨ int32 (wire >>> 3) = 4) ∧ wire &&& 0x7 ≠ 2)) :
    ∃ err : UnmarshalError E,
      Equivocation.Unmarshal c m (e.wire tb ++ rest) = some (.error err) := by
  obtain ⟨err, herr⟩ := eq_loop_bad_tag (T := T) c rest rest1 wire htag hbad
  refine ⟨err, ?_⟩
  unfold Equivocation.Unmarshal
  have key := eq_loop_fields c (e.wire tb ++ rest).length rest (.error err)
    (fun m fuel hfuel => by
      obtain ⟨g, rfl⟩ : ∃ g, fuel = g + 1 := ⟨fuel - 1, by omega⟩
      exact herr _ g m)
    (e.fields tb) (fields_step c e tb t1 hu _ hlen) m ((e.wire tb ++ rest).length + 1)
  rw [wire_eq_flatten] at key
  exact key (le_refl _) (le_refl _)

/-! ## C23: truncated input -/

/-- C23: truncated input is rejected. For every `Equivocation` `e` whose Time is marshalled as
`tb`, which `StdTimeUnmarshal` reads back, `Marshal(e)` is the encoded fields of `e` one after
the other, and for every prefix `p` of it that ends at no boundary of a field, neither at the
start of the buffer nor at the end of an encoded field (so `p` is a proper prefix, cut after a
tag, inside a varint or inside the bytes of a field), `Unmarshal(p)` returns
`io.ErrUnexpectedEOF`, on every receiver `m`: it does not succeed with a partially read
field. The encoding is shorter than 2^63 bytes. -/
theorem truncated_input_rejected {T E : Type} (c : StdTime T E) (e m : Equivocation T)
    (tb : List Byte) (t1 : T) (hm : c.StdTimeMarshal e.Time = .ok tb)
    (hs : c.SizeOfStdTime e.Time = tb.length) (hu : c.StdTimeUnmarshal tb = .ok t1)
    (hlen : (e.wire tb).length < 2 ^ 63) (p : List Byte) (hp : p <+: e.wire tb)
    (hend : p.length ∉ fieldBoundaries (e.fields tb)) :
    e.Marshal c = some (.ok (e.wire tb)) ∧ (e.fields tb).flatten = e.wire tb ∧
    p ≠ e.wire tb ∧
    Equivocation.Unmarshal c m p = some (.error .ErrUnexpectedEOF) ∧
    ∀ m1, Equivocation.Unmarshal c m p ≠ some (.ok m1) := by
  simp only [fieldBoundaries, List.mem_cons, not_or] at hend
  have hne : p ≠ [] := by
    intro h0
    apply hend.1
    rw [h0]
    rfl
  have hcut := unmarshal_cut c e m tb t1 hu hlen p hp hne hend.2
  refine ⟨equivocation_marshal c e tb hm hs, wire_eq_flatten e tb, ?_, hcut, ?_⟩
  · intro h
    apply hend.2
    rw [h, ← wire_eq_flatten]
    exact flatten_length_mem_fieldEnds _ (fields_ne_nil e tb)
  · intro m1 h
    rw [hcut] at h
    cases h

/-- The encoding of an `Equivocation`, whose fields end at the offsets 2, 5, 8 and 13, cut
inside the varint of Power, at the offset 7. -/
theorem truncated_input_rejected_witness :
    Equivocation.Marshal sampleTime (⟨3, 5, 300, some [1, 2, 3]⟩ : Equivocation Nat)
      = some (.ok [0x08, 3, 0x12, 1, 5, 0x18, 0xac, 0x02, 0x22, 3, 1, 2, 3]) ∧
    fieldBoundaries (Equivocation.fields (⟨3, 5, 300, some [1, 2, 3]⟩ : Equivocation Nat) [5])
      = [0, 2, 5, 8, 13] ∧
    Equivocation.Unmarshal sampleTime (⟨0, 0, 0, none⟩ : Equivocation Nat)
      [0x08, 3, 0x12, 1, 5, 0x18, 0xac] = some (.error .ErrUnexpectedEOF) :=
  ⟨(truncated_input_rejected sampleTime ⟨3, 5, 300, some [1, 2, 3]⟩ ⟨0, 0, 0, none⟩ [5] 5
      rfl rfl rfl (by decide) [0x08, 3, 0x12, 1, 5, 0x18, 0xac] ⟨[0x02, 0x22, 3, 1, 2, 3], rfl⟩
      (by decide)).1,
   by decide,
   (truncated_input_rejected sampleTime ⟨3, 5, 300, some [1, 2, 3]⟩ ⟨0, 0, 0, none⟩ [5] 5
      rfl rfl rfl (by decide) [0x08, 3, 0x12, 1, 5, 0x18, 0xac] ⟨[0x02, 0x22, 3, 1, 2, 3], rfl⟩
      (by decide)).2.2.2.1⟩

/-! ## C24: malformed tags -/

/-- C24: when the loop of `Unmarshal`, of an `Equivocation` or of a `MsgSubmitEvidenceBase`,
at any turn (any buffer length `l`, any message read so far) reads at the start of the bytes
left a tag `wire`, it returns an error in each of these cases: a tag of wire type 4 (the
end-group error); a tag of field number 0 (the illegal-tag error, unless the wire type is 4);
a tag of a known field whose wire type is not the declared one, 0 for Height and Power, 2 for
Time, ConsensusAddress and Submitter (the wrong-wire-type error, unless the wire type is 4).
In particular `Unmarshal` returns an error on an input that starts with such a tag, and on
the encoding of an `Equivocation` followed by such a tag. -/
theorem malformed_tags_rejected {T E : Type} (c : StdTime T E) (l fuel : Nat)
    (m : Equivocation T) (b : MsgSubmitEvidenceBase) (rest rest1 : List Byte) (wire : Nat)
    (htag : decodeVarint (E := E) 0 0 rest = .ok (wire, rest1)) :
    (wire &&& 0x7 = 4 →
      Equivocation.unmarshalLoop c l (fuel + 1) m rest
        = some (.error (.wiretypeEndGroup ("Equivocation"))) ∧
      MsgSubmitEvidenceBase.unmarshalLoop (E := E) l (fuel + 1) b rest
        = some (.error (.wiretypeEndGroup ("MsgSubmitEvidenceBase")))) ∧
    (int32 (wire >>> 3) = 0 → wire &&& 0x7 ≠ 4 →
      Equivocation.unmarshalLoop c l (fuel + 1) m rest
        = some (.error (.illegalTag ("Equivocation") 0 wire)) ∧
      MsgSubmitEvidenceBase.unmarshalLoop (E := E) l (fuel + 1) b rest
        = some (.error (.illegalTag ("MsgSubmitEvidenceBase") 0 wire))) ∧
    (wire &&& 0x7 ≠ 4 →
      (int32 (wire >>> 3) = 1 → wire &&& 0x7 ≠ 0 →
        Equivocation.unmarshalLoop c l (fuel + 1) m rest
          = some (.error (.wrongWireType (wire &&& 0x7) ("Height")))) ∧
      (int32 (wire >>> 3) = 2 → wire &&& 0x7 ≠ 2 →
        Equivocation.unmarshalLoop c l (fuel + 1) m rest
          = some (.error (.wrongWireType (wire &&& 0x7) ("Time")))) ∧
      (int32 (wire >>> 3) = 3 → wire &&& 0x7 ≠ 0 →
        Equivocation.unmarshalLoop c l (fuel + 1) m rest
          = some (.error (.wrongWireType (wire &&& 0x7) ("Power")))) ∧
      (int32 (wire >>> 3) = 4 → wire &&& 0x7 ≠ 2 →
        Equivocation.unmarshalLoop c l (fuel + 1) m rest
          = some (.error (.wrongWireType (wire &&& 0x7) ("ConsensusAddress")))) ∧
      (int32 (wire >>> 3) = 1 → wire &&& 0x7 ≠ 2 →
        MsgSubmitEvidenceBase.unmarshalLoop (E := E) l (fuel + 1) b rest
          = some (.error (.wrongWireType (wire &&& 0x7) ("Submitter"))))) ∧
    ((wire &&& 0x7 = 4 ∨ int32 (wire >>> 3) = 0 ∨
        ((int32 (wire >>> 3) = 1 ∨ int32 (wire >>> 3) = 3) ∧ wire &&& 0x7 ≠ 0) ∨
        ((int32 (wire >>> 3) = 2 ∨ int32 (wire >>> 3) = 4) ∧ wire &&& 0x7 ≠ 2)) →
      (∃ err, Equivocation.unmarshalLoop c l (fuel + 1) m rest = some (.error err)) ∧
      (∃ err, Equivocation.Unmarshal c m rest = some (.error err)) ∧
      ∀ (e : Equivocation T) (tb : List Byte) (t1 : T), c.StdTimeUnmarshal tb = .ok t1 →
        (e.wire tb ++ rest).length < 2 ^ 63 →
        ∃ err, Equivocation.Unmarshal c m (e.wire tb ++ rest) = some (.error err)) ∧
    ((wire &&& 0x7 = 4 ∨ int32 (wire >>> 3) = 0 ∨
        (int32 (wire >>> 3) = 1 ∧ wire &&& 0x7 ≠ 2)) →
      (∃ err, MsgSubmitEvidenceBase.unmarshalLoop (E := E) l (fuel + 1) b rest
        = some (.error err)) ∧
      ∃ err, MsgSubmitEvidenceBase.Unmarshal (E := E) b rest = some (.error err)) := by
  refine ⟨fun h4 => ⟨eq_loop_end_group c l fuel m rest rest1 wire htag h4,
      msg_loop_end_group l fuel b rest rest1 wire htag h4⟩, fun h0 h4 => ?_, fun h4 => ?_,
    fun hbad => ?_, fun hbad => ?_⟩
  · have h1 := eq_loop_illegal_tag c l fuel m rest rest1 wire htag h4 (le_of_eq h0)
    have h2 := msg_loop_illegal_tag l fuel b rest rest1 wire htag h4 (le_of_eq h0)
    rw [h0] at h1 h2
    exact ⟨h1, h2⟩
  · obtain ⟨a1, a2, a3, a4⟩ := eq_loop_wrong_wire_type c l fuel m rest rest1 wire htag h4
    exact ⟨a1, a2, a3, a4,
      fun hf hw => msg_loop_wrong_wire_type l fuel b rest rest1 wire htag h4 hf hw⟩
  · obtain ⟨err, herr⟩ := eq_loop_bad_tag (T := T) c rest rest1 wire htag hbad
    exact ⟨⟨err, herr l fuel m⟩, ⟨err, herr _ _ m⟩,
      fun e tb t1 hu hlen => unmarshal_fields_bad_tag c m e tb t1 hu rest rest1 wire hlen htag hbad⟩
  · obtain ⟨err, herr⟩ := msg_loop_bad_tag rest rest1 wire htag hbad
    exact ⟨⟨err, herr l fuel b⟩, ⟨err, herr _ _ b⟩⟩

/-- The tag 0x09 (Height with wire type 1), the tag 0x04 (field number 0, wire type 4) and the
tag 0x08 (Submitter with wire type 0). -/
theorem malformed_tags_rejected_witness :
    Equivocation.unmarshalLoop sampleTime 2 2 (⟨0, 0, 0, none⟩ : Equivocation Nat) [0x09, 1]
      = some (.error (.wrongWireType 1 ("Height"))) ∧
    Equivocation.unmarshalLoop sampleTime 1 2 (⟨0, 0, 0, none⟩ : Equivocation Nat) [0x04]
      = some (.error (.wiretypeEndGroup ("Equivocation"))) ∧
    MsgSubmitEvidenceBase.unmarshalLoop (E := Nat) 2 2 ⟨none⟩ [0x08, 1]
      = some (.error (.wrongWireType 0 ("Submitter"))) ∧
    MsgSubmitEvidenceBase.unmarshalLoop (E := Nat) 1 2 ⟨none⟩ [0x02]
      = some (.error (.illegalTag ("MsgSubmitEvidenceBase") 0 2)) :=
  ⟨((malformed_tags_rejected sampleTime 2 1 ⟨0, 0, 0, none⟩ ⟨none⟩ [0x09, 1] [1] 9 rfl).2.2.1
      (by decide)).1 (by decide) (by decide),
   ((malformed_tags_rejected sampleTime 1 1 ⟨0, 0, 0, none⟩ ⟨none⟩ [0x04] [] 4 rfl).1
      (by decide)).1,
   ((malformed_tags_rejected sampleTime 2 1 ⟨0, 0, 0, none⟩ ⟨none⟩ [0x08, 1] [1] 8 rfl).2.2.1
      (by decide)).2.2.2.2 (by decide) (by decide),
   ((malformed_tags_rejected sampleTime 1 1 ⟨0, 0, 0, none⟩ ⟨none⟩ [0x02] [] 2 rfl).2.1
      (by decide) (by decide)).2⟩

end Evidence

namespace Gov

variable {A : Type} [DecidableEq A]

set_option linter.unusedSectionVars false

/-! ## Tallies as sums -/

theorem get_add (t : TallyResult) (o1 o : VoteOption) (n : Nat) :
    (t.add o1 n).get o = t.get o + if o1 = o then n else 0 := by
  cases o1 <;> cases o <;> simp [TallyResult.add, TallyResult.get]

theorem get_empty (o : VoteOption) : EmptyTallyResult.get o = 0 := by
  cases o <;> rfl

theorem tallyResult_ext (t u : TallyResult) (h : ∀ o, t.get o = u.get o) : t = u := by
  have h1 := h .OptionYes
  have h2 := h .OptionNo
  have h3 := h .OptionAbstain
  have h4 := h .OptionNoWithVeto
  cases t
  cases u
  simp only [TallyResult.get] at h1 h2 h3 h4
  simp [h1, h2, h3, h4]

/-- The fold of `Tally` adds, to every option, the stake that counts for it. -/
theorem foldl_tally (f : Delegation A → Option VoteOption) (o : VoteOption)
    (ds : List (Delegation A)) :
    ∀ t : TallyResult,
      (ds.foldl (fun t d => match f d with
        | some o => t.add o d.Tokens
        | none => t) t).get o
      = t.get o + (ds.map (fun d => if f d = some o then d.Tokens else 0)).sum := by
  induction ds with
  | nil => intro t; simp
  | cons d ds ih =>
    intro t
    rw [List.foldl_cons, ih]
    cases hf : f d with
    | none => simp [hf]
    | some o1 =>
      simp only [hf, List.map_cons, List.sum_cons, get_add, Option.some.injEq]
      omega

theorem sum_map_sum_comm {α β : Type} (xs : List α) (ys : List β) (f : α → β → Nat) :
    (xs.map (fun x => (ys.map (fun y => f x y)).sum)).sum
      = (ys.map (fun y => (xs.map (fun x => f x y)).sum)).sum := by
  induction xs with
  | nil => simp
  | cons x xs ih =>
    simp only [List.map_cons, List.sum_cons, ih, List.sum_map_add]

/-! ## The live vote of a voter -/

theorem getVote_some (k : Keeper A) (id : Nat) (a : A) (w : Vote A)
    (h : k.GetVote id a = some w) : w ∈ k.Votes ∧ w.ProposalID = id ∧ w.Voter = a := by
  unfold Keeper.GetVote at h
  have h1 := List.mem_of_find?_eq_some h
  have h2 := List.find?_some h
  simp only [decide_eq_true_eq] at h2
  exact ⟨h1, h2.1, h2.2⟩

theorem getVote_none (k : Keeper A) (id : Nat) (a : A) (h : k.GetVote id a = none) :
    ∀ v ∈ k.Votes, ¬ (v.ProposalID = id ∧ v.Voter = a) := by
  unfold Keeper.GetVote at h
  intro v hv
  have := List.find?_eq_none.mp h v hv
  simpa using this

theorem vote_unique (k : Keeper A) (hk : k.oneVotePerVoter) (v w : Vote A) (hv : v ∈ k.Votes)
    (hw : w ∈ k.Votes) (hid : v.ProposalID = w.ProposalID) (ha : v.Voter = w.Voter) :
    v = w :=
  List.inj_on_of_nodup_map hk hv hw (by simp [hid, ha])

theorem getVote_of_mem (k : Keeper A) (hk : k.oneVotePerVoter) (w : Vote A)
    (hw : w ∈ k.Votes) : k.GetVote w.ProposalID w.Voter = some w := by
  cases h : k.GetVote w.ProposalID w.Voter with
  | none => exact absurd ⟨rfl, rfl⟩ (getVote_none k _ _ h w hw)
  | some u =>
    obtain ⟨hu, hid, ha⟩ := getVote_some k _ _ u h
    rw [vote_unique k hk u w hu hw hid ha]

/-! ## The power that counts for an option -/

/-- No vote of `a` among the votes for option `o` on the proposal: nothing is added. -/
theorem sum_votes_zero (vs : List (Vote A)) (id : Nat) (o : VoteOption) (a : A) (n : Nat)
    (h : ∀ v ∈ vs, v.ProposalID = id → v.Option = o → a ≠ v.Voter) :
    ((vs.filter (fun v => v.ProposalID = id ∧ v.Option = o)).map
      (fun v => if a = v.Voter then n else 0)).sum = 0 := by
  apply List.sum_eq_zero
  intro x hx
  obtain ⟨v, hv, rfl⟩ := List.mem_map.mp hx
  obtain ⟨hmem, hp⟩ := List.mem_filter.mp hv
  simp only [decide_eq_true_eq] at hp
  rw [if_neg (h v hmem hp.1 hp.2)]

/-- One vote of `a` for option `o` on the proposal, and no second vote of `a` on it: its
power is added once. -/
theorem sum_votes_one (vs : List (Vote A)) (id : Nat) (o : VoteOption) (a : A) (n : Nat)
    (hk : (vs.map (fun v => (v.ProposalID, v.Voter))).Nodup) (w : Vote A) (hw : w ∈ vs)
    (hid : w.ProposalID = id) (ha : w.Voter = a) (ho : w.Option = o) :
    ((vs.filter (fun v => v.ProposalID = id ∧ v.Option = o)).map
      (fun v => if a = v.Voter then n else 0)).sum = n := by
  induction vs with
  | nil => cases hw
  | cons v vs ih =>
    simp only [List.map_cons, List.nodup_cons, List.mem_map, not_exists, not_and] at hk
    rcases List.mem_cons.mp hw with rfl | hw1
    · have hz := sum_votes_zero vs id o a n (fun u hu huid _ hau =>
        hk.1 u hu (by rw [huid, hid, ← hau, ha]))
      rw [List.filter_cons_of_pos (by simp [hid, ho]), List.map_cons, List.sum_cons, hz,
        if_pos ha.symm]
      rfl
    · have hne : ¬ (v.ProposalID = id ∧ a = v.Voter) := by
        intro hva
        exact hk.1 w hw1 (by rw [hid, ha, hva.1, hva.2])
      by_cases hp : v.ProposalID = id ∧ v.Option = o
      · rw [List.filter_cons_of_pos (by simpa using hp), List.map_cons, List.sum_cons,
          ih hk.2 hw1, if_neg (fun h => hne ⟨hp.1, h⟩)]
        simp
      · rw [List.filter_cons_of_neg (by simpa using hp)]
        exact ih hk.2 hw1

/-- The votes for option `o` on the proposal add the amount `n` for the address `a` once if
the live vote of `a` is for `o`, and not at all otherwise. -/
theorem sum_votes_indicator (k : Keeper A) (hk : k.oneVotePerVoter) (id : Nat)
    (o : VoteOption) (a : A) (n : Nat) :
    ((k.Votes.filter (fun v => v.ProposalID = id ∧ v.Option = o)).map
      (fun v => if a = v.Voter then n else 0)).sum
      = if (k.GetVote id a).map (fun v => v.Option) = some o then n else 0 := by
  cases h : k.GetVote id a with
  | none =>
    simp only [Option.map_none', reduceCtorEq, if_false]
    apply sum_votes_zero
    intro v hv hid _ hav
    exact getVote_none k id a h v hv ⟨hid, hav.symm⟩
  | some w =>
    obtain ⟨hw, hid, ha⟩ := getVote_some k id a w h
    simp only [Option.map_some', Option.some.injEq]
    by_cases ho : w.Option = o
    · rw [if_pos ho]
      exact sum_votes_one k.Votes id o a n hk w hw hid ha ho
    · rw [if_neg ho]
      apply sum_votes_zero
      intro v hv hvid hvo hav
      have : v = w := vote_unique k hk v w hv hw (by rw [hvid, hid]) (by rw [← hav, ha])
      exact ho (by rw [← this, hvo])

/-- The stake of a delegation is in the power of exactly the voter for whose option it
counts. -/
theorem sum_votes_delegation (k : Keeper A) (hk : k.oneVotePerVoter) (id : Nat)
    (o : VoteOption) (d : Delegation A) :
    ((k.Votes.filter (fun v => v.ProposalID = id ∧ v.Option = o)).map
      (fun v =>
        if d.DelegatorAddress = v.Voter then d.Tokens
        else if d.ValidatorAddress = v.Voter ∧ (k.GetVote id d.DelegatorAddress).isNone then
          d.Tokens
        else 0)).sum
      = if k.countedOption id d = some o then d.Tokens else 0 := by
  unfold Keeper.countedOption
  cases h : k.GetVote id d.DelegatorAddress with
  | some w =>
    have := sum_votes_indicator k hk id o d.DelegatorAddress d.Tokens
    rw [h] at this
    simp only [Option.isNone_some, Bool.false_eq_true, and_false, if_false]
    simpa using this
  | none =>
    have hD := getVote_none k id _ h
    have hcongr : (k.Votes.filter (fun v => v.ProposalID = id ∧ v.Option = o)).map
        (fun v =>
          if d.DelegatorAddress = v.Voter then d.Tokens
          else if d.ValidatorAddress = v.Voter ∧ (none : Option (Vote A)).isNone then d.Tokens
          else 0)
        = (k.Votes.filter (fun v => v.ProposalID = id ∧ v.Option = o)).map
        (fun v => if d.ValidatorAddress = v.Voter then d.Tokens else 0) := by
      apply List.map_congr_left
      intro v hv
      obtain ⟨hmem, hp⟩ := List.mem_filter.mp hv
      simp only [decide_eq_true_eq] at hp
      have hne : ¬ d.DelegatorAddress = v.Voter := fun he => hD v hmem ⟨hp.1, he.symm⟩
      simp [hne]
    rw [hcongr, sum_votes_indicator k hk id o d.ValidatorAddress d.Tokens]
    cases k.GetVote id d.ValidatorAddress <;> simp

/-- The tally of a proposal holds, for every option, the sum of the voting power of the
voters whose live vote is for that option. -/
theorem tally_get (k : Keeper A) (hk : k.oneVotePerVoter) (p : Proposal) (o : VoteOption) :
    (k.Tally p).get o
      = ((k.Votes.filter (fun v => v.ProposalID = p.ProposalID ∧ v.Option = o)).map
          (fun v => k.votingPower p.ProposalID v.Voter)).sum := by
  unfold Keeper.Tally Keeper.votingPower
  rw [foldl_tally, get_empty, Nat.zero_add, sum_map_sum_comm]
  apply congrArg
  apply List.map_congr_left
  intro d _
  exact (sum_votes_delegation k hk p.ProposalID o d).symm

/-- Without a vote on the proposal the tally is empty. -/
theorem tally_no_votes (k : Keeper A) (p : Proposal)
    (h : ∀ v ∈ k.Votes, v.ProposalID ≠ p.ProposalID) : k.Tally p = EmptyTallyResult := by
  apply tallyResult_ext
  intro o
  unfold Keeper.Tally
  rw [foldl_tally, get_empty, Nat.zero_add]
  apply List.sum_eq_zero
  intro x hx
  obtain ⟨d, _, rfl⟩ := List.mem_map.mp hx
  have hn : ∀ a, k.GetVote p.ProposalID a = none := by
    intro a
    cases hg : k.GetVote p.ProposalID a with
    | none => rfl
    | some w =>
      obtain ⟨hw, hid, _⟩ := getVote_some k _ _ w hg
      exact absurd hid (h w hw)
  simp [Keeper.countedOption, hn]

theorem getProposal_some (k : Keeper A) (id : Nat) (p : Proposal)
    (h : k.GetProposal id = some p) : p.ProposalID = id := by
  unfold Keeper.GetProposal at h
  simpa using List.find?_some h

/-! ## Storing a vote -/

theorem getVote_setVote_same (k : Keeper A) (v : Vote A) :
    (k.SetVote v).GetVote v.ProposalID v.Voter = some v := by
  simp [Keeper.SetVote, Keeper.GetVote]

theorem find_filter_other (vs : List (Vote A)) (v : Vote A) (id : Nat) (a : A)
    (h : ¬ (v.ProposalID = id ∧ v.Voter = a)) :
    (vs.filter (fun u => ¬ (u.ProposalID = v.ProposalID ∧ u.Voter = v.Voter))).find?
        (fun u => u.ProposalID = id ∧ u.Voter = a)
      = vs.find? (fun u => u.ProposalID = id ∧ u.Voter = a) := by
  induction vs with
  | nil => rfl
  | cons u us ih =>
    by_cases hu : u.ProposalID = v.ProposalID ∧ u.Voter = v.Voter
    · have hne : ¬ (u.ProposalID = id ∧ u.Voter = a) := by
        intro hua
        exact h ⟨by rw [← hu.1, hua.1], by rw [← hu.2, hua.2]⟩
      rw [List.filter_cons_of_neg (by simpa using hu), List.find?_cons_of_neg _ (by simpa using hne)]
      exact ih
    · rw [List.filter_cons_of_pos (by simp only [decide_eq_true_eq]; exact hu)]
      by_cases hua : u.ProposalID = id ∧ u.Voter = a
      · rw [List.find?_cons_of_pos _ (by simpa using hua),
          List.find?_cons_of_pos _ (by simpa using hua)]
      · rw [List.find?_cons_of_neg _ (by simpa using hua),
          List.find?_cons_of_neg _ (by simpa using hua)]
        exact ih

theorem getVote_setVote_other (k : Keeper A) (v : Vote A) (id : Nat) (a : A)
    (h : ¬ (v.ProposalID = id ∧ v.Voter = a)) :
    (k.SetVote v).GetVote id a = k.GetVote id a := by
  unfold Keeper.SetVote Keeper.GetVote
  simp only []
  rw [List.find?_cons_of_neg _ (by simpa using h)]
  exact find_filter_other k.Votes v id a h

theorem oneVotePerVoter_setVote (k : Keeper A) (v : Vote A) (hk : k.oneVotePerVoter) :
    (k.SetVote v).oneVotePerVoter := by
  unfold Keeper.oneVotePerVoter Keeper.SetVote at *
  simp only [List.map_cons, List.nodup_cons, List.mem_map, List.mem_filter, not_exists, not_and]
  refine ⟨?_, ?_⟩
  · intro u hu hkey
    obtain ⟨_, hp⟩ := hu
    simp only [Prod.mk.injEq] at hkey
    simp [hkey.1, hkey.2] at hp
  · exact List.Nodup.sublist (List.Sublist.map _ (List.filter_sublist _)) hk

/-! ## C21: the reported tally -/

/-- The scenario of `TestGRPCQueryTally`: three validators of power 5 vote Yes. -/
theorem tally_three_validators (a0 a1 a2 : A) (h01 : a0 ≠ a1) (h02 : a0 ≠ a2) (h12 : a1 ≠ a2)
    (id : Nat) (final : TallyResult) :
    let k1 : Keeper A := (createValidators ⟨[], [], []⟩ [a0, a1, a2] [5, 5, 5]).SetProposal
      ⟨id, .StatusVotingPeriod, final⟩
    let k2 := k1.SetVote (NewVote id a0 .OptionYes)
    let k3 := k2.SetVote (NewVote id a1 .OptionYes)
    let k4 := k3.SetVote (NewVote id a2 .OptionYes)
    k1.AddVote id a0 .OptionYes = .ok k2 ∧
    k2.AddVote id a1 .OptionYes = .ok k3 ∧
    k3.AddVote id a2 .OptionYes = .ok k4 ∧
    k4.TallyResult id
      = .ok { Yes := 3 * 5 * 1000000, No := 0, Abstain := 0, NoWithVeto := 0 } := by
  have h10 := h01.symm
  have h20 := h02.symm
  have h21 := h12.symm
  intro k1 k2 k3 k4
  refine ⟨?_, ?_, ?_, ?_⟩
  · simp [k1, k2, createValidators, Keeper.SetProposal, Keeper.AddVote, Keeper.GetProposal]
  · simp [k1, k2, k3, createValidators, Keeper.SetProposal, Keeper.AddVote, Keeper.GetProposal,
      Keeper.SetVote]
  · simp [k1, k2, k3, k4, createValidators, Keeper.SetProposal, Keeper.AddVote,
      Keeper.GetProposal, Keeper.SetVote]
  · simp [k1, k2, k3, k4, createValidators, Keeper.SetProposal, Keeper.GetProposal,
      Keeper.TallyResult, Keeper.Tally, Keeper.countedOption, Keeper.GetVote,
      Keeper.SetVote, NewVote, ProposalStatus.isTerminal,
      TallyResult.add, EmptyTallyResult, h01, h02, h12, h10, h20, h21]
    unfold TokensFromConsensusPower
    omega

/-- C21: for every stored proposal, as long as its status is not terminal the tally reported
for it holds, for each option, the sum of the voting power of the voters whose live vote on
the proposal is for that option (at most one live vote per proposal and voter being stored);
a proposal on which nobody voted has the empty tally, which is zero for every option; with
three validators of power 5 each all voting Yes the tally is Yes = 3*5*1000000 and zero for
the other options; and once the status is terminal the reported tally is the stored final
tally. -/
theorem tally_reported (k : Keeper A) (proposalID : Nat) (p : Proposal)
    (hp : k.GetProposal proposalID = some p) :
    (p.Status.isTerminal = false → k.oneVotePerVoter →
      ∃ t, k.TallyResult proposalID = .ok t ∧ ∀ o, t.get o =
        ((k.Votes.filter (fun v => v.ProposalID = proposalID ∧ v.Option = o)).map
          (fun v => k.votingPower proposalID v.Voter)).sum) ∧
    (p.Status.isTerminal = false → (∀ v ∈ k.Votes, v.ProposalID ≠ proposalID) →
      k.TallyResult proposalID = .ok EmptyTallyResult ∧ ∀ o, EmptyTallyResult.get o = 0) ∧
    (∀ a0 a1 a2 : A, a0 ≠ a1 → a0 ≠ a2 → a1 ≠ a2 → ∀ (id : Nat) (final : TallyResult),
      let k1 : Keeper A := (createValidators ⟨[], [], []⟩ [a0, a1, a2] [5, 5, 5]).SetProposal
        ⟨id, .StatusVotingPeriod, final⟩
      let k2 := k1.SetVote (NewVote id a0 .OptionYes)
      let k3 := k2.SetVote (NewVote id a1 .OptionYes)
      let k4 := k3.SetVote (NewVote id a2 .OptionYes)
      k1.AddVote id a0 .OptionYes = .ok k2 ∧
      k2.AddVote id a1 .OptionYes = .ok k3 ∧
      k3.AddVote id a2 .OptionYes = .ok k4 ∧
      k4.TallyResult id
        = .ok { Yes := 3 * 5 * 1000000, No := 0, Abstain := 0, NoWithVeto := 0 }) ∧
    (p.Status.isTerminal = true → k.TallyResult proposalID = .ok p.FinalTallyResult) := by
  have hid := getProposal_some k proposalID p hp
  refine ⟨fun ht hk => ?_, fun ht hv => ?_, ?_, fun ht => ?_⟩
  · refine ⟨k.Tally p, ?_, fun o => ?_⟩
    · simp [Keeper.TallyResult, hp, ht]
    · rw [tally_get k hk p o, hid]
  · refine ⟨?_, get_empty⟩
    simp only [Keeper.TallyResult, hp, ht, Bool.false_eq_true, if_false]
    rw [tally_no_votes k p (by rw [hid]; exact hv)]
  · intro a0 a1 a2 h01 h02 h12 id final
    exact tally_three_validators a0 a1 a2 h01 h02 h12 id final
  · simp [Keeper.TallyResult, hp, ht]

/-- The sample state: the tally of the proposal in its voting period, where the delegator 20
inherits the Yes of its validator and the delegator 21 votes Yes against the No of its
validator; the proposal that has passed; the proposal without votes. -/
theorem tally_reported_witness :
    sampleKeeper.TallyResult 1 = .ok ⟨5000007, 5000000, 0, 0⟩ ∧
    (∃ t, sampleKeeper.TallyResult 1 = .ok t ∧
      ∀ o, t.get o =
        ((sampleKeeper.Votes.filter (fun v => v.ProposalID = 1 ∧ v.Option = o)).map
          (fun v => sampleKeeper.votingPower 1 v.Voter)).sum) ∧
    sampleKeeper.TallyResult 2 = .ok ⟨7, 1, 0, 0⟩ ∧
    sampleKeeper.TallyResult 3 = .ok EmptyTallyResult :=
  ⟨rfl,
   (tally_reported sampleKeeper 1 ⟨1, .StatusVotingPeriod, EmptyTallyResult⟩ rfl).1 rfl
      (by decide),
   (tally_reported sampleKeeper 2 ⟨2, .StatusPassed, ⟨7, 1, 0, 0⟩⟩ rfl).2.2.2 rfl,
   ((tally_reported sampleKeeper 3 ⟨3, .StatusVotingPeriod, EmptyTallyResult⟩ rfl).2.1 rfl
      (by decide)).1⟩

/-! ## C22: casting and querying a vote -/

/-- C22, as stated, fails for a voter without voting power: in the state of
`TestGRPCQueryVote`, where no stake is bonded, the address 10 has no voting power on the
proposal 1, which is in its voting period, and `AddVote` does not fail with the
voter-not-eligible error: it stores the vote, and the query returns it. -/
theorem vote_without_power_stored :
    sampleVoting.GetProposal 1 = some ⟨1, .StatusVotingPeriod, EmptyTallyResult⟩ ∧
    sampleVoting.votingPower 1 10 = 0 ∧
    sampleVoting.AddVote 1 10 .OptionAbstain ≠ .error .VoterNotEligible ∧
    sampleVoting.AddVote 1 10 .OptionAbstain
      = .ok (sampleVoting.SetVote (NewVote 1 10 .OptionAbstain)) ∧
    (sampleVoting.SetVote (NewVote 1 10 .OptionAbstain)).Vote 1 10
      = .ok (NewVote 1 10 .OptionAbstain) := by
  refine ⟨rfl, rfl, ?_, rfl, rfl⟩
  intro h
  have h2 : sampleVoting.AddVote 1 10 .OptionAbstain
      = .ok (sampleVoting.SetVote (NewVote 1 10 .OptionAbstain)) := rfl
  rw [h2] at h
  cases h

/-- C22 (amended): for every stored proposal, voter and option, `AddVote` fails with the
invalid-state error unless the proposal is in VotingPeriod, and otherwise, whatever the voting
power of the voter, it stores the vote, so that the query of the vote of (proposal id, voter)
returns exactly that vote, in the place of an earlier vote of the voter, the votes of the
other voters and proposals staying as they were. The query of the vote of a voter who has not
voted on the proposal returns an error. -/
theorem vote_stored (k : Keeper A) (proposalID : Nat) (voter : A) (option : VoteOption)
    (p : Proposal) (hp : k.GetProposal proposalID = some p) :
    (p.Status ≠ .StatusVotingPeriod →
      k.AddVote proposalID voter option = .error .InvalidState) ∧
    (p.Status = .StatusVotingPeriod →
      ∃ k1, k.AddVote proposalID voter option = .ok k1 ∧
        k1.Vote proposalID voter = .ok (NewVote proposalID voter option) ∧
        (∀ (id : Nat) (a : A), ¬ (id = proposalID ∧ a = voter) → k1.Vote id a = k.Vote id a) ∧
        (k.oneVotePerVoter → k1.oneVotePerVoter) ∧
        k1.Proposals = k.Proposals ∧ k1.Delegations = k.Delegations) ∧
    ((∀ v ∈ k.Votes, ¬ (v.ProposalID = proposalID ∧ v.Voter = voter)) →
      k.Vote proposalID voter = .error .NotFound) := by
  refine ⟨fun hs => ?_, fun hs => ?_, fun hv => ?_⟩
  · simp [Keeper.AddVote, hp, hs]
  · refine ⟨k.SetVote (NewVote proposalID voter option), ?_, ?_, ?_, ?_, rfl, rfl⟩
    · simp [Keeper.AddVote, hp, hs]
    · unfold Keeper.Vote
      have := getVote_setVote_same k (NewVote proposalID voter option)
      simp only [NewVote] at this ⊢
      rw [this]
    · intro id a hne
      unfold Keeper.Vote
      rw [getVote_setVote_other k (NewVote proposalID voter option) id a
        (fun h => hne ⟨h.1.symm, h.2.symm⟩)]
    · exact oneVotePerVoter_setVote k _
  · unfold Keeper.Vote
    have hnone : k.GetVote proposalID voter = none := by
      unfold Keeper.GetVote
      apply List.find?_eq_none.mpr
      intro v hmem
      simpa using hv v hmem
    rw [hnone]

/-- The scenario of `TestGRPCQueryVote`: the vote of the address 10 for Abstain is stored and
returned, the address 11 has no vote; a second vote of a voter takes the place of the first;
and a vote on a proposal in its deposit period fails. -/
theorem vote_stored_witness :
    (∃ k1, sampleVoting.AddVote 1 10 .OptionAbstain = .ok k1 ∧
        k1.Vote 1 10 = .ok (NewVote 1 10 .OptionAbstain) ∧
        (∀ (id : Nat) (a : Nat), ¬ (id = 1 ∧ a = 10) → k1.Vote id a = sampleVoting.Vote id a) ∧
        (sampleVoting.oneVotePerVoter → k1.oneVotePerVoter) ∧
        k1.Proposals = sampleVoting.Proposals ∧ k1.Delegations = sampleVoting.Delegations) ∧
    sampleVoting.Vote 1 11 = .error .NotFound ∧
    (∃ k1, sampleKeeper.AddVote 1 11 .OptionYes = .ok k1 ∧
        k1.Vote 1 11 = .ok (NewVote 1 11 .OptionYes) ∧
        (∀ (id : Nat) (a : Nat), ¬ (id = 1 ∧ a = 11) → k1.Vote id a = sampleKeeper.Vote id a) ∧
        (sampleKeeper.oneVotePerVoter → k1.oneVotePerVoter) ∧
        k1.Proposals = sampleKeeper.Proposals ∧ k1.Delegations = sampleKeeper.Delegations) ∧
    sampleVoting.AddVote 2 10 .OptionYes = .error .InvalidState :=
  ⟨(vote_stored sampleVoting 1 10 .OptionAbstain ⟨1, .StatusVotingPeriod, EmptyTallyResult⟩
      rfl).2.1 rfl,
   (vote_stored sampleVoting 1 11 .OptionYes ⟨1, .StatusVotingPeriod, EmptyTallyResult⟩
      rfl).2.2 (by decide),
   (vote_stored sampleKeeper 1 11 .OptionYes ⟨1, .StatusVotingPeriod, EmptyTallyResult⟩
      rfl).2.1 rfl,
   (vote_stored sampleVoting 2 10 .OptionYes ⟨2, .StatusDepositPeriod, EmptyTallyResult⟩
      rfl).1 (by decide)⟩

end Gov
